import Mathlib

/-!
# Verification of the brainfrick-rs compiler and executors

A shallow embedding of the `brainfrick-rs` repository: the instruction set
(`src/instruction.rs`), the optimizing compiler and its four rewrite passes
(`src/compiler.rs`), the tape-machine executor (`src/vm.rs`), and the naive
interpreter (`src/interpreter.rs`), together with proofs about the
specified properties of these components.

Machine integers are modelled as `Nat`/`Int` with explicit reductions
modulo `2 ^ 64` (for `usize` casts) and modulo `256` (for `u8` cells)
exactly where the Rust code wraps.  Fallible operations (panics, `unwrap`,
`assert!`) are modelled with `Option` or explicit failure outcomes.
-/

set_option maxHeartbeats 1000000
set_option linter.unusedVariables false

/-! ## Instruction set (`src/instruction.rs`)

The compiler/VM instruction enum.  `Shift` carries `isize` (modelled as
`Int`), `Alt` carries `i16` (modelled as `Int`; its arithmetic is reduced
mod `256` by the executor exactly as the `as u8` casts do), `Copy` carries
a `u8` multiplier (modelled as `Nat`, produced reduced mod `256`) and an
`isize` offset. -/
inductive Instruction where
  | Shift (d : Int)
  | Alt (d : Int)
  | Out
  | In
  | Loop
  | End
  | NoOp
  | Clear
  | Copy (mul : Nat) (offset : Int)
deriving DecidableEq, Repr

/-- Lexer: `impl TryFrom<char> for Instruction`.  Unrecognized characters
map to `none` (the `Err(())` case, filtered out by the parser). -/
def charToInstruction (c : Char) : Option Instruction :=
  if c = '>' then some (.Shift 1)
  else if c = '<' then some (.Shift (-1))
  else if c = '+' then some (.Alt 1)
  else if c = '-' then some (.Alt (-1))
  else if c = '.' then some .Out
  else if c = ',' then some .In
  else if c = '[' then some .Loop
  else if c = ']' then some .End
  else none

/-- The parse step of `compile`: `src.chars().map(try_from).filter_map(ok)`. -/
def parseSrc (src : List Char) : List Instruction :=
  src.filterMap charToInstruction

/-! ## Optimizer passes (`src/compiler.rs`) -/

/-- Contraction (`contraction_optimizer`): collapse maximal runs of
consecutive `Shift` (resp. `Alt`) instructions into one instruction with
the summed delta.  `pending` is the instruction currently being
accumulated (the `cur` variable of the Rust loop; the head of the
remaining input is the peeked instruction). -/
def contrGo : Option Instruction → List Instruction → List Instruction
  | none, [] => []
  | some p, [] => [p]
  | none, i :: rest => contrGo (some i) rest
  | some (.Shift a), .Shift b :: rest => contrGo (some (.Shift (a + b))) rest
  | some (.Alt a), .Alt b :: rest => contrGo (some (.Alt (a + b))) rest
  | some p, i :: rest => p :: contrGo (some i) rest

def contraction_optimizer (instructions : List Instruction) : List Instruction :=
  contrGo none instructions

/-- The instructions removed by `no_op_reducer`:
`matches!(instruction, NoOp | Alt(0) | Shift(0))`. -/
def isNoOpLike : Instruction → Bool
  | .NoOp => true
  | .Alt d => d = 0
  | .Shift d => d = 0
  | _ => false

/-- No-op reduction (`no_op_reducer`): remove every `NoOp`, `Alt(0)` and
`Shift(0)`. -/
def no_op_reducer (instructions : List Instruction) : List Instruction :=
  instructions.filter (fun i => !isNoOpLike i)

/-- One push step of `clear_loop_optimizer`.  The accumulator holds the
output in reverse order (its head is the most recently emitted
instruction), so pushing is `cons`, inspecting `output[len-3..]` is
inspecting the first three entries, and `remove_n 3` is dropping them. -/
def clearStep (out : List Instruction) (i : Instruction) : List Instruction :=
  match i, out with
  | .End, .Alt a :: .Loop :: rest =>
      if a = -1 then .Clear :: rest else .End :: out
  | _, _ => i :: out

/-- Clear-loop folding (`clear_loop_optimizer`): left-to-right single pass
replacing each emitted `[Loop, Alt(-1), End]` window with `Clear`. -/
def clear_loop_optimizer (instructions : List Instruction) : List Instruction :=
  (instructions.foldl clearStep []).reverse

/-- One push step of `copy_loop_optimizer` (same reversed-accumulator
convention as `clearStep`).  The two arms are the two six-instruction
windows `[Loop, Alt(-1), Shift(o1), Alt(x), Shift(o2), End]` and
`[Loop, Shift(o1), Alt(x), Shift(o2), Alt(-1), End]`, guarded by
`x > 0 && o1 == -o2`; `x as u8` is `x.toNat % 256`. -/
def copyStep (out : List Instruction) (i : Instruction) : List Instruction :=
  match i, out with
  | .End, .Shift o2 :: .Alt x :: .Shift o1 :: .Alt a :: .Loop :: rest =>
      if a = -1 ∧ 0 < x ∧ o1 = -o2 then
        .Clear :: .Copy (x.toNat % 256) o1 :: rest
      else .End :: out
  | .End, .Alt a :: .Shift o2 :: .Alt x :: .Shift o1 :: .Loop :: rest =>
      if a = -1 ∧ 0 < x ∧ o1 = -o2 then
        .Clear :: .Copy (x.toNat % 256) o1 :: rest
      else .End :: out
  | _, _ => i :: out

/-- Copy-loop folding (`copy_loop_optimizer`). -/
def copy_loop_optimizer (instructions : List Instruction) : List Instruction :=
  (instructions.foldl copyStep []).reverse

/-- The full pipeline, in the order returned by `get_optimizers`:
Contraction, then NoOpReducer, then ClearLoop, then CopyLoop. -/
def optimize (instructions : List Instruction) : List Instruction :=
  copy_loop_optimizer (clear_loop_optimizer (no_op_reducer (contraction_optimizer instructions)))

/-! ## Bracket matching and `compile` -/

/-- The bracket-matching scan of `compile`: a stack of open positions; on
`End` pop (panicking, i.e. `none`, when the stack is empty); the map is an
association list where later inserts are consed on the front (first match
wins on lookup, like the `HashMap` it models; every key is inserted only
once).  The final `assert_eq!(0, stack.len())` is the `stack = []` check
on exhausted input. -/
def scanBrackets : List Instruction → Nat → List Nat → List (Nat × Nat) →
    Option (List (Nat × Nat))
  | [], _, stack, acc => if stack = [] then some acc else none
  | .Loop :: rest, ptr, stack, acc => scanBrackets rest (ptr + 1) (ptr :: stack) acc
  | .End :: rest, ptr, stack, acc =>
      match stack with
      | [] => none
      | o :: stack2 => scanBrackets rest (ptr + 1) stack2 ((ptr, o) :: (o, ptr) :: acc)
  | _ :: rest, ptr, stack, acc => scanBrackets rest (ptr + 1) stack acc

/-- Map lookup (`HashMap` indexing). -/
def lookupMap (m : List (Nat × Nat)) (k : Nat) : Option Nat :=
  (m.find? (fun e => e.1 = k)).map (fun e => e.2)

/-- The `Program` bundle: optimized instructions plus the loop map
(`stats` omitted: it is dead data). -/
structure Program where
  instructions : List Instruction
  loop_map : List (Nat × Nat)
deriving DecidableEq, Repr

/-- `compile`: parse, optimize, match brackets.  `none` models the fatal
panic on unbalanced brackets (`unwrap` on pop / final assert). -/
def compile (src : List Char) : Option Program :=
  (scanBrackets (optimize (parseSrc src)) 0 [] []).map
    (fun m => ⟨optimize (parseSrc src), m⟩)

/-! ## The tape-machine executor (`src/vm.rs`) -/

/-- `const MEM: usize = 30_000`. -/
def MEM : Nat := 30000

/-- Two to the sixty-fourth: the modulus of `usize` arithmetic. -/
def USIZE : Nat := 2 ^ 64

/-- The pointer computation of `Shift` and of the `Copy` target:
`((d_ptr as isize + count) as usize) % MEM`.  The `as usize` cast of a
negative `isize` is two's-complement reinterpretation, i.e. reduction
modulo `2 ^ 64`. -/
def shiftCode (p : Nat) (d : Int) : Nat :=
  ((((p : Int) + d) % (USIZE : Int)).toNat) % MEM

/-- Pointwise tape update. -/
def setTape (tape : Nat → Nat) (i v : Nat) : Nat → Nat :=
  fun j => if j = i then v else tape j

/-- The `Alt` cell computation: `wrapping_add(amount as u8)` for positive
`amount`, `wrapping_sub(-amount as u8)` for negative (`amount = 0` is the
`unreachable!()` branch, handled by the caller). -/
def altCode (v : Nat) (d : Int) : Nat :=
  if 0 < d then (v + d.toNat % 256) % 256
  else (v + (256 - (-d).toNat % 256)) % 256

/-- Executor state: tape, data pointer, instruction pointer, and the
buffered test I/O capability (input queue, output list). -/
structure VMState where
  tape : Nat → Nat
  d_ptr : Nat
  in_ptr : Nat
  input : List Nat
  output : List Nat

/-- Reasons for a fatal executor abort (each models a Rust panic). -/
inductive VMErr where
  | noOpPanic
  | altZeroPanic
  | inputPanic
  | mapPanic
deriving DecidableEq, Repr

/-- Outcome of one dispatch-loop iteration. -/
inductive VMOutcome where
  | cont (s : VMState)
  | halt (s : VMState)
  | fail (e : VMErr)

/-- One iteration of `VM::run`'s dispatch loop. -/
def vmStep (p : Program) (s : VMState) : VMOutcome :=
  match p.instructions.get? s.in_ptr with
  | none => .halt s
  | some ins =>
    match ins with
    | .Shift count => .cont { s with d_ptr := shiftCode s.d_ptr count, in_ptr := s.in_ptr + 1 }
    | .Alt amount =>
        if amount = 0 then .fail .altZeroPanic
        else .cont { s with
          tape := setTape s.tape s.d_ptr (altCode (s.tape s.d_ptr) amount),
          in_ptr := s.in_ptr + 1 }
    | .Out => .cont { s with output := s.output ++ [s.tape s.d_ptr], in_ptr := s.in_ptr + 1 }
    | .In =>
        match s.input with
        | [] => .fail .inputPanic
        | b :: rest => .cont { s with
            tape := setTape s.tape s.d_ptr b, input := rest, in_ptr := s.in_ptr + 1 }
    | .Loop =>
        if s.tape s.d_ptr = 0 then
          match lookupMap p.loop_map s.in_ptr with
          | none => .fail .mapPanic
          | some c => .cont { s with in_ptr := c + 1 }
        else .cont { s with in_ptr := s.in_ptr + 1 }
    | .End =>
        if s.tape s.d_ptr ≠ 0 then
          match lookupMap p.loop_map s.in_ptr with
          | none => .fail .mapPanic
          | some o => .cont { s with in_ptr := o + 1 }
        else .cont { s with in_ptr := s.in_ptr + 1 }
    | .Clear => .cont { s with tape := setTape s.tape s.d_ptr 0, in_ptr := s.in_ptr + 1 }
    | .Copy mul offset =>
        let target := shiftCode s.d_ptr offset
        .cont { s with
          tape := setTape s.tape target
            ((s.tape target + (s.tape s.d_ptr * mul) % 256) % 256),
          in_ptr := s.in_ptr + 1 }
    | .NoOp => .fail .noOpPanic

/-- Fuel-indexed iteration of `vmStep` (the `while` loop of `VM::run`).
Running out of fuel reports the still-running state as `cont`. -/
def vmRun (p : Program) : Nat → VMState → VMOutcome
  | 0, s => .cont s
  | fuel + 1, s =>
    match vmStep p s with
    | .cont s2 => vmRun p fuel s2
    | r => r

/-- Initial executor state: zeroed tape, both pointers zero. -/
def vmInit (input : List Nat) : VMState :=
  { tape := fun _ => 0, d_ptr := 0, in_ptr := 0, input := input, output := [] }

/-- The output of a *terminated* VM run (`none` when the run fails or has
not yet halted within the given fuel). -/
def vmOut (p : Program) (fuel : Nat) (input : List Nat) : Option (List Nat) :=
  match vmRun p fuel (vmInit input) with
  | .halt s => some s.output
  | _ => none

/-! ## The naive interpreter (`src/interpreter.rs`)

The interpreter has its own instruction enum (`Right`/`Left`/`Inc`/`Dec`/
`Out`/`In`/`Loop`/`End`) and its own bracket scan, which — unlike the
compiler's — does **not** check that the stack is empty at the end of the
scan.

Its arithmetic is unchecked in the Rust source (`d_ptr += 1`,
`data[d_ptr] += 1`, ...), whose out-of-range behaviour is a panic (index
out of bounds / debug overflow).  Following claim C10's side conditions we
model each such operation as *failing* the run whenever the data pointer
would leave `[0, MEM)`, a cell would leave `[0, 255]`, or input is
exhausted; the equivalence claim quantifies only over runs where none of
these occur. -/
inductive IInstruction where
  | Right
  | Left
  | Inc
  | Dec
  | Out
  | In
  | Loop
  | End
deriving DecidableEq, Repr

def charToIInstruction (c : Char) : Option IInstruction :=
  if c = '>' then some .Right
  else if c = '<' then some .Left
  else if c = '+' then some .Inc
  else if c = '-' then some .Dec
  else if c = '.' then some .Out
  else if c = ',' then some .In
  else if c = '[' then some .Loop
  else if c = ']' then some .End
  else none

def parseISrc (src : List Char) : List IInstruction :=
  src.filterMap charToIInstruction

/-- The interpreter's bracket scan (`Interpreter::new_with_io`): same
stack algorithm as the compiler, but with **no** final balance assert —
unmatched opens are silently left out of the map.  `none` models only the
`unwrap` panic on popping an empty stack. -/
def scanIBrackets : List IInstruction → Nat → List Nat → List (Nat × Nat) →
    Option (List (Nat × Nat))
  | [], _, _, acc => some acc
  | .Loop :: rest, ptr, stack, acc => scanIBrackets rest (ptr + 1) (ptr :: stack) acc
  | .End :: rest, ptr, stack, acc =>
      match stack with
      | [] => none
      | o :: stack2 => scanIBrackets rest (ptr + 1) stack2 ((ptr, o) :: (o, ptr) :: acc)
  | _ :: rest, ptr, stack, acc => scanIBrackets rest (ptr + 1) stack acc

/-- An interpreter instance: instructions plus loop map (state lives in
`VMState`-shaped data below). -/
structure Interp where
  instructions : List IInstruction
  loop_map : List (Nat × Nat)
deriving DecidableEq, Repr

/-- `Interpreter::new_with_io`. -/
def mkInterp (src : List Char) : Option Interp :=
  let instructions := parseISrc src
  (scanIBrackets instructions 0 [] []).map (fun m => ⟨instructions, m⟩)

/-- One iteration of `Interpreter::run`'s loop, checked as described
above. -/
def interpStep (p : Interp) (s : VMState) : VMOutcome :=
  match p.instructions.get? s.in_ptr with
  | none => .halt s
  | some ins =>
    match ins with
    | .Right =>
        if s.d_ptr + 1 < MEM then .cont { s with d_ptr := s.d_ptr + 1, in_ptr := s.in_ptr + 1 }
        else .fail .mapPanic
    | .Left =>
        if 0 < s.d_ptr then .cont { s with d_ptr := s.d_ptr - 1, in_ptr := s.in_ptr + 1 }
        else .fail .mapPanic
    | .Inc =>
        if s.tape s.d_ptr + 1 ≤ 255 then
          .cont { s with tape := setTape s.tape s.d_ptr (s.tape s.d_ptr + 1),
                         in_ptr := s.in_ptr + 1 }
        else .fail .mapPanic
    | .Dec =>
        if 0 < s.tape s.d_ptr then
          .cont { s with tape := setTape s.tape s.d_ptr (s.tape s.d_ptr - 1),
                         in_ptr := s.in_ptr + 1 }
        else .fail .mapPanic
    | .Out => .cont { s with output := s.output ++ [s.tape s.d_ptr], in_ptr := s.in_ptr + 1 }
    | .In =>
        match s.input with
        | [] => .fail .inputPanic
        | b :: rest => .cont { s with
            tape := setTape s.tape s.d_ptr b, input := rest, in_ptr := s.in_ptr + 1 }
    | .Loop =>
        if s.tape s.d_ptr = 0 then
          match lookupMap p.loop_map s.in_ptr with
          | none => .fail .mapPanic
          | some c => .cont { s with in_ptr := c + 1 }
        else .cont { s with in_ptr := s.in_ptr + 1 }
    | .End =>
        if s.tape s.d_ptr ≠ 0 then
          match lookupMap p.loop_map s.in_ptr with
          | none => .fail .mapPanic
          | some o => .cont { s with in_ptr := o + 1 }
        else .cont { s with in_ptr := s.in_ptr + 1 }

/-- Fuel-indexed iteration of `interpStep`. -/
def interpRun (p : Interp) : Nat → VMState → VMOutcome
  | 0, s => .cont s
  | fuel + 1, s =>
    match interpStep p s with
    | .cont s2 => interpRun p fuel s2
    | r => r

/-- Output of a terminated interpreter run on the given source and input
(`none` when construction panics, the run fails one of the claim's side
conditions, or the fuel is insufficient). -/
def interpOut (src : List Char) (input : List Nat) (fuel : Nat) : Option (List Nat) :=
  match mkInterp src with
  | none => none
  | some p =>
    match interpRun p fuel (vmInit input) with
    | .halt s => some s.output
    | _ => none

/-! ## Definitions modelled from the spec's words

These two definitions transcribe the specification text (mathematical
modulo wraparound for the data pointer, additive 8-bit wraparound for
cells); they exist to be compared against the code-derived `shiftCode`
and `altCode`. -/

/-- Modelled from the spec: `pointer = (pointer + d) mod tape_length`
with mathematical modulo. -/
def specShift (p : Nat) (d : Int) : Nat :=
  (((p : Int) + d) % (MEM : Int)).toNat

/-- Modelled from the spec: `tape[pointer] = tape[pointer] + d` with 8-bit
wraparound. -/
def specAlt (v : Nat) (d : Int) : Nat :=
  (((v : Int) + d) % 256).toNat

/-! ## Pattern-occurrence predicates for the folding passes -/

/-- Does a list start with the clear-loop window `[Loop, Alt(-1), End]`? -/
def isClearWin : List Instruction → Bool
  | .Loop :: .Alt a :: .End :: _ => a = -1
  | _ => false

/-- Does a list contain the clear-loop window anywhere? -/
def hasClearWin : List Instruction → Bool
  | [] => false
  | i :: rest => isClearWin (i :: rest) || hasClearWin rest

/-- Does a list start with one of the two copy-loop windows (with their
guards)? -/
def isCopyWin : List Instruction → Bool
  | .Loop :: .Alt a :: .Shift o1 :: .Alt x :: .Shift o2 :: .End :: _ =>
      a = -1 && 0 < x && o1 = -o2
  | .Loop :: .Shift o1 :: .Alt x :: .Shift o2 :: .Alt a :: .End :: _ =>
      a = -1 && 0 < x && o1 = -o2
  | _ => false

/-- Does a list contain a copy-loop window anywhere? -/
def hasCopyWin : List Instruction → Bool
  | [] => false
  | i :: rest => isCopyWin (i :: rest) || hasCopyWin rest

/-- Instructions that can stand in the middle of a copy window. -/
def isArith : Instruction → Bool
  | .Alt _ => true
  | .Shift _ => true
  | _ => false

/-- Instructions no copy window can contain. -/
def isBarrier : Instruction → Bool
  | .Clear => true
  | .Copy _ _ => true
  | _ => false

/-- The contraction kind of an instruction: `Shift`s merge with `Shift`s,
`Alt`s with `Alt`s, nothing else merges. -/
def kindOf : Instruction → Option Bool
  | .Shift _ => some true
  | .Alt _ => some false
  | _ => none

/-- No two adjacent instructions of the same mergeable kind. -/
def noRuns : List Instruction → Bool
  | .Shift _ :: .Shift _ :: _ => false
  | .Alt _ :: .Alt _ :: _ => false
  | _ :: rest => noRuns rest
  | [] => true

/-! ## Structured program trees (proof infrastructure for C4 and C10)

A balanced instruction sequence is the flattening of a list of trees in
which every `Loop`/`End` pair became a `block` node.  The bracket scan,
the optimizer passes and the executors are all related to this structured
view in the proofs below. -/

inductive T where
  | ins (i : Instruction)
  | block (b : List T)

mutual
def flatT : T → List Instruction
  | .ins i => [i]
  | .block b => .Loop :: flatL b ++ [.End]
def flatL : List T → List Instruction
  | [] => []
  | t :: ts => flatT t ++ flatL ts
end

mutual
def wfT : T → Prop
  | .ins i => i ≠ .Loop ∧ i ≠ .End
  | .block b => wfL b
def wfL : List T → Prop
  | [] => True
  | t :: ts => wfT t ∧ wfL ts
end

/-- The bracket-map entries the scan records while walking `flatL ts`
starting at absolute position `k`, in chronological insertion order. -/
def insOrder (k : Nat) : List T → List (Nat × Nat)
  | [] => []
  | .ins _ :: ts => insOrder (k + 1) ts
  | .block b :: ts =>
      insOrder (k + 1) b ++
        [(k, k + 1 + (flatL b).length), (k + 1 + (flatL b).length, k)] ++
        insOrder (k + 2 + (flatL b).length) ts

/-- The open/close pairs of `flatL ts` at base position `k`. -/
def pairsOf (k : Nat) : List T → List (Nat × Nat)
  | [] => []
  | .ins _ :: ts => pairsOf (k + 1) ts
  | .block b :: ts =>
      (k, k + 1 + (flatL b).length) :: pairsOf (k + 1) b ++
        pairsOf (k + 2 + (flatL b).length) ts

/-- The bracket word of an instruction sequence (`true` = `Loop`,
`false` = `End`). -/
def bracketsOf (l : List Instruction) : List Bool :=
  l.filterMap (fun i => match i with
    | .Loop => some true
    | .End => some false
    | _ => none)

/-- Dyck check of a bracket word below an ambient depth `d`. -/
def balB : List Bool → Nat → Bool
  | [], d => d = 0
  | true :: t, d => balB t (d + 1)
  | false :: t, d =>
      match d with
      | 0 => false
      | d2 + 1 => balB t d2

/-- One deletion of an adjacent `[` `]` pair from a bracket word. -/
inductive DelStep : List Bool → List Bool → Prop
  | mk (u v : List Bool) : DelStep (u ++ true :: false :: v) (u ++ v)

/-- Finitely many adjacent-pair deletions. -/
def Del : List Bool → List Bool → Prop := Relation.ReflTransGen DelStep

/-- Structure parser: a stack of partially built sibling lists, one frame
per open bracket. -/
def pfold : List Instruction → List (List T) → Option (List T)
  | [], [ts] => some ts
  | [], _ => none
  | .Loop :: rest, stack => pfold rest ([] :: stack)
  | .End :: rest, top :: next :: stack => pfold rest ((next ++ [T.block top]) :: stack)
  | .End :: _, _ => none
  | i :: rest, top :: stack => pfold rest ((top ++ [T.ins i]) :: stack)
  | _ :: _, [] => none

def parseTs (l : List Instruction) : Option (List T) := pfold l [[]]

/-- The instructions already consumed to reach a parser stack. -/
def stackFlat : List (List T) → List Instruction
  | [] => []
  | [ts] => flatL ts
  | top :: rest => stackFlat rest ++ .Loop :: flatL top

/-! ## Common executor state and per-instruction semantics (for C10)

To relate the interpreter and the VM across the optimizer, both executors
are re-expressed as one generic fetch/dispatch machine over a `Program`,
parameterized by the semantics `σ` of the non-bracket instructions; the
bracket handling (identical in `interpreter.rs` and `vm.rs`) is shared.
`primVM` transcribes the `vm.rs` arithmetic; `primChk` is the checked
per-instruction semantics of the interpreter (generalized from the ±1
steps to arbitrary deltas, failing whenever the pointer would leave
`[0, MEM)`, a cell would leave `[0, 255]`, or input is exhausted; `Copy`
is given its loop meaning, a no-op when the source cell is zero).  Both
are proved to coincide with the respective executors' steps below. -/

@[ext] structure St where
  tape : Nat → Nat
  ptr : Nat
  inp : List Nat
  outp : List Nat

/-- Project a `VMState` (which carries the instruction pointer) onto the
pure data state. -/
def toSt (s : VMState) : St :=
  ⟨s.tape, s.d_ptr, s.input, s.output⟩

/-- Run-time well-formedness: cells are bytes, the pointer is on the
tape, pending input is bytes. -/
def StOK (s : St) : Prop :=
  (∀ i, s.tape i ≤ 255) ∧ s.ptr < MEM ∧ (∀ b ∈ s.inp, b ≤ 255)

/-- Checked (interpreter-style) semantics of one non-bracket
instruction. -/
def primChk : Instruction → St → Option St
  | .Shift d, s =>
      if 0 ≤ (s.ptr : Int) + d ∧ (s.ptr : Int) + d < (MEM : Int) then
        some { s with ptr := (((s.ptr : Int) + d)).toNat }
      else none
  | .Alt d, s =>
      if 0 ≤ (s.tape s.ptr : Int) + d ∧ (s.tape s.ptr : Int) + d ≤ 255 then
        some { s with tape := setTape s.tape s.ptr (((s.tape s.ptr : Int) + d)).toNat }
      else none
  | .Out, s => some { s with outp := s.outp ++ [s.tape s.ptr] }
  | .In, s =>
      match s.inp with
      | [] => none
      | b :: r => some { s with tape := setTape s.tape s.ptr b, inp := r }
  | .Clear, s => some { s with tape := setTape s.tape s.ptr 0 }
  | .Copy m o, s =>
      if s.tape s.ptr = 0 then some s
      else if 0 ≤ (s.ptr : Int) + o ∧ (s.ptr : Int) + o < (MEM : Int) ∧
          s.tape (((s.ptr : Int) + o)).toNat + s.tape s.ptr * m ≤ 255 then
        some { s with tape := (setTape s.tape (((s.ptr : Int) + o)).toNat
          (s.tape (((s.ptr : Int) + o)).toNat + s.tape s.ptr * m)) }
      else none
  | .Loop, _ => none
  | .End, _ => none
  | .NoOp, _ => none

/-- `vm.rs` semantics of one non-bracket instruction (wrapping
arithmetic, `Alt 0` is the `unreachable!()`). -/
def primVM : Instruction → St → Option St
  | .Shift d, s => some { s with ptr := shiftCode s.ptr d }
  | .Alt d, s =>
      if d = 0 then none
      else some { s with tape := setTape s.tape s.ptr (altCode (s.tape s.ptr) d) }
  | .Out, s => some { s with outp := s.outp ++ [s.tape s.ptr] }
  | .In, s =>
      match s.inp with
      | [] => none
      | b :: r => some { s with tape := setTape s.tape s.ptr b, inp := r }
  | .Clear, s => some { s with tape := setTape s.tape s.ptr 0 }
  | .Copy m o, s =>
      some { s with tape := (setTape s.tape (shiftCode s.ptr o)
        ((s.tape (shiftCode s.ptr o) + (s.tape s.ptr * m) % 256) % 256)) }
  | .Loop, _ => none
  | .End, _ => none
  | .NoOp, _ => none

/-- Outcome of the generic machine. -/
inductive GOut where
  | cont (ip : Nat) (s : St)
  | halt (s : St)
  | fail

/-- Generic fetch/dispatch step: the shared `Loop`/`End`/halt logic of
both executors, with `σ` for everything else. -/
def genStep (σ : Instruction → St → Option St) (p : Program) (ip : Nat) (s : St) : GOut :=
  match p.instructions.get? ip with
  | none => .halt s
  | some .Loop =>
      if s.tape s.ptr = 0 then
        match lookupMap p.loop_map ip with
        | none => .fail
        | some c => .cont (c + 1) s
      else .cont (ip + 1) s
  | some .End =>
      if s.tape s.ptr ≠ 0 then
        match lookupMap p.loop_map ip with
        | none => .fail
        | some o => .cont (o + 1) s
      else .cont (ip + 1) s
  | some i =>
      match σ i s with
      | none => .fail
      | some s2 => .cont (ip + 1) s2

/-- Fuel-indexed iteration of `genStep`. -/
def genRun (σ : Instruction → St → Option St) (p : Program) : Nat → Nat → St → GOut
  | 0, ip, s => .cont ip s
  | fuel + 1, ip, s =>
    match genStep σ p ip s with
    | .cont ip2 s2 => genRun σ p fuel ip2 s2
    | r => r

/-! ## Big-step tree semantics -/

/-- Compositional big-step semantics of a tree list: `block` iterates its
body while the current cell is nonzero.  `none` is failure *or* fuel
exhaustion. -/
def runL (σ : Instruction → St → Option St) : Nat → List T → St → Option St
  | 0, _, _ => none
  | _ + 1, [], s => some s
  | fuel + 1, .ins i :: ts, s =>
      match σ i s with
      | none => none
      | some s2 => runL σ fuel ts s2
  | fuel + 1, .block b :: ts, s =>
      if s.tape s.ptr = 0 then runL σ fuel ts s
      else
        match runL σ fuel b s with
        | none => none
        | some s2 => runL σ fuel (.block b :: ts) s2

/-- Continuation-style tree semantics: one fuel unit per step, in exact
lockstep with the generic machine (frames hold a loop body and the list
after the block). -/
def runK (σ : Instruction → St → Option St) :
    Nat → List T → List (List T × List T) → St → Option St
  | 0, _, _, _ => none
  | _ + 1, [], [], s => some s
  | fuel + 1, [], (b, rest) :: k, s =>
      if s.tape s.ptr = 0 then runK σ fuel rest k s
      else runK σ fuel b ((b, rest) :: k) s
  | fuel + 1, .ins i :: ts, k, s =>
      match σ i s with
      | none => none
      | some s2 => runK σ fuel ts k s2
  | fuel + 1, .block b :: ts, k, s =>
      if s.tape s.ptr = 0 then runK σ fuel ts k s
      else runK σ fuel b ((b, ts) :: k) s

/-- The instructions still ahead of a continuation stack. -/
def closing : List (List T × List T) → List Instruction
  | [] => []
  | (_, rest) :: k => Instruction.End :: (flatL rest ++ closing k)

/-- Frame invariant of the machine/tree lockstep: each frame's loop has a
position `ipL` in the whole program `W` whose suffix spells out the frame,
whose bracket pair is recorded, and whose parts' pairs are pairs of `W`.
`e` is the position of the frame's `End`. -/
def stkInv (W : List T) : List (List T × List T) → Nat → Prop
  | [], _ => True
  | (b, rest) :: k, e =>
      ∃ ipL, e = ipL + 1 + (flatL b).length ∧
        (flatL W).drop ipL =
          Instruction.Loop :: (flatL b ++ (Instruction.End :: (flatL rest ++ closing k))) ∧
        (ipL, e) ∈ pairsOf 0 W ∧
        (∀ q, q ∈ pairsOf (ipL + 1) b → q ∈ pairsOf 0 W) ∧
        (∀ q, q ∈ pairsOf (e + 1) rest → q ∈ pairsOf 0 W) ∧
        wfL b ∧ wfL rest ∧ stkInv W k (e + 1 + (flatL rest).length)

/-- Full lockstep invariant: the program is the flattening of `W`, the
loop map answers exactly the recorded pairs, the program suffix at `ip`
spells out the configuration, and every structural pair in sight is a
pair of `W`. -/
def MInv (W : List T) (p : Program) (cur : List T) (stk : List (List T × List T))
    (ip : Nat) : Prop :=
  p.instructions = flatL W ∧
  (∀ a b : Nat, lookupMap p.loop_map a = some b ↔ (a, b) ∈ insOrder 0 W) ∧
  (flatL W).drop ip = flatL cur ++ closing stk ∧
  wfL cur ∧
  (∀ q, q ∈ pairsOf ip cur → q ∈ pairsOf 0 W) ∧
  stkInv W stk (ip + (flatL cur).length)

/-! ## The interpreter's instructions as compiler instructions -/

/-- The evident embedding of the interpreter's instruction set. -/
def i2v : IInstruction → Instruction
  | .Right => .Shift 1
  | .Left => .Shift (-1)
  | .Inc => .Alt 1
  | .Dec => .Alt (-1)
  | .Out => .Out
  | .In => .In
  | .Loop => .Loop
  | .End => .End

/-! ## The optimizer passes on trees -/

/-- Pending-instruction semantics for the contraction correspondence:
the instruction the flat pass still holds in `cur`. -/
def pendSem (p : Option Instruction) (s : St) : Option St :=
  match p with
  | none => some s
  | some i => primChk i s

/-- Contraction on trees, with the same pending accumulator as
`contrGo`; a block flushes the accumulator (brackets merge with
nothing). -/
def contrL : Option Instruction → List T → List T
  | none, [] => []
  | some p, [] => [.ins p]
  | none, .ins i :: ts => contrL (some i) ts
  | none, .block b :: ts => .block (contrL none b) :: contrL none ts
  | some (.Shift a), .ins (.Shift b) :: ts => contrL (some (.Shift (a + b))) ts
  | some (.Alt a), .ins (.Alt b) :: ts => contrL (some (.Alt (a + b))) ts
  | some p, .ins i :: ts => .ins p :: contrL (some i) ts
  | some p, .block b :: ts => .ins p :: .block (contrL none b) :: contrL none ts

/-- No-op reduction on trees. -/
def noopL : List T → List T
  | [] => []
  | .ins i :: ts => if isNoOpLike i then noopL ts else .ins i :: noopL ts
  | .block b :: ts => .block (noopL b) :: noopL ts

/-- Clear-loop folding on trees: a block whose body is exactly
`Alt (-1)` becomes `Clear`. -/
def clearL : List T → List T
  | [] => []
  | .ins i :: ts => .ins i :: clearL ts
  | .block [.ins (.Alt a)] :: ts =>
      if a = -1 then .ins .Clear :: clearL ts
      else .block [.ins (.Alt a)] :: clearL ts
  | .block b :: ts => .block (clearL b) :: clearL ts

/-- Copy-loop folding on trees: a block whose body is one of the two
four-instruction copy shapes (with the guards of `copyStep`) becomes
`Copy` then `Clear`. -/
def copyL : List T → List T
  | [] => []
  | .ins i :: ts => .ins i :: copyL ts
  | .block [.ins (.Alt a), .ins (.Shift o1), .ins (.Alt x), .ins (.Shift o2)] :: ts =>
      if a = -1 ∧ 0 < x ∧ o1 = -o2 then
        .ins (.Copy (x.toNat % 256) o1) :: .ins .Clear :: copyL ts
      else .block [.ins (.Alt a), .ins (.Shift o1), .ins (.Alt x), .ins (.Shift o2)] :: copyL ts
  | .block [.ins (.Shift o1), .ins (.Alt x), .ins (.Shift o2), .ins (.Alt a)] :: ts =>
      if a = -1 ∧ 0 < x ∧ o1 = -o2 then
        .ins (.Copy (x.toNat % 256) o1) :: .ins .Clear :: copyL ts
      else .block [.ins (.Shift o1), .ins (.Alt x), .ins (.Shift o2), .ins (.Alt a)] :: copyL ts
  | .block b :: ts => .block (copyL b) :: copyL ts

-- ===================================================================
-- Theorems
-- ===================================================================

/-! ## C1: the `Shift` step (code bug: signed-cast vs mathematical modulo) -/

/-- C1: the claim (and the spec) say `Shift(d)` sets the data pointer to
`(pointer + d) mod tape_length` with mathematical modulo, so that shifting
left from position 0 lands at 29999.  The code instead computes
`((pointer as isize + d) as usize) % MEM`, which for the reachable state
`pointer = 0`, `Shift(-1)` (program `"<"`) yields
`(2^64 - 1) % 30000 = 21615`, not `29999`.  The instruction-pointer
increment does hold.  This theorem evaluates the code at the failing
input and exhibits the divergence from the spec's formula. -/
theorem c1_shift_code_diverges_from_spec :
    compile "<".data = some ⟨[.Shift (-1)], []⟩ ∧
    vmStep ⟨[.Shift (-1)], []⟩ (vmInit []) =
      .cont { vmInit [] with d_ptr := 21615, in_ptr := 1 } ∧
    shiftCode 0 (-1) = 21615 ∧
    specShift 0 (-1) = 29999 ∧
    shiftCode 0 (-1) ≠ specShift 0 (-1) := by
  refine ⟨by decide, rfl, by decide, by decide, by decide⟩

/-! ## C8: the `Copy` step (code bug: same signed-cast target computation) -/

/-- C8: the claim says `Copy{multiplier, offset}` adds
`tape[pointer] * multiplier` (mod 256) to the cell at
`(pointer + offset) mod tape_length` and changes nothing else.  The
multiply-add, the frame conditions (source cell, data pointer, I/O
untouched) and the instruction-pointer increment all hold, but the target
is computed with the same signed-cast expression as `Shift`: from
`pointer = 0` with `Copy{multiplier: 1, offset: -1}` and `tape[0] = 1`,
the code writes cell `21615`, while the claim's formula addresses cell
`29999`. -/
theorem c8_copy_target_diverges_from_spec :
    ∃ s, vmStep ⟨[.Copy 1 (-1)], []⟩
        { tape := setTape (fun _ => 0) 0 1, d_ptr := 0, in_ptr := 0,
          input := [], output := [] } = .cont s ∧
      s.tape 21615 = 1 ∧ s.tape 29999 = 0 ∧ s.tape 0 = 1 ∧
      s.d_ptr = 0 ∧ s.in_ptr = 1 ∧ s.input = [] ∧ s.output = [] ∧
      specShift 0 (-1) = 29999 ∧ shiftCode 0 (-1) = 21615 := by
  refine ⟨_, rfl, by decide, by decide, by decide, rfl, rfl, rfl, rfl, by decide, by decide⟩

/-! ## C9: the `Alt` step -/

theorem altCode_eq_specAlt {v : Nat} (d : Int) (hv : v < 256) (hd : d ≠ 0) :
    altCode v d = specAlt v d := by
  unfold altCode specAlt
  split_ifs with h
  · obtain ⟨n, rfl⟩ : ∃ n : Nat, d = (n : Int) := ⟨d.toNat, by omega⟩
    simp only [Int.toNat_natCast]
    have key : (↑v + ↑n : Int) = (((v + n % 256) % 256 : Nat) : Int) +
        256 * ((((v + n % 256) / 256 : Nat) : Int) + ((n / 256 : Nat) : Int)) := by
      omega
    rw [key, Int.add_mul_emod_self_left,
      Int.emod_eq_of_lt (by positivity) (by omega)]
    omega
  · obtain ⟨n, rfl⟩ : ∃ n : Nat, d = -(n : Int) := ⟨(-d).toNat, by omega⟩
    simp only [neg_neg, Int.toNat_natCast]
    have key : (↑v + -↑n : Int) = (((v + (256 - n % 256)) % 256 : Nat) : Int) +
        256 * ((((v + (256 - n % 256)) / 256 : Nat) : Int) - ((n / 256 : Nat) : Int) - 1) := by
      omega
    rw [key, Int.add_mul_emod_self_left,
      Int.emod_eq_of_lt (by positivity) (by omega)]
    omega

theorem altCode_iterate_one (k v : Nat) (hv : v < 256) :
    (fun x => altCode x 1)^[k] v = (v + k) % 256 := by
  induction k generalizing v with
  | zero => simp [Nat.mod_eq_of_lt hv]
  | succ k ih =>
    rw [Function.iterate_succ_apply]
    have h1 : altCode v 1 = (v + 1) % 256 := by unfold altCode; norm_num
    rw [h1, ih _ (Nat.mod_lt _ (by norm_num))]
    omega

/-- C9: executing `Alt(d)` with `d ≠ 0` replaces `tape[pointer]` by
`tape[pointer] + d` reduced mod 256 (the spec's 8-bit wraparound,
faulting on nothing) and increments the instruction pointer by 1; and
incrementing a cell 256 times returns it to its original value. -/
theorem c9_alt_wraps_mod_256 :
    (∀ (p : Program) (s : VMState) (d : Int), d ≠ 0 →
        p.instructions.get? s.in_ptr = some (.Alt d) →
        vmStep p s = .cont { s with
          tape := setTape s.tape s.d_ptr (altCode (s.tape s.d_ptr) d),
          in_ptr := s.in_ptr + 1 }) ∧
    (∀ (v : Nat) (d : Int), v < 256 → d ≠ 0 → altCode v d = specAlt v d) ∧
    (∀ v : Nat, v < 256 → (fun x => altCode x 1)^[256] v = v) := by
  refine ⟨?_, fun v d hv hd => altCode_eq_specAlt d hv hd, fun v hv => ?_⟩
  · intro p s d hd hins
    unfold vmStep
    rw [hins]
    simp [hd]
  · rw [altCode_iterate_one 256 v hv]
    omega

/-- Witness for C9 at concrete inputs: program `[Alt 5]` from the initial
state, the arithmetic agreement at `v = 3, d = -7`, and the 256-fold
increment at `v = 7`. -/
theorem c9_alt_wraps_mod_256_witness :
    vmStep ⟨[.Alt 5], []⟩ (vmInit []) =
      .cont { vmInit [] with
        tape := setTape (vmInit []).tape 0 (altCode ((vmInit []).tape 0) 5),
        in_ptr := 1 } ∧
    altCode 3 (-7) = specAlt 3 (-7) ∧
    (fun x => altCode x 1)^[256] 7 = 7 :=
  ⟨c9_alt_wraps_mod_256.1 ⟨[.Alt 5], []⟩ (vmInit []) 5 (by decide) (by decide),
   c9_alt_wraps_mod_256.2.1 3 (-7) (by decide) (by decide),
   c9_alt_wraps_mod_256.2.2 7 (by decide)⟩

/-! ## C5: unbalanced brackets abort compilation -/

/-- C5: when the bracket scan of the optimized sequence fails — an
unmatched `LoopOpen` (non-empty stack at end of scan) or an unmatched
`LoopClose` (pop on empty stack) — `compile` aborts fatally and produces
no `Program` (so nothing is ever executed). -/
theorem c5_unbalanced_aborts_compile (src : List Char)
    (h : scanBrackets (optimize (parseSrc src)) 0 [] [] = none) :
    compile src = none := by
  unfold compile
  rw [h]
  rfl

/-- Witness for C5: an unmatched open (`"+["`) and an unmatched close
(`"]"`) both abort compilation. -/
theorem c5_unbalanced_aborts_compile_witness :
    compile "+[".data = none ∧ compile "]".data = none :=
  ⟨c5_unbalanced_aborts_compile _ (by decide),
   c5_unbalanced_aborts_compile _ (by decide)⟩

/-! ## C3: the optimized pipeline delivers no `NoOp`, `Alt(0)`, `Shift(0)` -/

theorem mem_no_op_reducer (l : List Instruction) (i : Instruction)
    (h : i ∈ no_op_reducer l) : isNoOpLike i = false := by
  unfold no_op_reducer at h
  have := List.of_mem_filter h
  simpa using this

theorem clearStep_mem (acc : List Instruction) (a i : Instruction)
    (h : i ∈ clearStep acc a) : i = a ∨ i ∈ acc ∨ i = .Clear := by
  unfold clearStep at h
  split at h
  · split at h <;> simp only [List.mem_cons] at h ⊢ <;> tauto
  · simp only [List.mem_cons] at h ⊢
    tauto

theorem copyStep_mem (acc : List Instruction) (a i : Instruction)
    (h : i ∈ copyStep acc a) :
    i = a ∨ i ∈ acc ∨ i = .Clear ∨ ∃ m o, i = .Copy m o := by
  unfold copyStep at h
  split at h
  · split at h <;> simp only [List.mem_cons] at h ⊢ <;>
      rcases h with h | h | h <;> simp [h]
  · split at h <;> simp only [List.mem_cons] at h ⊢ <;>
      rcases h with h | h | h <;> simp [h]
  · simp only [List.mem_cons] at h ⊢
    tauto

theorem foldl_clearStep_mem (l : List Instruction) (acc : List Instruction) (i : Instruction)
    (h : i ∈ l.foldl clearStep acc) : i ∈ acc ∨ i ∈ l ∨ i = .Clear := by
  induction l generalizing acc with
  | nil => exact Or.inl h
  | cons a l ih =>
    rcases ih (clearStep acc a) h with h2 | h2 | h2
    · rcases clearStep_mem acc a i h2 with h3 | h3 | h3
      · exact Or.inr (Or.inl (by simp [h3]))
      · exact Or.inl h3
      · exact Or.inr (Or.inr h3)
    · exact Or.inr (Or.inl (List.mem_cons_of_mem _ h2))
    · exact Or.inr (Or.inr h2)

theorem foldl_copyStep_mem (l : List Instruction) (acc : List Instruction) (i : Instruction)
    (h : i ∈ l.foldl copyStep acc) :
    i ∈ acc ∨ i ∈ l ∨ i = .Clear ∨ ∃ m o, i = .Copy m o := by
  induction l generalizing acc with
  | nil => exact Or.inl h
  | cons a l ih =>
    rcases ih (copyStep acc a) h with h2 | h2 | h2
    · rcases copyStep_mem acc a i h2 with h3 | h3 | h3
      · exact Or.inr (Or.inl (by simp [h3]))
      · exact Or.inl h3
      · exact Or.inr (Or.inr h3)
    · exact Or.inr (Or.inl (List.mem_cons_of_mem _ h2))
    · exact Or.inr (Or.inr h2)

/-- Every instruction in the optimized pipeline output is benign:
the no-op reducer removes all `NoOp`/`Alt 0`/`Shift 0`, and the two
folding passes only ever add `Clear` and `Copy` instructions. -/
theorem optimize_no_noOpLike (l : List Instruction) (i : Instruction)
    (h : i ∈ optimize l) : isNoOpLike i = false := by
  unfold optimize copy_loop_optimizer at h
  rw [List.mem_reverse] at h
  rcases foldl_copyStep_mem _ _ _ h with h2 | h2 | h2 | ⟨m, o, rfl⟩
  · cases h2
  · unfold clear_loop_optimizer at h2
    rw [List.mem_reverse] at h2
    rcases foldl_clearStep_mem _ _ _ h2 with h3 | h3 | h3
    · cases h3
    · exact mem_no_op_reducer _ _ h3
    · simp [h3, isNoOpLike]
  · simp [h2, isNoOpLike]
  · simp [isNoOpLike]

/-- C3: the full optimizer pipeline leaves no `NoOp`, `Alter(0)` or
`Shift(0)` in the compiled instruction sequence; consequently the
executor of a compiled program can never hit its fatal-`NoOp` branch,
while any executor state whose current instruction *is* a `NoOp` aborts
fatally with the `NoOp` panic. -/
theorem c3_no_noOp_reaches_executor :
    (∀ (src : List Char) (p : Program), compile src = some p →
      ∀ i ∈ p.instructions, isNoOpLike i = false) ∧
    (∀ (p : Program) (s : VMState),
      p.instructions.get? s.in_ptr = some .NoOp → vmStep p s = .fail .noOpPanic) ∧
    (∀ (src : List Char) (p : Program), compile src = some p →
      ∀ s : VMState, vmStep p s ≠ .fail .noOpPanic) := by
  have hcomp : ∀ (src : List Char) (p : Program), compile src = some p →
      ∀ i ∈ p.instructions, isNoOpLike i = false := by
    intro src p hp i hi
    unfold compile at hp
    rcases Option.map_eq_some'.mp hp with ⟨m, _, rfl⟩
    exact optimize_no_noOpLike _ _ hi
  refine ⟨hcomp, ?_, ?_⟩
  · intro p s h
    unfold vmStep
    rw [h]
  · intro src p hp s
    rcases hget : p.instructions.get? s.in_ptr with _ | ins
    · unfold vmStep
      rw [hget]
      simp
    · have hins : isNoOpLike ins = false :=
        hcomp src p hp ins (List.get?_mem hget)
      unfold vmStep
      rw [hget]
      cases ins with
      | Shift d => simp
      | Alt d => by_cases hd : d = 0 <;> simp [hd]
      | Out => simp
      | In => rcases s.input with _ | ⟨b, rest⟩ <;> simp
      | Loop =>
          by_cases h0 : s.tape s.d_ptr = 0 <;>
            simp only [h0, if_pos, if_neg, ne_eq, not_true_eq_false, not_false_eq_true,
              ite_true, ite_false] <;>
          (rcases lookupMap p.loop_map s.in_ptr with _ | c <;> simp)
      | End =>
          by_cases h0 : s.tape s.d_ptr = 0 <;>
            simp only [h0, ne_eq, not_true_eq_false, not_false_eq_true,
              ite_true, ite_false] <;>
          (rcases lookupMap p.loop_map s.in_ptr with _ | c <;> simp)
      | NoOp => simp [isNoOpLike] at hins
      | Clear => simp
      | Copy m o => simp

/-- Witness for C3: the program `"+[-]"` compiles to `[Alt 1, Clear]`
with no no-op-like instruction, a `NoOp` fed to the executor panics, and
the compiled program's step from the initial state is not that panic. -/
theorem c3_no_noOp_reaches_executor_witness :
    (∀ i ∈ (Program.mk [.Alt 1, .Clear] []).instructions, isNoOpLike i = false) ∧
    vmStep ⟨[.NoOp], []⟩ (vmInit []) = .fail .noOpPanic ∧
    vmStep ⟨[.Alt 1, .Clear], []⟩ (vmInit []) ≠ .fail .noOpPanic :=
  ⟨c3_no_noOp_reaches_executor.1 "+[-]".data _ (by decide),
   c3_no_noOp_reaches_executor.2.1 ⟨[.NoOp], []⟩ (vmInit []) (by decide),
   c3_no_noOp_reaches_executor.2.2 "+[-]".data _ (by decide) (vmInit [])⟩

/-! ## C6: clear-loop folding -/

theorem clearStep_ne_end (acc : List Instruction) (i : Instruction)
    (h : i ≠ .End) : clearStep acc i = i :: acc := by
  cases i <;> first | rfl | exact absurd rfl h

theorem clearStep_end_fold (rest : List Instruction) :
    clearStep (.Alt (-1) :: .Loop :: rest) .End = .Clear :: rest := by
  simp [clearStep]

/-- Any list containing the clear window has `hasClearWin`. -/
theorem hasClearWin_of_window (u v : List Instruction) :
    hasClearWin (u ++ .Loop :: .Alt (-1) :: .End :: v) = true := by
  induction u with
  | nil => simp [hasClearWin, isClearWin]
  | cons x u ih =>
    rw [List.cons_append]
    simp only [hasClearWin, ih, Bool.or_true]

/-- A clear window has the exact shape `[Loop, Alt (-1), End]` up front. -/
theorem isClearWin_shape (l : List Instruction) (h : isClearWin l = true) :
    ∃ v, l = .Loop :: .Alt (-1) :: .End :: v := by
  unfold isClearWin at h
  split at h
  · rename_i a v
    refine ⟨v, ?_⟩
    simp only [decide_eq_true_eq] at h
    rw [h]
  · cases h

/-- Splitting `hasClearWin` at a `Clear`, which no window contains. -/
theorem hasClearWin_append_clear (A B : List Instruction) :
    hasClearWin (A ++ .Clear :: B) = (hasClearWin A || hasClearWin B) := by
  induction A with
  | nil => rfl
  | cons x A ih =>
    rw [List.cons_append]
    simp only [hasClearWin, ih]
    have hx : isClearWin (x :: (A ++ .Clear :: B)) = isClearWin (x :: A) := by
      rcases A with _ | ⟨y, _ | ⟨z, A2⟩⟩
      · cases x <;> rfl
      · cases x <;> try rfl
        cases y <;> rfl
      · cases x <;> try rfl
        cases y <;> try rfl
        cases z <;> rfl
    rw [hx]
    cases isClearWin (x :: A) <;> simp [Bool.or_assoc]

/-- A list with `hasClearWin` decomposes around a clear window. -/
theorem hasClearWin_decomp (l : List Instruction) (h : hasClearWin l = true) :
    ∃ u v, l = u ++ .Loop :: .Alt (-1) :: .End :: v := by
  induction l with
  | nil => cases h
  | cons x l ih =>
    unfold hasClearWin at h
    rcases Bool.or_eq_true_iff.mp h with h2 | h2
    · rcases isClearWin_shape _ h2 with ⟨v, hv⟩
      exact ⟨[], v, hv⟩
    · rcases ih h2 with ⟨u, v, rfl⟩
      exact ⟨x :: u, v, rfl⟩

/-- The folding step ignores everything below an emitted `Clear`. -/
theorem clearStep_barrier (st br : List Instruction) (y : Instruction) :
    clearStep (st ++ .Clear :: br) y = clearStep st y ++ .Clear :: br := by
  cases y <;> try rfl
  rcases st with _ | ⟨x1, _ | ⟨x2, rest⟩⟩
  · rfl
  · cases x1 <;> rfl
  · cases x1 <;> cases x2 <;> try rfl
    rename_i d
    by_cases hd : d = -1 <;> simp [clearStep, hd]

theorem foldl_clearStep_barrier (ys : List Instruction) (st br : List Instruction) :
    ys.foldl clearStep (st ++ .Clear :: br) = ys.foldl clearStep st ++ .Clear :: br := by
  induction ys generalizing st with
  | nil => rfl
  | cons y ys ih =>
    rw [List.foldl_cons, List.foldl_cons, clearStep_barrier, ih]

/-- Either `clearStep` pushes, or the clear window just fired. -/
theorem clearStep_cases (st : List Instruction) (y : Instruction) :
    clearStep st y = y :: st ∨
      (y = Instruction.End ∧ ∃ rest, st = .Alt (-1) :: .Loop :: rest) := by
  cases y <;> try exact Or.inl rfl
  rcases st with _ | ⟨x1, _ | ⟨x2, rest⟩⟩
  · exact Or.inl rfl
  · exact Or.inl (by cases x1 <;> rfl)
  · cases x1 <;> try exact Or.inl rfl
    cases x2 <;> try exact Or.inl rfl
    rename_i a
    by_cases ha : a = -1
    · exact Or.inr ⟨rfl, rest, by rw [ha]⟩
    · exact Or.inl (by simp [clearStep, ha])

/-- On window-free input the fold is a pure push. -/
theorem foldl_clearStep_id (ys st : List Instruction)
    (h : hasClearWin (st.reverse ++ ys) = false) :
    ys.foldl clearStep st = ys.reverse ++ st := by
  induction ys generalizing st with
  | nil => rfl
  | cons y ys ih =>
    rcases clearStep_cases st y with hpush | ⟨rfl, rest, rfl⟩
    · rw [List.foldl_cons, hpush, ih (y :: st) (by simpa using h)]
      simp
    · exfalso
      rw [show (Instruction.Alt (-1) :: Instruction.Loop :: rest).reverse ++
            Instruction.End :: ys =
          rest.reverse ++ Instruction.Loop :: Instruction.Alt (-1) ::
            Instruction.End :: ys by simp] at h
      rw [hasClearWin_of_window] at h
      cases h

/-- Clear-loop folding of a window appended to any prefix. -/
theorem clear_loop_optimizer_append_window (xs : List Instruction) :
    List.foldl clearStep []
        (xs ++ [Instruction.Loop, Instruction.Alt (-1), Instruction.End]) =
      .Clear :: xs.foldl clearStep [] := by
  rw [List.foldl_append]
  have h1 : clearStep (xs.foldl clearStep []) .Loop = .Loop :: xs.foldl clearStep [] :=
    clearStep_ne_end _ _ (by simp)
  have h2 : clearStep (.Loop :: xs.foldl clearStep []) (.Alt (-1)) =
      .Alt (-1) :: .Loop :: xs.foldl clearStep [] :=
    clearStep_ne_end _ _ (by simp)
  simp only [List.foldl_cons, List.foldl_nil, h1, h2, clearStep_end_fold]

/-- Window-free inputs pass through clear-loop folding unchanged. -/
theorem clear_loop_optimizer_id (l : List Instruction)
    (h : hasClearWin l = false) : clear_loop_optimizer l = l := by
  unfold clear_loop_optimizer
  rw [foldl_clearStep_id l [] (by simpa using h)]
  simp

/-- Clear-loop folding around one window: the window becomes `Clear`, and
the instructions before and after it are processed independently (the
emitted `Clear` acts as a barrier no later window can reach across). -/
theorem clear_loop_optimizer_comp (xs ys : List Instruction) :
    clear_loop_optimizer (xs ++ [.Loop, .Alt (-1), .End] ++ ys) =
      clear_loop_optimizer xs ++ [.Clear] ++ clear_loop_optimizer ys := by
  unfold clear_loop_optimizer
  rw [List.foldl_append, clear_loop_optimizer_append_window xs]
  rw [show Instruction.Clear :: List.foldl clearStep [] xs =
      [] ++ Instruction.Clear :: List.foldl clearStep [] xs from rfl,
    foldl_clearStep_barrier]
  simp

/-- The output of clear-loop folding never contains a clear window. -/
theorem hasClearWin_clear_loop_optimizer (l : List Instruction) :
    hasClearWin (clear_loop_optimizer l) = false := by
  suffices H : ∀ (n : Nat) (l : List Instruction), l.length ≤ n →
      hasClearWin (clear_loop_optimizer l) = false from H l.length l le_rfl
  intro n
  induction n with
  | zero =>
    intro l hl
    rw [List.length_eq_zero.mp (Nat.le_zero.mp hl)]
    rfl
  | succ n ih =>
    intro l hl
    cases hwin : hasClearWin l with
    | false => rw [clear_loop_optimizer_id l hwin]; exact hwin
    | true =>
      rcases hasClearWin_decomp l hwin with ⟨u, v, rfl⟩
      have hlen : u.length + 3 + v.length ≤ n + 1 := by simpa [Nat.add_comm, Nat.add_assoc, Nat.add_left_comm] using hl
      rw [show u ++ Instruction.Loop :: Instruction.Alt (-1) :: Instruction.End :: v =
          u ++ [Instruction.Loop, Instruction.Alt (-1), Instruction.End] ++ v by simp]
      rw [clear_loop_optimizer_comp]
      rw [show clear_loop_optimizer u ++ [Instruction.Clear] ++ clear_loop_optimizer v =
          clear_loop_optimizer u ++ Instruction.Clear :: clear_loop_optimizer v by simp]
      rw [hasClearWin_append_clear]
      rw [ih u (by omega), ih v (by omega)]
      rfl

/-- C6: the clear-loop folding pass (a) folds each window
`[Loop, Alt(-1), End]` to a single `Clear` wherever it stands, processing
the surrounding instructions verbatim and in order (the fold triggers on
the last three *emitted* instructions, hence applies equally to windows
at the very front, in the middle, or formed against earlier output);
(b) its output never contains a remaining window; and (c) input with no
window whatsoever is returned untouched. -/
theorem c6_clear_loop_folding :
    (∀ xs ys : List Instruction,
      clear_loop_optimizer (xs ++ [.Loop, .Alt (-1), .End] ++ ys) =
        clear_loop_optimizer xs ++ [.Clear] ++ clear_loop_optimizer ys) ∧
    (∀ l : List Instruction, hasClearWin (clear_loop_optimizer l) = false) ∧
    (∀ l : List Instruction, hasClearWin l = false → clear_loop_optimizer l = l) :=
  ⟨clear_loop_optimizer_comp, hasClearWin_clear_loop_optimizer, clear_loop_optimizer_id⟩

/-- Witness for C6: the spec's example `[LoopOpen, Alter(-1), LoopClose]`
(here with surrounding instructions `Shift 1` before and `Alt 1` after,
matching the source's `test_clear_loop_offset_optimizer`), the
no-window-in-output property on that input, and untouched window-free
input. -/
theorem c6_clear_loop_folding_witness :
    clear_loop_optimizer ([.Shift 1] ++ [.Loop, .Alt (-1), .End] ++ [.Alt 1]) =
      clear_loop_optimizer [.Shift 1] ++ [.Clear] ++ clear_loop_optimizer [.Alt 1] ∧
    hasClearWin (clear_loop_optimizer [.Shift 1, .Loop, .Alt (-1), .End, .Alt 1]) = false ∧
    clear_loop_optimizer [.Shift 1, .Loop, .Alt 1, .End] = [.Shift 1, .Loop, .Alt 1, .End] :=
  ⟨c6_clear_loop_folding.1 [.Shift 1] [.Alt 1],
   c6_clear_loop_folding.2.1 [.Shift 1, .Loop, .Alt (-1), .End, .Alt 1],
   c6_clear_loop_folding.2.2 [.Shift 1, .Loop, .Alt 1, .End] (by decide)⟩

/-! ## C2: copy-loop folding -/

theorem copyStep_ne_end (acc : List Instruction) (i : Instruction)
    (h : i ≠ .End) : copyStep acc i = i :: acc := by
  cases i <;> first | rfl | exact absurd rfl h

theorem copyStep_end_fold₁ (A : List Instruction) (o x : Int) (hx : 0 < x) :
    copyStep (.Shift (-o) :: .Alt x :: .Shift o :: .Alt (-1) :: .Loop :: A) .End =
      .Clear :: .Copy (x.toNat % 256) o :: A := by
  simp [copyStep, hx]

theorem copyStep_end_fold₂ (A : List Instruction) (o x : Int) (hx : 0 < x) :
    copyStep (.Alt (-1) :: .Shift (-o) :: .Alt x :: .Shift o :: .Loop :: A) .End =
      .Clear :: .Copy (x.toNat % 256) o :: A := by
  simp [copyStep, hx]

/-- `isCopyWin` only inspects the first six instructions. -/
theorem isCopyWin_six (a b c d e f : Instruction) (t1 t2 : List Instruction) :
    isCopyWin (a :: b :: c :: d :: e :: f :: t1) =
      isCopyWin (a :: b :: c :: d :: e :: f :: t2) := by
  cases a <;> try rfl
  cases b <;> try rfl
  · cases c <;> try rfl
    cases d <;> try rfl
    cases e <;> try rfl
    cases f <;> try rfl
  · cases c <;> try rfl
    cases d <;> try rfl
    cases e <;> try rfl
    cases f <;> try rfl

/-- Any list containing the first copy window form has `hasCopyWin`. -/
theorem hasCopyWin_of_window₁ (u v : List Instruction) (o x : Int) (hx : 0 < x) :
    hasCopyWin (u ++ .Loop :: .Alt (-1) :: .Shift o :: .Alt x :: .Shift (-o) ::
      .End :: v) = true := by
  induction u with
  | nil => simp [hasCopyWin, isCopyWin, hx]
  | cons y u ih =>
    rw [List.cons_append]
    simp only [hasCopyWin, ih, Bool.or_true]

/-- Any list containing the second copy window form has `hasCopyWin`. -/
theorem hasCopyWin_of_window₂ (u v : List Instruction) (o x : Int) (hx : 0 < x) :
    hasCopyWin (u ++ .Loop :: .Shift o :: .Alt x :: .Shift (-o) :: .Alt (-1) ::
      .End :: v) = true := by
  induction u with
  | nil => simp [hasCopyWin, isCopyWin, hx]
  | cons y u ih =>
    rw [List.cons_append]
    simp only [hasCopyWin, ih, Bool.or_true]

/-- A copy window's exact shape: `Loop`, four `Alt`/`Shift` instructions,
`End`. -/
theorem isCopyWin_shape (l : List Instruction) (h : isCopyWin l = true) :
    ∃ i1 i2 i3 i4 v, l = .Loop :: i1 :: i2 :: i3 :: i4 :: .End :: v ∧
      isArith i1 = true ∧ isArith i2 = true ∧ isArith i3 = true ∧ isArith i4 = true := by
  unfold isCopyWin at h
  split at h
  · exact ⟨_, _, _, _, _, rfl, rfl, rfl, rfl, rfl⟩
  · exact ⟨_, _, _, _, _, rfl, rfl, rfl, rfl, rfl⟩
  · cases h

theorem isCopyWin_short (l : List Instruction) (h : l.length < 6) :
    isCopyWin l = false := by
  cases hw : isCopyWin l with
  | false => rfl
  | true =>
    rcases isCopyWin_shape _ hw with ⟨i1, i2, i3, i4, v, rfl, -, -, -, -⟩
    simp at h
    omega

theorem isArith_not_barrier (i : Instruction) (h : isArith i = true) :
    isBarrier i = false := by
  cases i <;> first | rfl | cases h

/-- Splitting `hasCopyWin` at a barrier instruction (`Clear`/`Copy`),
which no window contains. -/
theorem hasCopyWin_append_barrier (A B : List Instruction) (b : Instruction)
    (hb : isBarrier b = true) :
    hasCopyWin (A ++ b :: B) = (hasCopyWin A || hasCopyWin (b :: B)) := by
  induction A with
  | nil => simp [hasCopyWin]
  | cons y A ih =>
    rw [List.cons_append]
    simp only [hasCopyWin, ih]
    have hx : isCopyWin (y :: (A ++ b :: B)) = isCopyWin (y :: A) := by
      rcases A with _ | ⟨a1, _ | ⟨a2, _ | ⟨a3, _ | ⟨a4, _ | ⟨a5, A6⟩⟩⟩⟩⟩
      · rw [isCopyWin_short [y] (by simp)]
        cases hw : isCopyWin (y :: ([] ++ b :: B)) with
        | false => rfl
        | true =>
          rcases isCopyWin_shape _ hw with ⟨i1, i2, i3, i4, v, heq, h1, h2, h3, h4⟩
          simp only [List.nil_append, List.cons.injEq] at heq
          rw [heq.2.1] at hb
          rw [isArith_not_barrier _ h1] at hb
          exact hb.symm
      · rw [isCopyWin_short [y, a1] (by simp)]
        cases hw : isCopyWin (y :: ([a1] ++ b :: B)) with
        | false => rfl
        | true =>
          rcases isCopyWin_shape _ hw with ⟨i1, i2, i3, i4, v, heq, h1, h2, h3, h4⟩
          simp only [List.cons_append, List.nil_append, List.cons.injEq] at heq
          rw [heq.2.2.1] at hb
          rw [isArith_not_barrier _ h2] at hb
          exact hb.symm
      · rw [isCopyWin_short [y, a1, a2] (by simp)]
        cases hw : isCopyWin (y :: ([a1, a2] ++ b :: B)) with
        | false => rfl
        | true =>
          rcases isCopyWin_shape _ hw with ⟨i1, i2, i3, i4, v, heq, h1, h2, h3, h4⟩
          simp only [List.cons_append, List.nil_append, List.cons.injEq] at heq
          rw [heq.2.2.2.1] at hb
          rw [isArith_not_barrier _ h3] at hb
          exact hb.symm
      · rw [isCopyWin_short [y, a1, a2, a3] (by simp)]
        cases hw : isCopyWin (y :: ([a1, a2, a3] ++ b :: B)) with
        | false => rfl
        | true =>
          rcases isCopyWin_shape _ hw with ⟨i1, i2, i3, i4, v, heq, h1, h2, h3, h4⟩
          simp only [List.cons_append, List.nil_append, List.cons.injEq] at heq
          rw [heq.2.2.2.2.1] at hb
          rw [isArith_not_barrier _ h4] at hb
          exact hb.symm
      · rw [isCopyWin_short [y, a1, a2, a3, a4] (by simp)]
        cases hw : isCopyWin (y :: ([a1, a2, a3, a4] ++ b :: B)) with
        | false => rfl
        | true =>
          rcases isCopyWin_shape _ hw with ⟨i1, i2, i3, i4, v, heq, h1, h2, h3, h4⟩
          simp only [List.cons_append, List.nil_append, List.cons.injEq] at heq
          rw [heq.2.2.2.2.2.1] at hb
          exact hb.symm
      · exact isCopyWin_six y a1 a2 a3 a4 a5 (A6 ++ b :: B) A6
    rw [hx]
    cases isCopyWin (y :: A) <;> simp [Bool.or_assoc]

/-- The folding step ignores everything below an emitted `Clear`. -/
theorem copyStep_barrier (st br : List Instruction) (y : Instruction) :
    copyStep (st ++ .Clear :: br) y = copyStep st y ++ .Clear :: br := by
  cases y <;> try rfl
  rcases st with _ | ⟨a1, _ | ⟨a2, _ | ⟨a3, _ | ⟨a4, _ | ⟨a5, rest⟩⟩⟩⟩⟩
  · rfl
  · cases a1 <;> rfl
  · (cases a1 <;> try rfl) <;> (cases a2 <;> rfl)
  · (cases a1 <;> try rfl) <;> (cases a2 <;> try rfl) <;> (cases a3 <;> rfl)
  · (cases a1 <;> try rfl) <;> (cases a2 <;> try rfl) <;> (cases a3 <;> try rfl) <;>
      (cases a4 <;> rfl)
  · cases a1 <;> try rfl
    · cases a2 <;> try rfl
      cases a3 <;> try rfl
      cases a4 <;> try rfl
      cases a5 <;> try rfl
      rename_i o2 x o1 a
      by_cases hg : a = -1 ∧ 0 < x ∧ o1 = -o2 <;> simp [copyStep, hg]
    · cases a2 <;> try rfl
      cases a3 <;> try rfl
      cases a4 <;> try rfl
      cases a5 <;> try rfl
      rename_i a o2 x o1
      by_cases hg : a = -1 ∧ 0 < x ∧ o1 = -o2 <;> simp [copyStep, hg]

theorem foldl_copyStep_barrier (ys : List Instruction) (st br : List Instruction) :
    ys.foldl copyStep (st ++ .Clear :: br) = ys.foldl copyStep st ++ .Clear :: br := by
  induction ys generalizing st with
  | nil => rfl
  | cons y ys ih =>
    rw [List.foldl_cons, List.foldl_cons, copyStep_barrier, ih]

/-- Either `copyStep` pushes, or one of the two copy windows just fired. -/
theorem copyStep_cases (st : List Instruction) (y : Instruction) :
    copyStep st y = y :: st ∨
      (y = Instruction.End ∧
        ((∃ o x rest, 0 < x ∧
            st = .Shift (-o) :: .Alt x :: .Shift o :: .Alt (-1) :: .Loop :: rest) ∨
         (∃ o x rest, 0 < x ∧
            st = .Alt (-1) :: .Shift (-o) :: .Alt x :: .Shift o :: .Loop :: rest))) := by
  cases y <;> try exact Or.inl rfl
  rcases st with _ | ⟨a1, _ | ⟨a2, _ | ⟨a3, _ | ⟨a4, _ | ⟨a5, rest⟩⟩⟩⟩⟩
  · exact Or.inl rfl
  · exact Or.inl (by cases a1 <;> rfl)
  · exact Or.inl (by (cases a1 <;> try rfl) <;> (cases a2 <;> rfl))
  · exact Or.inl (by (cases a1 <;> try rfl) <;> (cases a2 <;> try rfl) <;> (cases a3 <;> rfl))
  · exact Or.inl
      (by (cases a1 <;> try rfl) <;> (cases a2 <;> try rfl) <;> (cases a3 <;> try rfl) <;>
        (cases a4 <;> rfl))
  · cases a1 <;> try exact Or.inl rfl
    · cases a2 <;> try exact Or.inl rfl
      cases a3 <;> try exact Or.inl rfl
      cases a4 <;> try exact Or.inl rfl
      cases a5 <;> try exact Or.inl rfl
      rename_i o2 x o1 a
      by_cases hg : a = -1 ∧ 0 < x ∧ o1 = -o2
      · refine Or.inr ⟨rfl, Or.inl ⟨o1, x, rest, hg.2.1, ?_⟩⟩
        rw [show (o2 : Int) = -o1 by have := hg.2.2; omega, hg.1]
      · exact Or.inl (by simp [copyStep, hg])
    · cases a2 <;> try exact Or.inl rfl
      cases a3 <;> try exact Or.inl rfl
      cases a4 <;> try exact Or.inl rfl
      cases a5 <;> try exact Or.inl rfl
      rename_i a o2 x o1
      by_cases hg : a = -1 ∧ 0 < x ∧ o1 = -o2
      · refine Or.inr ⟨rfl, Or.inr ⟨o1, x, rest, hg.2.1, ?_⟩⟩
        rw [show (o2 : Int) = -o1 by have := hg.2.2; omega, hg.1]
      · exact Or.inl (by simp [copyStep, hg])

/-- On window-free input the copy fold is a pure push. -/
theorem foldl_copyStep_id (ys st : List Instruction)
    (h : hasCopyWin (st.reverse ++ ys) = false) :
    ys.foldl copyStep st = ys.reverse ++ st := by
  induction ys generalizing st with
  | nil => rfl
  | cons y ys ih =>
    rcases copyStep_cases st y with hpush | ⟨rfl, ⟨o, x, rest, hx, rfl⟩ | ⟨o, x, rest, hx, rfl⟩⟩
    · rw [List.foldl_cons, hpush, ih (y :: st) (by simpa using h)]
      simp
    · exfalso
      rw [show (Instruction.Shift (-o) :: Instruction.Alt x :: Instruction.Shift o ::
            Instruction.Alt (-1) :: Instruction.Loop :: rest).reverse ++
            Instruction.End :: ys =
          rest.reverse ++ Instruction.Loop :: Instruction.Alt (-1) :: Instruction.Shift o ::
            Instruction.Alt x :: Instruction.Shift (-o) :: Instruction.End :: ys by simp] at h
      rw [hasCopyWin_of_window₁ _ _ _ _ hx] at h
      cases h
    · exfalso
      rw [show (Instruction.Alt (-1) :: Instruction.Shift (-o) :: Instruction.Alt x ::
            Instruction.Shift o :: Instruction.Loop :: rest).reverse ++
            Instruction.End :: ys =
          rest.reverse ++ Instruction.Loop :: Instruction.Shift o :: Instruction.Alt x ::
            Instruction.Shift (-o) :: Instruction.Alt (-1) :: Instruction.End :: ys by simp] at h
      rw [hasCopyWin_of_window₂ _ _ _ _ hx] at h
      cases h

/-- Window-free inputs pass through copy-loop folding unchanged. -/
theorem copy_loop_optimizer_id (l : List Instruction)
    (h : hasCopyWin l = false) : copy_loop_optimizer l = l := by
  unfold copy_loop_optimizer
  rw [foldl_copyStep_id l [] (by simpa using h)]
  simp

/-- Copy-loop folding of the first window form appended to a prefix. -/
theorem copy_loop_optimizer_append_window₁ (xs : List Instruction) (o x : Int)
    (hx : 0 < x) :
    List.foldl copyStep []
        (xs ++ [Instruction.Loop, Instruction.Alt (-1), Instruction.Shift o,
          Instruction.Alt x, Instruction.Shift (-o), Instruction.End]) =
      .Clear :: .Copy (x.toNat % 256) o :: xs.foldl copyStep [] := by
  rw [List.foldl_append]
  have h1 : ∀ acc : List Instruction, copyStep acc .Loop = .Loop :: acc :=
    fun acc => copyStep_ne_end _ _ (by simp)
  have h2 : ∀ (acc : List Instruction) (d : Int), copyStep acc (.Alt d) = .Alt d :: acc :=
    fun acc d => copyStep_ne_end _ _ (by simp)
  have h3 : ∀ (acc : List Instruction) (d : Int), copyStep acc (.Shift d) = .Shift d :: acc :=
    fun acc d => copyStep_ne_end _ _ (by simp)
  simp only [List.foldl_cons, List.foldl_nil, h1, h2, h3]
  exact copyStep_end_fold₁ _ o x hx

/-- Copy-loop folding of the second window form appended to a prefix. -/
theorem copy_loop_optimizer_append_window₂ (xs : List Instruction) (o x : Int)
    (hx : 0 < x) :
    List.foldl copyStep []
        (xs ++ [Instruction.Loop, Instruction.Shift o, Instruction.Alt x,
          Instruction.Shift (-o), Instruction.Alt (-1), Instruction.End]) =
      .Clear :: .Copy (x.toNat % 256) o :: xs.foldl copyStep [] := by
  rw [List.foldl_append]
  have h1 : ∀ acc : List Instruction, copyStep acc .Loop = .Loop :: acc :=
    fun acc => copyStep_ne_end _ _ (by simp)
  have h2 : ∀ (acc : List Instruction) (d : Int), copyStep acc (.Alt d) = .Alt d :: acc :=
    fun acc d => copyStep_ne_end _ _ (by simp)
  have h3 : ∀ (acc : List Instruction) (d : Int), copyStep acc (.Shift d) = .Shift d :: acc :=
    fun acc d => copyStep_ne_end _ _ (by simp)
  simp only [List.foldl_cons, List.foldl_nil, h1, h2, h3]
  exact copyStep_end_fold₂ _ o x hx

/-- Copy-loop folding around one first-form window. -/
theorem copy_loop_optimizer_comp₁ (xs ys : List Instruction) (o x : Int) (hx : 0 < x) :
    copy_loop_optimizer (xs ++ [.Loop, .Alt (-1), .Shift o, .Alt x, .Shift (-o), .End] ++ ys) =
      copy_loop_optimizer xs ++ [.Copy (x.toNat % 256) o, .Clear] ++
        copy_loop_optimizer ys := by
  unfold copy_loop_optimizer
  rw [List.foldl_append, copy_loop_optimizer_append_window₁ xs o x hx]
  rw [show Instruction.Clear :: Instruction.Copy (x.toNat % 256) o ::
        List.foldl copyStep [] xs =
      [] ++ Instruction.Clear :: (Instruction.Copy (x.toNat % 256) o ::
        List.foldl copyStep [] xs) from rfl,
    foldl_copyStep_barrier]
  simp

/-- Copy-loop folding around one second-form window. -/
theorem copy_loop_optimizer_comp₂ (xs ys : List Instruction) (o x : Int) (hx : 0 < x) :
    copy_loop_optimizer (xs ++ [.Loop, .Shift o, .Alt x, .Shift (-o), .Alt (-1), .End] ++ ys) =
      copy_loop_optimizer xs ++ [.Copy (x.toNat % 256) o, .Clear] ++
        copy_loop_optimizer ys := by
  unfold copy_loop_optimizer
  rw [List.foldl_append, copy_loop_optimizer_append_window₂ xs o x hx]
  rw [show Instruction.Clear :: Instruction.Copy (x.toNat % 256) o ::
        List.foldl copyStep [] xs =
      [] ++ Instruction.Clear :: (Instruction.Copy (x.toNat % 256) o ::
        List.foldl copyStep [] xs) from rfl,
    foldl_copyStep_barrier]
  simp

/-- Exact characterization of a window match, guards included. -/
theorem isCopyWin_true_elim (w : List Instruction) (h : isCopyWin w = true) :
    (∃ o x v, 0 < x ∧ w = .Loop :: .Alt (-1) :: .Shift o :: .Alt x ::
        .Shift (-o) :: .End :: v) ∨
    (∃ o x v, 0 < x ∧ w = .Loop :: .Shift o :: .Alt x :: .Shift (-o) ::
        .Alt (-1) :: .End :: v) := by
  unfold isCopyWin at h
  split at h
  · rename_i a o1 x o2 tail
    simp only [Bool.and_eq_true, decide_eq_true_eq] at h
    refine Or.inl ⟨o1, x, tail, h.1.2, ?_⟩
    rw [h.1.1, show (o2 : Int) = -o1 by have := h.2; omega]
  · rename_i o1 x o2 a tail
    simp only [Bool.and_eq_true, decide_eq_true_eq] at h
    refine Or.inr ⟨o1, x, tail, h.1.2, ?_⟩
    rw [h.1.1, show (o2 : Int) = -o1 by have := h.2; omega]
  · cases h

/-- A list with `hasCopyWin` decomposes around one of the two windows. -/
theorem hasCopyWin_decomp (l : List Instruction) (h : hasCopyWin l = true) :
    ∃ u v o x, 0 < x ∧
      (l = u ++ [.Loop, .Alt (-1), .Shift o, .Alt x, .Shift (-o), .End] ++ v ∨
       l = u ++ [.Loop, .Shift o, .Alt x, .Shift (-o), .Alt (-1), .End] ++ v) := by
  induction l with
  | nil => cases h
  | cons y l ih =>
    unfold hasCopyWin at h
    rcases Bool.or_eq_true_iff.mp h with h2 | h2
    · rcases isCopyWin_true_elim _ h2 with ⟨o, x, v, hx, hv⟩ | ⟨o, x, v, hx, hv⟩
      · exact ⟨[], v, o, x, hx, Or.inl (by simpa using hv)⟩
      · exact ⟨[], v, o, x, hx, Or.inr (by simpa using hv)⟩
    · rcases ih h2 with ⟨u, v, o, x, hx, hv | hv⟩
      · exact ⟨y :: u, v, o, x, hx, Or.inl (by rw [hv]; simp)⟩
      · exact ⟨y :: u, v, o, x, hx, Or.inr (by rw [hv]; simp)⟩

theorem hasCopyWin_cons_barrier (b : Instruction) (z : List Instruction)
    (hb : isBarrier b = true) : hasCopyWin (b :: z) = hasCopyWin z := by
  cases b with
  | Clear =>
    show (isCopyWin (.Clear :: z) || hasCopyWin z) = hasCopyWin z
    rw [show isCopyWin (.Clear :: z) = false from rfl]
    simp
  | Copy m o =>
    show (isCopyWin (.Copy m o :: z) || hasCopyWin z) = hasCopyWin z
    rw [show isCopyWin (.Copy m o :: z) = false from rfl]
    simp
  | _ => cases hb

/-- The output of copy-loop folding never contains a copy window. -/
theorem hasCopyWin_copy_loop_optimizer (l : List Instruction) :
    hasCopyWin (copy_loop_optimizer l) = false := by
  suffices H : ∀ (n : Nat) (l : List Instruction), l.length ≤ n →
      hasCopyWin (copy_loop_optimizer l) = false from H l.length l le_rfl
  intro n
  induction n with
  | zero =>
    intro l hl
    rw [List.length_eq_zero.mp (Nat.le_zero.mp hl)]
    rfl
  | succ n ih =>
    intro l hl
    cases hwin : hasCopyWin l with
    | false => rw [copy_loop_optimizer_id l hwin]; exact hwin
    | true =>
      rcases hasCopyWin_decomp l hwin with ⟨u, v, o, x, hx, rfl | rfl⟩ <;>
        [rw [copy_loop_optimizer_comp₁ u v o x hx];
         rw [copy_loop_optimizer_comp₂ u v o x hx]] <;>
      · have hlen : u.length + 6 + v.length ≤ n + 1 := by
          simpa [Nat.add_comm, Nat.add_assoc, Nat.add_left_comm] using hl
        rw [show copy_loop_optimizer u ++ [Instruction.Copy (x.toNat % 256) o,
              Instruction.Clear] ++ copy_loop_optimizer v =
            copy_loop_optimizer u ++ Instruction.Copy (x.toNat % 256) o ::
              (Instruction.Clear :: copy_loop_optimizer v) by simp]
        rw [hasCopyWin_append_barrier _ _ _ (by rfl),
          hasCopyWin_cons_barrier _ _ (by rfl), hasCopyWin_cons_barrier _ _ (by rfl)]
        rw [ih u (by omega), ih v (by omega)]
        rfl

/-- C2 (amended): the copy-loop folding pass folds each of the two
six-instruction windows, wherever it stands, to
`Copy{multiplier: x mod 256, offset: o}` followed by `Clear` — the
multiplier is the low byte of `x` (the `x as u8` cast), not `x` itself —
processing the surrounding instructions independently; and input
containing no window (wrong instruction kinds, non-matching offsets, or
`x ≤ 0`) is returned untouched. -/
theorem c2_copy_loop_folding :
    (∀ (xs ys : List Instruction) (o x : Int), 0 < x →
      copy_loop_optimizer
          (xs ++ [.Loop, .Alt (-1), .Shift o, .Alt x, .Shift (-o), .End] ++ ys) =
        copy_loop_optimizer xs ++ [.Copy (x.toNat % 256) o, .Clear] ++
          copy_loop_optimizer ys) ∧
    (∀ (xs ys : List Instruction) (o x : Int), 0 < x →
      copy_loop_optimizer
          (xs ++ [.Loop, .Shift o, .Alt x, .Shift (-o), .Alt (-1), .End] ++ ys) =
        copy_loop_optimizer xs ++ [.Copy (x.toNat % 256) o, .Clear] ++
          copy_loop_optimizer ys) ∧
    (∀ l : List Instruction, hasCopyWin l = false → copy_loop_optimizer l = l) :=
  ⟨fun xs ys o x hx => copy_loop_optimizer_comp₁ xs ys o x hx,
   fun xs ys o x hx => copy_loop_optimizer_comp₂ xs ys o x hx,
   copy_loop_optimizer_id⟩

/-- Counterexample to C2 as stated: for `x = 300` the window
`[Loop, Alt(-1), Shift 1, Alt 300, Shift(-1), End]` folds to a `Copy`
carrying multiplier `300 mod 256 = 44`, not `300` — the `u8` cast
truncates the claimed multiplier `x`. -/
theorem c2_copy_multiplier_truncates :
    copy_loop_optimizer [.Loop, .Alt (-1), .Shift 1, .Alt 300, .Shift (-1), .End] =
      [.Copy 44 1, .Clear] ∧
    copy_loop_optimizer [.Loop, .Alt (-1), .Shift 1, .Alt 300, .Shift (-1), .End] ≠
      [.Copy 300 1, .Clear] := by
  constructor <;> decide

/-- Witness for C2 at the spec's own example (`multiplier 1, offset 5`,
and the `Alter(4)` variant with offsets `3`/`-3`), plus an untouched
non-matching window (`x = -2 ≤ 0`). -/
theorem c2_copy_loop_folding_witness :
    copy_loop_optimizer ([] ++ [.Loop, .Alt (-1), .Shift 5, .Alt 1, .Shift (-5), .End] ++ []) =
      copy_loop_optimizer [] ++ [.Copy 1 5, .Clear] ++ copy_loop_optimizer [] ∧
    copy_loop_optimizer ([] ++ [.Loop, .Shift 3, .Alt 4, .Shift (-3), .Alt (-1), .End] ++ []) =
      copy_loop_optimizer [] ++ [.Copy 4 3, .Clear] ++ copy_loop_optimizer [] ∧
    copy_loop_optimizer [.Loop, .Alt (-1), .Shift 5, .Alt (-2), .Shift (-5), .End] =
      [.Loop, .Alt (-1), .Shift 5, .Alt (-2), .Shift (-5), .End] :=
  ⟨by have h := c2_copy_loop_folding.1 [] [] 5 1 (by decide); simpa using h,
   by have h := c2_copy_loop_folding.2.1 [] [] 3 4 (by decide); simpa using h,
   c2_copy_loop_folding.2.2 _ (by decide)⟩

/-! ## C7: idempotence of the four passes -/

/-- One step of `contrGo`: merge a shift run, merge an alt run, or emit. -/
theorem contrGo_step (p i : Instruction) (rest : List Instruction) :
    (∃ a b, p = .Shift a ∧ i = .Shift b ∧
      contrGo (some p) (i :: rest) = contrGo (some (.Shift (a + b))) rest) ∨
    (∃ a b, p = .Alt a ∧ i = .Alt b ∧
      contrGo (some p) (i :: rest) = contrGo (some (.Alt (a + b))) rest) ∨
    ((kindOf p = none ∨ ¬ kindOf p = kindOf i) ∧
      contrGo (some p) (i :: rest) = p :: contrGo (some i) rest) := by
  cases p <;> cases i <;>
    first
      | exact Or.inl ⟨_, _, rfl, rfl, rfl⟩
      | exact Or.inr (Or.inl ⟨_, _, rfl, rfl, rfl⟩)
      | exact Or.inr (Or.inr ⟨by simp [kindOf], rfl⟩)

theorem noRuns_tail (p : Instruction) (z : List Instruction)
    (h : noRuns (p :: z) = true) : noRuns z = true := by
  cases z with
  | nil => rfl
  | cons q z2 =>
    cases p <;> cases q <;> first | exact h | exact Bool.noConfusion h

theorem noRuns_cons2 (p q : Instruction) (t : List Instruction)
    (hpq : kindOf p = none ∨ ¬ kindOf p = kindOf q)
    (hn : noRuns (q :: t) = true) : noRuns (p :: q :: t) = true := by
  cases p <;> cases q <;> first | exact hn | simp [kindOf] at hpq

/-- The output of `contrGo` is nonempty, starts with the pending kind,
and contains no runs. -/
theorem contrGo_spec (l : List Instruction) :
    ∀ p : Instruction, ∃ q t, contrGo (some p) l = q :: t ∧
      kindOf q = kindOf p ∧ noRuns (q :: t) = true := by
  induction l with
  | nil => exact fun p => ⟨p, [], by cases p <;> rfl, rfl, by cases p <;> rfl⟩
  | cons i rest ih =>
    intro p
    rcases contrGo_step p i rest with ⟨a, b, rfl, rfl, heq⟩ | ⟨a, b, rfl, rfl, heq⟩ |
      ⟨hcond, heq⟩
    · rw [heq]
      obtain ⟨q, t, heq2, hk, hn⟩ := ih (.Shift (a + b))
      exact ⟨q, t, heq2, hk, hn⟩
    · rw [heq]
      obtain ⟨q, t, heq2, hk, hn⟩ := ih (.Alt (a + b))
      exact ⟨q, t, heq2, hk, hn⟩
    · rw [heq]
      obtain ⟨q, t, heq2, hk, hn⟩ := ih i
      rw [heq2]
      refine ⟨p, q :: t, rfl, rfl, noRuns_cons2 p q t ?_ hn⟩
      rw [hk]
      exact hcond

/-- On run-free input, `contrGo` is a pure push. -/
theorem contrGo_id (l : List Instruction) :
    ∀ p : Instruction, noRuns (p :: l) = true → contrGo (some p) l = p :: l := by
  induction l with
  | nil => exact fun p _ => by cases p <;> rfl
  | cons i rest ih =>
    intro p h
    rcases contrGo_step p i rest with ⟨a, b, rfl, rfl, heq⟩ | ⟨a, b, rfl, rfl, heq⟩ |
      ⟨hcond, heq⟩
    · exact Bool.noConfusion h
    · exact Bool.noConfusion h
    · rw [heq, ih i (noRuns_tail _ _ h)]

/-- Contraction is idempotent. -/
theorem contraction_optimizer_idem (l : List Instruction) :
    contraction_optimizer (contraction_optimizer l) = contraction_optimizer l := by
  unfold contraction_optimizer
  cases l with
  | nil => rfl
  | cons i rest =>
    show contrGo none (contrGo (some i) rest) = contrGo (some i) rest
    obtain ⟨q, t, heq, hk, hn⟩ := contrGo_spec rest i
    rw [heq]
    show contrGo (some q) t = q :: t
    exact contrGo_id t q hn

/-- C7: each of the four optimizer passes is idempotent on every
instruction sequence. -/
theorem c7_passes_idempotent :
    (∀ l : List Instruction,
      contraction_optimizer (contraction_optimizer l) = contraction_optimizer l) ∧
    (∀ l : List Instruction, no_op_reducer (no_op_reducer l) = no_op_reducer l) ∧
    (∀ l : List Instruction,
      clear_loop_optimizer (clear_loop_optimizer l) = clear_loop_optimizer l) ∧
    (∀ l : List Instruction,
      copy_loop_optimizer (copy_loop_optimizer l) = copy_loop_optimizer l) := by
  refine ⟨contraction_optimizer_idem, ?_, ?_, ?_⟩
  · intro l
    simp [no_op_reducer, List.filter_filter]
  · intro l
    exact clear_loop_optimizer_id _ (hasClearWin_clear_loop_optimizer l)
  · intro l
    exact copy_loop_optimizer_id _ (hasCopyWin_copy_loop_optimizer l)

/-! ## Bracket-word and balance lemmas -/

theorem flatL_append (a b : List T) : flatL (a ++ b) = flatL a ++ flatL b := by
  induction a with
  | nil => rfl
  | cons t ts ih => simp [flatL, ih]

theorem flatT_length_pos (t : T) : 0 < (flatT t).length := by
  cases t <;> simp [flatT]

theorem bracketsOf_append (a b : List Instruction) :
    bracketsOf (a ++ b) = bracketsOf a ++ bracketsOf b := by
  simp [bracketsOf]

theorem balB_of_delStep (w w2 : List Bool) (h : DelStep w w2) (d : Nat) :
    balB w d = balB w2 d := by
  rcases h with ⟨u, v⟩
  induction u generalizing d with
  | nil => simp [balB]
  | cons x u ih =>
    cases x <;> simp only [List.cons_append, balB]
    · cases d with
      | zero => rfl
      | succ d2 => exact ih d2
    · exact ih (d + 1)

theorem balB_of_del (w w2 : List Bool) (h : Del w w2) (d : Nat) :
    balB w d = balB w2 d := by
  induction h with
  | refl => rfl
  | tail hab hbc ih => rw [ih, balB_of_delStep _ _ hbc d]

theorem del_append_right (w w2 z : List Bool) (h : Del w w2) :
    Del (w ++ z) (w2 ++ z) := by
  induction h with
  | refl => exact Relation.ReflTransGen.refl
  | tail hab hbc ih =>
    refine Relation.ReflTransGen.tail ih ?_
    rcases hbc with ⟨u, v⟩
    rw [List.append_assoc u, List.append_assoc u]
    exact DelStep.mk u (v ++ z)

/-- The scan succeeds exactly on Dyck-balanced bracket words (relative to
the current stack depth). -/
theorem scanBrackets_isSome (l : List Instruction) :
    ∀ (k : Nat) (st : List Nat) (acc : List (Nat × Nat)),
      (scanBrackets l k st acc).isSome = balB (bracketsOf l) st.length := by
  induction l with
  | nil =>
    intro k st acc
    cases st <;> simp [scanBrackets, bracketsOf, balB]
  | cons i rest ih =>
    intro k st acc
    cases i <;>
      simp only [scanBrackets, bracketsOf, List.filterMap_cons, ih, balB] <;>
      try rfl
    cases st with
    | nil => simp [balB, bracketsOf]
    | cons o st2 => simp [scanBrackets, ih, balB, bracketsOf]

/-! ## The passes preserve the bracket structure -/

theorem brackets_cons (i : Instruction) (l : List Instruction) :
    bracketsOf (i :: l) =
      (if i = .Loop then [true] else if i = .End then [false] else []) ++ bracketsOf l := by
  cases i <;> simp [bracketsOf]

theorem noOpLike_not_bracket (i : Instruction) (h : isNoOpLike i = true) :
    i ≠ .Loop ∧ i ≠ .End := by
  cases i <;> simp_all [isNoOpLike]

theorem no_op_reducer_brackets (l : List Instruction) :
    bracketsOf (no_op_reducer l) = bracketsOf l := by
  unfold no_op_reducer
  induction l with
  | nil => rfl
  | cons i l ih =>
    rw [List.filter_cons]
    by_cases hni : isNoOpLike i
    · rcases noOpLike_not_bracket i hni with ⟨h1, h2⟩
      rw [if_neg (by simp [hni]), brackets_cons, if_neg h1, if_neg h2, ih]
      simp
    · rw [if_pos (by simp [hni]), brackets_cons, brackets_cons, ih]

theorem contrGo_brackets (l : List Instruction) :
    ∀ p : Instruction, bracketsOf (contrGo (some p) l) = bracketsOf (p :: l) := by
  induction l with
  | nil => intro p; cases p <;> rfl
  | cons i rest ih =>
    intro p
    rcases contrGo_step p i rest with ⟨a, b, rfl, rfl, heq⟩ | ⟨a, b, rfl, rfl, heq⟩ |
      ⟨hcond, heq⟩
    · rw [heq, ih]
      simp [brackets_cons]
    · rw [heq, ih]
      simp [brackets_cons]
    · rw [heq, brackets_cons, ih i, ← brackets_cons]

theorem contraction_optimizer_brackets (l : List Instruction) :
    bracketsOf (contraction_optimizer l) = bracketsOf l := by
  cases l with
  | nil => rfl
  | cons i rest =>
    show bracketsOf (contrGo (some i) rest) = _
    rw [contrGo_brackets]

theorem clear_fold_del (l : List Instruction) :
    ∀ acc : List Instruction,
      Del (bracketsOf acc.reverse ++ bracketsOf l)
        (bracketsOf (l.foldl clearStep acc).reverse) := by
  induction l with
  | nil =>
    intro acc
    simp only [List.foldl_nil, bracketsOf, List.filterMap_nil, List.append_nil]
    exact Relation.ReflTransGen.refl
  | cons i l ih =>
    intro acc
    have key : Del (bracketsOf acc.reverse ++ bracketsOf [i])
        (bracketsOf (clearStep acc i).reverse) := by
      rcases clearStep_cases acc i with hpush | ⟨rfl, rest, rfl⟩
      · rw [hpush]
        simp only [List.reverse_cons, bracketsOf_append]
        exact Relation.ReflTransGen.refl
      · rw [clearStep_end_fold]
        simp only [List.reverse_cons, List.append_assoc, bracketsOf_append]
        rw [show bracketsOf [Instruction.Loop] ++ (bracketsOf [Instruction.Alt (-1)] ++
              bracketsOf [Instruction.End]) = [true, false] from rfl,
          show bracketsOf [Instruction.Clear] = [] from rfl]
        refine Relation.ReflTransGen.single ?_
        rw [show bracketsOf rest.reverse ++ [true, false] =
            bracketsOf rest.reverse ++ true :: false :: [] from rfl,
          show bracketsOf rest.reverse ++ [] = bracketsOf rest.reverse ++ ([] : List Bool)
            from rfl]
        exact DelStep.mk _ []
    rw [List.foldl_cons]
    have step2 := del_append_right _ _ (bracketsOf l) key
    refine Relation.ReflTransGen.trans ?_ (ih (clearStep acc i))
    rw [brackets_cons]
    have hpi : (if i = Instruction.Loop then [true]
        else if i = Instruction.End then [false] else []) = bracketsOf [i] := by
      cases i <;> simp [bracketsOf]
    rw [hpi, ← List.append_assoc]
    exact step2

theorem copy_fold_del (l : List Instruction) :
    ∀ acc : List Instruction,
      Del (bracketsOf acc.reverse ++ bracketsOf l)
        (bracketsOf (l.foldl copyStep acc).reverse) := by
  induction l with
  | nil =>
    intro acc
    simp only [List.foldl_nil, bracketsOf, List.filterMap_nil, List.append_nil]
    exact Relation.ReflTransGen.refl
  | cons i l ih =>
    intro acc
    have key : Del (bracketsOf acc.reverse ++ bracketsOf [i])
        (bracketsOf (copyStep acc i).reverse) := by
      rcases copyStep_cases acc i with hpush | ⟨rfl, ⟨o, x, rest, hx, rfl⟩ | ⟨o, x, rest, hx, rfl⟩⟩
      · rw [hpush]
        simp only [List.reverse_cons, bracketsOf_append]
        exact Relation.ReflTransGen.refl
      · rw [copyStep_end_fold₁ _ _ _ hx]
        simp only [List.reverse_cons, List.append_assoc, bracketsOf_append]
        refine Relation.ReflTransGen.single ?_
        rw [show bracketsOf [Instruction.Loop] ++ (bracketsOf [Instruction.Alt (-1)] ++
              (bracketsOf [Instruction.Shift o] ++ (bracketsOf [Instruction.Alt x] ++
                (bracketsOf [Instruction.Shift (-o)] ++ bracketsOf [Instruction.End])))) =
            true :: false :: [] from rfl,
          show bracketsOf [Instruction.Copy (x.toNat % 256) o] ++ bracketsOf [Instruction.Clear] =
            ([] : List Bool) from rfl]
        exact DelStep.mk _ []
      · rw [copyStep_end_fold₂ _ _ _ hx]
        simp only [List.reverse_cons, List.append_assoc, bracketsOf_append]
        refine Relation.ReflTransGen.single ?_
        rw [show bracketsOf [Instruction.Loop] ++ (bracketsOf [Instruction.Shift o] ++
              (bracketsOf [Instruction.Alt x] ++ (bracketsOf [Instruction.Shift (-o)] ++
                (bracketsOf [Instruction.Alt (-1)] ++ bracketsOf [Instruction.End])))) =
            true :: false :: [] from rfl,
          show bracketsOf [Instruction.Copy (x.toNat % 256) o] ++ bracketsOf [Instruction.Clear] =
            ([] : List Bool) from rfl]
        exact DelStep.mk _ []
    rw [List.foldl_cons]
    have step2 := del_append_right _ _ (bracketsOf l) key
    refine Relation.ReflTransGen.trans ?_ (ih (copyStep acc i))
    rw [brackets_cons]
    have hpi : (if i = Instruction.Loop then [true]
        else if i = Instruction.End then [false] else []) = bracketsOf [i] := by
      cases i <;> simp [bracketsOf]
    rw [hpi, ← List.append_assoc]
    exact step2

theorem clear_loop_optimizer_balB (l : List Instruction) (d : Nat) :
    balB (bracketsOf (clear_loop_optimizer l)) d = balB (bracketsOf l) d := by
  have h := clear_fold_del l []
  simp only [List.reverse_nil, bracketsOf, List.filterMap_nil, List.nil_append] at h
  exact (balB_of_del _ _ h d).symm

theorem copy_loop_optimizer_balB (l : List Instruction) (d : Nat) :
    balB (bracketsOf (copy_loop_optimizer l)) d = balB (bracketsOf l) d := by
  have h := copy_fold_del l []
  simp only [List.reverse_nil, bracketsOf, List.filterMap_nil, List.nil_append] at h
  exact (balB_of_del _ _ h d).symm

/-- The full pipeline preserves bracket balancedness (in both
directions). -/
theorem optimize_balB (l : List Instruction) (d : Nat) :
    balB (bracketsOf (optimize l)) d = balB (bracketsOf l) d := by
  unfold optimize
  rw [copy_loop_optimizer_balB, clear_loop_optimizer_balB, no_op_reducer_brackets,
    contraction_optimizer_brackets]

/-! ## Structure parser lemmas -/

theorem wfL_append (a b : List T) (ha : wfL a) (hb : wfL b) : wfL (a ++ b) := by
  induction a with
  | nil => exact hb
  | cons t ts ih =>
    exact ⟨ha.1, ih ha.2⟩

theorem stackFlat_snoc (top : List T) (rest : List (List T)) (t : T) :
    stackFlat ((top ++ [t]) :: rest) = stackFlat (top :: rest) ++ flatT t := by
  cases rest with
  | nil => simp [stackFlat, flatL_append, flatL, flatT]
  | cons f rest2 => simp [stackFlat, flatL_append, flatL, flatT]

theorem pfold_prim_step (i : Instruction) (rest : List Instruction)
    (top : List T) (stack2 : List (List T)) (h1 : i ≠ .Loop) (h2 : i ≠ .End) :
    pfold (i :: rest) (top :: stack2) = pfold rest ((top ++ [T.ins i]) :: stack2) := by
  cases i <;> first | rfl | exact absurd rfl h1 | exact absurd rfl h2

/-- Success of the structure parser on balanced input. -/
theorem pfold_isSome (l : List Instruction) :
    ∀ stack : List (List T), stack ≠ [] →
      balB (bracketsOf l) (stack.length - 1) = true → (pfold l stack).isSome := by
  induction l with
  | nil =>
    intro stack hne hbal
    rcases stack with _ | ⟨top, _ | ⟨f, rest⟩⟩
    · exact absurd rfl hne
    · simp [pfold]
    · simp [bracketsOf, balB] at hbal
  | cons i rest ih =>
    intro stack hne hbal
    rcases stack with _ | ⟨top, stack2⟩
    · exact absurd rfl hne
    by_cases hL : i = .Loop
    · subst hL
      show (pfold rest ([] :: top :: stack2)).isSome
      refine ih ([] :: top :: stack2) (by simp) ?_
      simpa [brackets_cons, balB] using hbal
    by_cases hE : i = .End
    · subst hE
      rw [brackets_cons] at hbal
      rcases stack2 with _ | ⟨next, stack3⟩
      · simp [balB] at hbal
      · show (pfold rest ((next ++ [T.block top]) :: stack3)).isSome
        refine ih _ (by simp) ?_
        simpa [balB] using hbal
    · rw [pfold_prim_step i rest top stack2 hL hE]
      refine ih _ (by simp) ?_
      rw [brackets_cons, if_neg hL, if_neg hE] at hbal
      simpa using hbal

/-- What a successful parse means: the result is well-formed and
flattens back to the input. -/
theorem pfold_spec (l : List Instruction) :
    ∀ (stack : List (List T)) (ts : List T), pfold l stack = some ts →
      stack ≠ [] → (∀ f ∈ stack, wfL f) →
      wfL ts ∧ flatL ts = stackFlat stack ++ l := by
  induction l with
  | nil =>
    intro stack ts hp hne hwf
    rcases stack with _ | ⟨top, _ | ⟨f, rest⟩⟩
    · exact absurd rfl hne
    · cases hp
      exact ⟨hwf _ (by simp), by simp [stackFlat]⟩
    · cases hp
  | cons i rest ih =>
    intro stack ts hp hne hwf
    rcases stack with _ | ⟨top, stack2⟩
    · exact absurd rfl hne
    by_cases hL : i = .Loop
    · subst hL
      have hp2 : pfold rest ([] :: top :: stack2) = some ts := hp
      have h2 := ih ([] :: top :: stack2) ts hp2 (by simp)
        (by intro f hf
            rcases List.mem_cons.mp hf with rfl | hf
            · exact trivial
            · exact hwf _ hf)
      refine ⟨h2.1, ?_⟩
      rw [h2.2]
      rw [show stackFlat ([] :: top :: stack2) =
          stackFlat (top :: stack2) ++ [Instruction.Loop] by
            simp [stackFlat, flatL]]
      simp
    by_cases hE : i = .End
    · subst hE
      rcases stack2 with _ | ⟨next, stack3⟩
      · cases hp
      · have hp2 : pfold rest ((next ++ [T.block top]) :: stack3) = some ts := hp
        have h2 := ih ((next ++ [T.block top]) :: stack3) ts hp2 (by simp)
          (by intro f hf
              rcases List.mem_cons.mp hf with rfl | hf
              · refine wfL_append _ _ (hwf _ (by simp)) ⟨?_, trivial⟩
                show wfL top
                exact hwf _ (by simp)
              · exact hwf _ (by simp [hf]))
        refine ⟨h2.1, ?_⟩
        rw [h2.2, stackFlat_snoc]
        rw [show flatT (T.block top) = .Loop :: flatL top ++ [.End] from rfl]
        rw [show stackFlat (top :: next :: stack3) =
            stackFlat (next :: stack3) ++ .Loop :: flatL top from rfl]
        simp
    · have hp2 : pfold rest ((top ++ [T.ins i]) :: stack2) = some ts := by
        rw [← pfold_prim_step i rest top stack2 hL hE]
        exact hp
      have h2 := ih ((top ++ [T.ins i]) :: stack2) ts hp2 (by simp)
        (by intro f hf
            rcases List.mem_cons.mp hf with rfl | hf
            · exact wfL_append _ _ (hwf _ (by simp)) ⟨⟨hL, hE⟩, trivial⟩
            · exact hwf _ (by simp [hf]))
      refine ⟨h2.1, ?_⟩
      rw [h2.2, stackFlat_snoc]
      simp [flatT]

/-- Every balanced instruction sequence is the flattening of a
well-formed tree list. -/
theorem exists_tree_of_balanced (l : List Instruction)
    (h : balB (bracketsOf l) 0 = true) :
    ∃ ts : List T, wfL ts ∧ flatL ts = l := by
  have hs : (pfold l [[]]).isSome := pfold_isSome l [[]] (by simp) (by simpa using h)
  rcases ho : pfold l [[]] with _ | ts
  · rw [ho] at hs
    cases hs
  · have h2 := pfold_spec l [[]] ts ho (by simp)
      (by intro f hf
          simp at hf
          rw [hf]
          exact trivial)
    exact ⟨ts, h2.1, by simpa [stackFlat, flatL] using h2.2⟩

/-! ## Characterization of the bracket scan on flattened trees -/

theorem flatL_cons (t : T) (ts : List T) : flatL (t :: ts) = flatT t ++ flatL ts := rfl

theorem scanBrackets_prim_step (i : Instruction) (rest : List Instruction)
    (k : Nat) (st : List Nat) (acc : List (Nat × Nat))
    (h1 : i ≠ .Loop) (h2 : i ≠ .End) :
    scanBrackets (i :: rest) k st acc = scanBrackets rest (k + 1) st acc := by
  cases i <;> first | rfl | exact absurd rfl h1 | exact absurd rfl h2

/-- Walking the flattening of a well-formed tree list records exactly its
`insOrder` entries (consed in reverse, matching the scan's insertion
order) and returns with the stack untouched. -/
theorem scan_flat :
    ∀ (n : Nat) (ts : List T), (flatL ts).length ≤ n → wfL ts →
      ∀ (tail : List Instruction) (k : Nat) (st : List Nat) (acc : List (Nat × Nat)),
        scanBrackets (flatL ts ++ tail) k st acc =
          scanBrackets tail (k + (flatL ts).length) st ((insOrder k ts).reverse ++ acc) := by
  intro n
  induction n with
  | zero =>
    intro ts hn hwf tail k st acc
    cases ts with
    | nil => simp [flatL, insOrder]
    | cons t ts2 =>
      rw [flatL_cons, List.length_append] at hn
      have := flatT_length_pos t
      omega
  | succ n ih =>
    intro ts hn hwf tail k st acc
    cases ts with
    | nil => simp [flatL, insOrder]
    | cons t ts2 =>
      cases t with
      | ins i =>
        rw [show flatL (T.ins i :: ts2) = i :: flatL ts2 from rfl]
        rw [List.cons_append,
          scanBrackets_prim_step i _ k st acc hwf.1.1 hwf.1.2]
        rw [ih ts2 (by simp [flatL_cons, flatT] at hn; omega) hwf.2 tail (k + 1) st acc]
        rw [show insOrder k (T.ins i :: ts2) = insOrder (k + 1) ts2 by simp [insOrder]]
        congr 1
        simp [flatL_cons, flatT]
        omega
      | block b =>
        have hflat : flatL (T.block b :: ts2) =
            Instruction.Loop :: (flatL b ++ (Instruction.End :: flatL ts2)) := by
          simp [flatL_cons, flatT]
        rw [hflat] at hn
        simp only [List.length_cons, List.length_append] at hn
        have hlenb : (flatL b).length ≤ n := by omega
        have hlen2 : (flatL ts2).length ≤ n := by omega
        rw [hflat]
        rw [List.cons_append]
        rw [show scanBrackets (.Loop :: ((flatL b ++ (.End :: flatL ts2)) ++ tail)) k st acc =
            scanBrackets ((flatL b ++ (.End :: flatL ts2)) ++ tail) (k + 1) (k :: st) acc
            from rfl]
        rw [List.append_assoc, ih b hlenb hwf.1 _ (k + 1) (k :: st) acc]
        rw [show scanBrackets ((Instruction.End :: flatL ts2) ++ tail)
              (k + 1 + (flatL b).length) (k :: st) ((insOrder (k + 1) b).reverse ++ acc) =
            scanBrackets (flatL ts2 ++ tail) (k + 1 + (flatL b).length + 1) st
              ((k + 1 + (flatL b).length, k) :: (k, k + 1 + (flatL b).length) ::
                ((insOrder (k + 1) b).reverse ++ acc)) from rfl]
        rw [ih ts2 hlen2 hwf.2 tail _ st _]
        rw [show insOrder k (T.block b :: ts2) =
            insOrder (k + 1) b ++
              [(k, k + 1 + (flatL b).length), (k + 1 + (flatL b).length, k)] ++
              insOrder (k + 2 + (flatL b).length) ts2 by simp [insOrder]]
        rw [show k + 1 + (flatL b).length + 1 = k + 2 + (flatL b).length by omega]
        congr 1
        · simp only [List.length_cons, List.length_append]
          omega
        · simp [List.append_assoc]

theorem scanBrackets_of_flat (ts : List T) (hwf : wfL ts) :
    scanBrackets (flatL ts) 0 [] [] = some ((insOrder 0 ts).reverse) := by
  have h := scan_flat (flatL ts).length ts le_rfl hwf [] 0 [] []
  rw [List.append_nil] at h
  rw [h]
  simp [scanBrackets]

/-! ## Position facts about the recorded bracket pairs -/

theorem insOrder_bounds :
    ∀ (n : Nat) (ts : List T), (flatL ts).length ≤ n →
      ∀ (k a b : Nat), (a, b) ∈ insOrder k ts →
        k ≤ a ∧ a < k + (flatL ts).length ∧ k ≤ b ∧ b < k + (flatL ts).length := by
  intro n
  induction n with
  | zero =>
    intro ts hn k a b hm
    cases ts with
    | nil => simp [insOrder] at hm
    | cons t ts2 =>
      rw [flatL_cons, List.length_append] at hn
      have := flatT_length_pos t
      omega
  | succ n ih =>
    intro ts hn k a b hm
    cases ts with
    | nil => simp [insOrder] at hm
    | cons t ts2 =>
      cases t with
      | ins i =>
        rw [show insOrder k (T.ins i :: ts2) = insOrder (k + 1) ts2 by simp [insOrder]] at hm
        have hl : (flatL (T.ins i :: ts2)).length = 1 + (flatL ts2).length := by
          simp [flatL_cons, flatT]
          omega
        have := ih ts2 (by omega) (k + 1) a b hm
        omega
      | block b2 =>
        have hl : (flatL (T.block b2 :: ts2)).length =
            (flatL b2).length + 2 + (flatL ts2).length := by
          simp [flatL_cons, flatT]
          omega
        rw [show insOrder k (T.block b2 :: ts2) =
            insOrder (k + 1) b2 ++
              [(k, k + 1 + (flatL b2).length), (k + 1 + (flatL b2).length, k)] ++
              insOrder (k + 2 + (flatL b2).length) ts2 by simp [insOrder]] at hm
        simp only [List.mem_append, List.mem_cons, List.mem_singleton] at hm
        rcases hm with (hm | hm | hm) | hm
        · have := ih b2 (by omega) (k + 1) a b hm
          omega
        · rw [Prod.ext_iff] at hm
          simp at hm
          omega
        · rw [Prod.ext_iff] at hm
          simp at hm
          omega
        · have := ih ts2 (by omega) (k + 2 + (flatL b2).length) a b hm
          omega

theorem mem_insOrder_iff :
    ∀ (n : Nat) (ts : List T), (flatL ts).length ≤ n →
      ∀ (k a b : Nat), (a, b) ∈ insOrder k ts ↔
        ((a, b) ∈ pairsOf k ts ∨ (b, a) ∈ pairsOf k ts) := by
  intro n
  induction n with
  | zero =>
    intro ts hn k a b
    cases ts with
    | nil => simp [insOrder, pairsOf]
    | cons t ts2 =>
      rw [flatL_cons, List.length_append] at hn
      have := flatT_length_pos t
      omega
  | succ n ih =>
    intro ts hn k a b
    cases ts with
    | nil => simp [insOrder, pairsOf]
    | cons t ts2 =>
      cases t with
      | ins i =>
        rw [show insOrder k (T.ins i :: ts2) = insOrder (k + 1) ts2 by simp [insOrder],
          show pairsOf k (T.ins i :: ts2) = pairsOf (k + 1) ts2 by simp [pairsOf]]
        have hl : (flatL (T.ins i :: ts2)).length = 1 + (flatL ts2).length := by
          simp [flatL_cons, flatT]
          omega
        exact ih ts2 (by omega) (k + 1) a b
      | block b2 =>
        have hl : (flatL (T.block b2 :: ts2)).length =
            (flatL b2).length + 2 + (flatL ts2).length := by
          simp [flatL_cons, flatT]
          omega
        rw [show insOrder k (T.block b2 :: ts2) =
            insOrder (k + 1) b2 ++
              [(k, k + 1 + (flatL b2).length), (k + 1 + (flatL b2).length, k)] ++
              insOrder (k + 2 + (flatL b2).length) ts2 by simp [insOrder],
          show pairsOf k (T.block b2 :: ts2) =
            (k, k + 1 + (flatL b2).length) :: pairsOf (k + 1) b2 ++
              pairsOf (k + 2 + (flatL b2).length) ts2 by simp [pairsOf]]
        simp only [List.mem_append, List.mem_cons, List.mem_singleton, Prod.mk.injEq]
        rw [ih b2 (by omega) (k + 1) a b, ih ts2 (by omega) (k + 2 + (flatL b2).length) a b]
        tauto

theorem getAt_append (u : List Instruction) (x : Instruction) (w : List Instruction) :
    (u ++ x :: w)[u.length]? = some x := by
  induction u with
  | nil => simp
  | cons a u ih => simpa using ih

theorem pairsOf_decomp :
    ∀ (n : Nat) (ts : List T), (flatL ts).length ≤ n →
      ∀ (k o c : Nat), (o, c) ∈ pairsOf k ts →
        ∃ u b v, flatL ts = u ++ Instruction.Loop :: (flatL b ++ Instruction.End :: v) ∧
          o = k + u.length ∧ c = o + 1 + (flatL b).length := by
  intro n
  induction n with
  | zero =>
    intro ts hn k o c hm
    cases ts with
    | nil => simp [pairsOf] at hm
    | cons t ts2 =>
      rw [flatL_cons, List.length_append] at hn
      have := flatT_length_pos t
      omega
  | succ n ih =>
    intro ts hn k o c hm
    cases ts with
    | nil => simp [pairsOf] at hm
    | cons t ts2 =>
      cases t with
      | ins i =>
        rw [show pairsOf k (T.ins i :: ts2) = pairsOf (k + 1) ts2 by simp [pairsOf]] at hm
        have hl : (flatL (T.ins i :: ts2)).length = 1 + (flatL ts2).length := by
          simp [flatL_cons, flatT]
          omega
        obtain ⟨u, b, v, he, ho, hc⟩ := ih ts2 (by omega) (k + 1) o c hm
        refine ⟨i :: u, b, v, ?_, ?_, hc⟩
        · rw [flatL_cons, he]
          simp [flatT]
        · simp
          omega
      | block b2 =>
        have hl : (flatL (T.block b2 :: ts2)).length =
            (flatL b2).length + 2 + (flatL ts2).length := by
          simp [flatL_cons, flatT]
          omega
        rw [show pairsOf k (T.block b2 :: ts2) =
            (k, k + 1 + (flatL b2).length) :: pairsOf (k + 1) b2 ++
              pairsOf (k + 2 + (flatL b2).length) ts2 by simp [pairsOf]] at hm
        rcases List.mem_cons.mp hm with he | hm2
        · rw [Prod.mk.injEq] at he
          refine ⟨[], b2, flatL ts2, ?_, by simp [he.1], by omega⟩
          rw [flatL_cons]
          simp [flatT]
        · rcases List.mem_append.mp hm2 with hmb | hmr
          · obtain ⟨u, b, v, he, ho, hc⟩ := ih b2 (by omega) (k + 1) o c hmb
            refine ⟨Instruction.Loop :: u, b, v ++ Instruction.End :: flatL ts2, ?_, ?_, hc⟩
            · rw [flatL_cons]
              simp [flatT, he, List.append_assoc]
            · simp
              omega
          · obtain ⟨u, b, v, he, ho, hc⟩ :=
              ih ts2 (by omega) (k + 2 + (flatL b2).length) o c hmr
            refine ⟨Instruction.Loop :: flatL b2 ++ Instruction.End :: u, b, v, ?_, ?_, hc⟩
            · rw [flatL_cons]
              simp [flatT, he, List.append_assoc]
            · simp
              omega

theorem mem_insOrder_iff2 (ts : List T) (k a b : Nat) :
    (a, b) ∈ insOrder k ts ↔ ((a, b) ∈ pairsOf k ts ∨ (b, a) ∈ pairsOf k ts) :=
  mem_insOrder_iff (flatL ts).length ts le_rfl k a b

theorem insOrder_bounds2 (ts : List T) (k a b : Nat) (h : (a, b) ∈ insOrder k ts) :
    k ≤ a ∧ a < k + (flatL ts).length ∧ k ≤ b ∧ b < k + (flatL ts).length :=
  insOrder_bounds (flatL ts).length ts le_rfl k a b h

theorem pairsOf_decomp2 (ts : List T) (k o c : Nat) (h : (o, c) ∈ pairsOf k ts) :
    ∃ u b v, flatL ts = u ++ Instruction.Loop :: (flatL b ++ Instruction.End :: v) ∧
      o = k + u.length ∧ c = o + 1 + (flatL b).length :=
  pairsOf_decomp (flatL ts).length ts le_rfl k o c h

theorem pairsOf_lt (ts : List T) (k o c : Nat) (h : (o, c) ∈ pairsOf k ts) : o < c := by
  obtain ⟨u, b, v, _, ho, hc⟩ := pairsOf_decomp2 ts k o c h
  omega

theorem pairsOf_positions (ts : List T) (k o c : Nat) (h : (o, c) ∈ pairsOf k ts) :
    (flatL ts)[o - k]? = some Instruction.Loop ∧ (flatL ts)[c - k]? = some Instruction.End := by
  obtain ⟨u, b, v, he, ho, hc⟩ := pairsOf_decomp2 ts k o c h
  constructor
  · rw [he, show o - k = u.length by omega]
    exact getAt_append u Instruction.Loop (flatL b ++ Instruction.End :: v)
  · rw [he, show u ++ Instruction.Loop :: (flatL b ++ Instruction.End :: v) =
      (u ++ Instruction.Loop :: flatL b) ++ Instruction.End :: v by simp,
      show c - k = (u ++ Instruction.Loop :: flatL b).length by simp; omega]
    exact getAt_append (u ++ Instruction.Loop :: flatL b) Instruction.End v

theorem pairsOf_nested :
    ∀ (n : Nat) (ts : List T), (flatL ts).length ≤ n →
      ∀ (k o1 c1 o2 c2 : Nat), (o1, c1) ∈ pairsOf k ts → (o2, c2) ∈ pairsOf k ts →
        o1 < o2 → o2 ≤ c1 → c2 < c1 := by
  intro n
  induction n with
  | zero =>
    intro ts hn k o1 c1 o2 c2 hm1 hm2 h12 h21
    cases ts with
    | nil => simp [pairsOf] at hm1
    | cons t ts2 =>
      rw [flatL_cons, List.length_append] at hn
      have := flatT_length_pos t
      omega
  | succ n ih =>
    intro ts hn k o1 c1 o2 c2 hm1 hm2 h12 h21
    cases ts with
    | nil => simp [pairsOf] at hm1
    | cons t ts2 =>
      cases t with
      | ins i =>
        rw [show pairsOf k (T.ins i :: ts2) = pairsOf (k + 1) ts2 by simp [pairsOf]]
          at hm1 hm2
        have hl : (flatL (T.ins i :: ts2)).length = 1 + (flatL ts2).length := by
          simp [flatL_cons, flatT]
          omega
        exact ih ts2 (by omega) (k + 1) o1 c1 o2 c2 hm1 hm2 h12 h21
      | block b2 =>
        have hl : (flatL (T.block b2 :: ts2)).length =
            (flatL b2).length + 2 + (flatL ts2).length := by
          simp [flatL_cons, flatT]
          omega
        rw [show pairsOf k (T.block b2 :: ts2) =
            (k, k + 1 + (flatL b2).length) :: pairsOf (k + 1) b2 ++
              pairsOf (k + 2 + (flatL b2).length) ts2 by simp [pairsOf]] at hm1 hm2
        have B1 : ∀ x y, (x, y) ∈ pairsOf (k + 1) b2 →
            k + 1 ≤ x ∧ x < k + 1 + (flatL b2).length ∧
            k + 1 ≤ y ∧ y < k + 1 + (flatL b2).length := by
          intro x y h
          exact insOrder_bounds2 b2 (k + 1) x y ((mem_insOrder_iff2 b2 (k + 1) x y).mpr
            (Or.inl h))
        have B2 : ∀ x y, (x, y) ∈ pairsOf (k + 2 + (flatL b2).length) ts2 →
            k + 2 + (flatL b2).length ≤ x ∧ k + 2 + (flatL b2).length ≤ y := by
          intro x y h
          have := insOrder_bounds2 ts2 (k + 2 + (flatL b2).length) x y
            ((mem_insOrder_iff2 ts2 (k + 2 + (flatL b2).length) x y).mpr (Or.inl h))
          omega
        rcases List.mem_cons.mp hm1 with he1 | hm1'
        · rw [Prod.mk.injEq] at he1
          rcases List.mem_cons.mp hm2 with he2 | hm2'
          · rw [Prod.mk.injEq] at he2
            omega
          · rcases List.mem_append.mp hm2' with hb | hr
            · have := B1 o2 c2 hb
              omega
            · have := B2 o2 c2 hr
              omega
        · rcases List.mem_append.mp hm1' with hb1 | hr1
          · rcases List.mem_cons.mp hm2 with he2 | hm2'
            · rw [Prod.mk.injEq] at he2
              have := B1 o1 c1 hb1
              omega
            · rcases List.mem_append.mp hm2' with hb2 | hr2
              · exact ih b2 (by omega) (k + 1) o1 c1 o2 c2 hb1 hb2 h12 h21
              · have := B1 o1 c1 hb1
                have := B2 o2 c2 hr2
                omega
          · rcases List.mem_cons.mp hm2 with he2 | hm2'
            · rw [Prod.mk.injEq] at he2
              have := B2 o1 c1 hr1
              omega
            · rcases List.mem_append.mp hm2' with hb2 | hr2
              · have := B1 o2 c2 hb2
                have := B2 o1 c1 hr1
                omega
              · exact ih ts2 (by omega) (k + 2 + (flatL b2).length) o1 c1 o2 c2 hr1 hr2
                  h12 h21

theorem insOrder_key_fun :
    ∀ (n : Nat) (ts : List T), (flatL ts).length ≤ n →
      ∀ (k a b b' : Nat), (a, b) ∈ insOrder k ts → (a, b') ∈ insOrder k ts → b = b' := by
  intro n
  induction n with
  | zero =>
    intro ts hn k a b b' hm1 hm2
    cases ts with
    | nil => simp [insOrder] at hm1
    | cons t ts2 =>
      rw [flatL_cons, List.length_append] at hn
      have := flatT_length_pos t
      omega
  | succ n ih =>
    intro ts hn k a b b' hm1 hm2
    cases ts with
    | nil => simp [insOrder] at hm1
    | cons t ts2 =>
      cases t with
      | ins i =>
        rw [show insOrder k (T.ins i :: ts2) = insOrder (k + 1) ts2 by simp [insOrder]]
          at hm1 hm2
        have hl : (flatL (T.ins i :: ts2)).length = 1 + (flatL ts2).length := by
          simp [flatL_cons, flatT]
          omega
        exact ih ts2 (by omega) (k + 1) a b b' hm1 hm2
      | block b2 =>
        have hl : (flatL (T.block b2 :: ts2)).length =
            (flatL b2).length + 2 + (flatL ts2).length := by
          simp [flatL_cons, flatT]
          omega
        rw [show insOrder k (T.block b2 :: ts2) =
            insOrder (k + 1) b2 ++
              [(k, k + 1 + (flatL b2).length), (k + 1 + (flatL b2).length, k)] ++
              insOrder (k + 2 + (flatL b2).length) ts2 by simp [insOrder]] at hm1 hm2
        have B1 : ∀ x y, (x, y) ∈ insOrder (k + 1) b2 →
            k + 1 ≤ x ∧ x < k + 1 + (flatL b2).length := by
          intro x y h
          have := insOrder_bounds2 b2 (k + 1) x y h
          omega
        have B2 : ∀ x y, (x, y) ∈ insOrder (k + 2 + (flatL b2).length) ts2 →
            k + 2 + (flatL b2).length ≤ x := by
          intro x y h
          have := insOrder_bounds2 ts2 (k + 2 + (flatL b2).length) x y h
          omega
        simp only [List.mem_append, List.mem_cons, List.mem_singleton,
          List.not_mem_nil, or_false, Prod.mk.injEq] at hm1 hm2
        rcases hm1 with (hm1 | hm1 | hm1) | hm1 <;>
          rcases hm2 with (hm2 | hm2 | hm2) | hm2
        · exact ih b2 (by omega) (k + 1) a b b' hm1 hm2
        · have := B1 a b hm1
          omega
        · have := B1 a b hm1
          omega
        · have := B1 a b hm1
          have := B2 a b' hm2
          omega
        · have := B1 a b' hm2
          omega
        · omega
        · omega
        · have := B2 a b' hm2
          omega
        · have := B1 a b' hm2
          omega
        · omega
        · omega
        · have := B2 a b' hm2
          omega
        · have := B1 a b' hm2
          have := B2 a b hm1
          omega
        · have := B2 a b hm1
          omega
        · have := B2 a b hm1
          omega
        · exact ih ts2 (by omega) (k + 2 + (flatL b2).length) a b b' hm1 hm2

theorem pairsOf_total :
    ∀ (n : Nat) (ts : List T), (flatL ts).length ≤ n → wfL ts →
      ∀ (k j : Nat),
        ((flatL ts)[j]? = some Instruction.Loop → ∃ c, (k + j, c) ∈ pairsOf k ts) ∧
        ((flatL ts)[j]? = some Instruction.End → ∃ o, (o, k + j) ∈ pairsOf k ts) := by
  intro n
  induction n with
  | zero =>
    intro ts hn hwf k j
    cases ts with
    | nil => simp [flatL]
    | cons t ts2 =>
      rw [flatL_cons, List.length_append] at hn
      have := flatT_length_pos t
      omega
  | succ n ih =>
    intro ts hn hwf k j
    cases ts with
    | nil => simp [flatL]
    | cons t ts2 =>
      cases t with
      | ins i =>
        obtain ⟨⟨hi1, hi2⟩, hwf2⟩ : (i ≠ Instruction.Loop ∧ i ≠ Instruction.End) ∧ wfL ts2 :=
          hwf
        have hfl : flatL (T.ins i :: ts2) = i :: flatL ts2 := by
          rw [flatL_cons]
          rfl
        have hl : (flatL (T.ins i :: ts2)).length = 1 + (flatL ts2).length := by
          rw [hfl]
          simp
          omega
        rw [hfl, show pairsOf k (T.ins i :: ts2) = pairsOf (k + 1) ts2 by simp [pairsOf]]
        cases j with
        | zero =>
          constructor
          · intro h
            simp at h
            exact absurd h hi1
          · intro h
            simp at h
            exact absurd h hi2
        | succ m =>
          have heq : k + (m + 1) = (k + 1) + m := by omega
          rw [List.getElem?_cons_succ, heq]
          exact ih ts2 (by omega) hwf2 (k + 1) m
      | block b2 =>
        obtain ⟨hwb, hwf2⟩ : wfL b2 ∧ wfL ts2 := hwf
        have hfl : flatL (T.block b2 :: ts2) =
            Instruction.Loop :: (flatL b2 ++ Instruction.End :: flatL ts2) := by
          rw [flatL_cons]
          simp [flatT]
        have hl : (flatL (T.block b2 :: ts2)).length =
            (flatL b2).length + 2 + (flatL ts2).length := by
          rw [hfl]
          simp
          omega
        rw [hfl, show pairsOf k (T.block b2 :: ts2) =
            (k, k + 1 + (flatL b2).length) :: pairsOf (k + 1) b2 ++
              pairsOf (k + 2 + (flatL b2).length) ts2 by simp [pairsOf]]
        cases j with
        | zero =>
          constructor
          · intro h
            exact ⟨k + 1 + (flatL b2).length, by simp⟩
          · intro h
            simp at h
        | succ m =>
          rw [List.getElem?_cons_succ]
          by_cases hm : m < (flatL b2).length
          · rw [List.getElem?_append_left hm]
            have heq : k + (m + 1) = (k + 1) + m := by omega
            rw [heq]
            have hih := ih b2 (by omega) hwb (k + 1) m
            constructor
            · intro h
              obtain ⟨c, hc⟩ := hih.1 h
              exact ⟨c, by simp [hc]⟩
            · intro h
              obtain ⟨o, ho⟩ := hih.2 h
              exact ⟨o, by simp [ho]⟩
          · rw [List.getElem?_append_right (by omega)]
            by_cases hm2 : m = (flatL b2).length
            · rw [show m - (flatL b2).length = 0 by omega]
              constructor
              · intro h
                simp at h
              · intro h
                refine ⟨k, ?_⟩
                rw [show k + (m + 1) = k + 1 + (flatL b2).length by omega]
                simp
            · rw [show m - (flatL b2).length = (m - (flatL b2).length - 1) + 1 by omega,
                List.getElem?_cons_succ]
              have hih := ih ts2 (by omega) hwf2 (k + 2 + (flatL b2).length)
                (m - (flatL b2).length - 1)
              have heq : k + (m + 1) =
                  (k + 2 + (flatL b2).length) + (m - (flatL b2).length - 1) := by omega
              rw [heq]
              constructor
              · intro h
                obtain ⟨c, hc⟩ := hih.1 h
                exact ⟨c, by simp [hc]⟩
              · intro h
                obtain ⟨o, ho⟩ := hih.2 h
                exact ⟨o, by simp [ho]⟩

theorem lookupMap_mem (m : List (Nat × Nat)) (x y : Nat)
    (h : lookupMap m x = some y) : (x, y) ∈ m := by
  unfold lookupMap at h
  rcases hf : m.find? (fun e => e.1 = x) with _ | e
  · rw [hf] at h
    cases h
  · rw [hf] at h
    have h1 := List.find?_some hf
    have h2 := List.mem_of_find?_eq_some hf
    rcases e with ⟨a, b⟩
    simp only [decide_eq_true_eq] at h1
    simp only [Option.map, Option.some.injEq] at h
    rw [show x = a from h1.symm, show y = b from h.symm]
    exact h2

theorem mem_lookupMap (m : List (Nat × Nat))
    (hf : ∀ a b b', (a, b) ∈ m → (a, b') ∈ m → b = b')
    (x y : Nat) (h : (x, y) ∈ m) : lookupMap m x = some y := by
  induction m with
  | nil => cases h
  | cons e m2 ih =>
    rcases e with ⟨a, b⟩
    by_cases hax : a = x
    · subst hax
      have hyb : y = b := hf a y b h (List.mem_cons_self _ _)
      subst hyb
      unfold lookupMap
      rw [List.find?_cons_of_pos]
      · rfl
      · simp
    · have h2 : (x, y) ∈ m2 := by
        rcases List.mem_cons.mp h with he | hm
        · rw [Prod.mk.injEq] at he
          exact absurd he.1.symm hax
        · exact hm
      have ihm := ih (fun a' b1 b2 h1 h2 =>
        hf a' b1 b2 (List.mem_cons_of_mem _ h1) (List.mem_cons_of_mem _ h2)) h2
      unfold lookupMap at ihm ⊢
      rw [List.find?_cons_of_neg]
      · exact ihm
      · simp [hax]

/-- C4: for every source string whose recognized brackets are balanced and
that compiles, the loop map is a perfect involution over the bracket
positions of the final optimized sequence: every recorded entry has its
reversed partner entry; every entry `(o, c)` with `o < c` marks a `Loop` at
position `o` and an `End` at position `c`; every bracket position of the
optimized sequence has an entry; and distinct pairs never partially
overlap (classic proper nesting). -/
theorem c4_loop_map_involution (src : List Char) (p : Program)
    (hb : balB (bracketsOf (parseSrc src)) 0 = true)
    (hc : compile src = some p) :
    (∀ o c, lookupMap p.loop_map o = some c → lookupMap p.loop_map c = some o) ∧
    (∀ o c, lookupMap p.loop_map o = some c → o < c →
      p.instructions[o]? = some Instruction.Loop ∧
      p.instructions[c]? = some Instruction.End) ∧
    (∀ j, (p.instructions[j]? = some Instruction.Loop ∨
        p.instructions[j]? = some Instruction.End) →
      (lookupMap p.loop_map j).isSome = true) ∧
    (∀ o1 c1 o2 c2, lookupMap p.loop_map o1 = some c1 → o1 < c1 →
      lookupMap p.loop_map o2 = some c2 → o2 < c2 →
      o1 < o2 → o2 ≤ c1 → c2 < c1) := by
  unfold compile at hc
  rcases hs : scanBrackets (optimize (parseSrc src)) 0 [] [] with _ | m
  · rw [hs] at hc
    cases hc
  · rw [hs] at hc
    simp only [Option.map, Option.some.injEq] at hc
    obtain ⟨ts, hwf, hflat⟩ := exists_tree_of_balanced (optimize (parseSrc src))
      (by rw [optimize_balB]; exact hb)
    rw [← hflat, scanBrackets_of_flat ts hwf] at hs
    have hm : m = (insOrder 0 ts).reverse := (Option.some.inj hs).symm
    have hpi : p.instructions = flatL ts := by
      rw [← hc, hflat]
    have hpm : p.loop_map = (insOrder 0 ts).reverse := by
      rw [← hc, hm]
    have hmem : ∀ a b : Nat, (a, b) ∈ p.loop_map ↔ (a, b) ∈ insOrder 0 ts := by
      intro a b
      rw [hpm, List.mem_reverse]
    have hfun : ∀ a b b' : Nat, (a, b) ∈ p.loop_map → (a, b') ∈ p.loop_map → b = b' := by
      intro a b b' h1 h2
      exact insOrder_key_fun (flatL ts).length ts le_rfl 0 a b b'
        ((hmem a b).mp h1) ((hmem a b').mp h2)
    have hlook : ∀ a b : Nat, lookupMap p.loop_map a = some b ↔ (a, b) ∈ insOrder 0 ts := by
      intro a b
      constructor
      · intro h
        exact (hmem a b).mp (lookupMap_mem _ a b h)
      · intro h
        exact mem_lookupMap _ hfun a b ((hmem a b).mpr h)
    have hpair : ∀ o c : Nat, lookupMap p.loop_map o = some c → o < c →
        (o, c) ∈ pairsOf 0 ts := by
      intro o c h hlt
      rcases (mem_insOrder_iff2 ts 0 o c).mp ((hlook o c).mp h) with hp | hp
      · exact hp
      · exact absurd (pairsOf_lt ts 0 c o hp) (by omega)
    refine ⟨?_, ?_, ?_, ?_⟩
    · intro o c h
      apply (hlook c o).mpr
      rw [mem_insOrder_iff2]
      rcases (mem_insOrder_iff2 ts 0 o c).mp ((hlook o c).mp h) with hp | hp
      · exact Or.inr hp
      · exact Or.inl hp
    · intro o c h hlt
      have hp := hpair o c h hlt
      have hps := pairsOf_positions ts 0 o c hp
      rw [Nat.sub_zero, Nat.sub_zero] at hps
      rw [hpi]
      exact hps
    · intro j hj
      rw [hpi] at hj
      rcases hj with hj | hj
      · obtain ⟨c, hcp⟩ := (pairsOf_total (flatL ts).length ts le_rfl hwf 0 j).1 hj
        rw [Nat.zero_add] at hcp
        rw [(hlook j c).mpr ((mem_insOrder_iff2 ts 0 j c).mpr (Or.inl hcp))]
        rfl
      · obtain ⟨o, hop⟩ := (pairsOf_total (flatL ts).length ts le_rfl hwf 0 j).2 hj
        rw [Nat.zero_add] at hop
        rw [(hlook j o).mpr ((mem_insOrder_iff2 ts 0 j o).mpr (Or.inr hop))]
        rfl
    · intro o1 c1 o2 c2 h1 hl1 h2 hl2 h12 h21
      exact pairsOf_nested (flatL ts).length ts le_rfl 0 o1 c1 o2 c2
        (hpair o1 c1 h1 hl1) (hpair o2 c2 h2 hl2) h12 h21

theorem c4_loop_map_involution_witness :
    balB (bracketsOf (parseSrc "[->.<][[]][]".data)) 0 = true ∧
    compile "[->.<][[]][]".data = some (Program.mk
      [Instruction.Loop, Instruction.Alt (-1), Instruction.Shift 1, Instruction.Out,
       Instruction.Shift (-1), Instruction.End, Instruction.Loop, Instruction.Loop,
       Instruction.End, Instruction.End, Instruction.Loop, Instruction.End]
      [(11, 10), (10, 11), (9, 6), (6, 9), (8, 7), (7, 8), (5, 0), (0, 5)]) ∧
    (∀ o c, lookupMap [(11, 10), (10, 11), (9, 6), (6, 9), (8, 7), (7, 8), (5, 0),
        (0, 5)] o = some c →
      lookupMap [(11, 10), (10, 11), (9, 6), (6, 9), (8, 7), (7, 8), (5, 0),
        (0, 5)] c = some o) :=
  ⟨by decide, by decide,
    (c4_loop_map_involution "[->.<][[]][]".data (Program.mk
      [Instruction.Loop, Instruction.Alt (-1), Instruction.Shift 1, Instruction.Out,
       Instruction.Shift (-1), Instruction.End, Instruction.Loop, Instruction.Loop,
       Instruction.End, Instruction.End, Instruction.Loop, Instruction.End]
      [(11, 10), (10, 11), (9, 6), (6, 9), (8, 7), (7, 8), (5, 0), (0, 5)])
      (by decide) (by decide)).1⟩

/-- Sequential checked execution of a plain instruction list (used to
unfold the four-instruction copy-loop bodies). -/
def chainPrim (σ : Instruction → St → Option St) : List Instruction → St → Option St
  | [], s => some s
  | i :: l, s =>
      match σ i s with
      | none => none
      | some s2 => chainPrim σ l s2

/-! ## Basic facts for the executor correspondence -/

theorem setTape_get (t : Nat → Nat) (i v : Nat) : setTape t i v i = v := by
  simp [setTape]

theorem setTape_get_ne (t : Nat → Nat) (i v j : Nat) (h : j ≠ i) :
    setTape t i v j = t j := by
  simp [setTape, h]

theorem setTape_setTape (t : Nat → Nat) (i v w : Nat) :
    setTape (setTape t i v) i w = setTape t i w := by
  funext j
  by_cases hj : j = i <;> simp [setTape, hj]

theorem setTape_id (t : Nat → Nat) (i : Nat) : setTape t i (t i) = t := by
  funext j
  by_cases hj : j = i <;> simp [setTape, hj]

theorem get_of_drop {α : Type} : ∀ (n : Nat) (l : List α) (x : α) (u : List α),
    l.drop n = x :: u → l[n]? = some x := by
  intro n
  induction n with
  | zero =>
    intro l x u h
    simp at h
    rw [h]
    simp
  | succ m ih =>
    intro l x u h
    cases l with
    | nil => simp at h
    | cons a l2 =>
      simp at h
      simpa using ih l2 x u h

theorem drop_succ_of_drop {α : Type} (l : List α) (n : Nat) (x : α) (u : List α)
    (h : l.drop n = x :: u) : l.drop (n + 1) = u := by
  rw [← List.tail_drop, h]
  rfl

theorem drop_of_drop_append {α : Type} :
    ∀ (u : List α) (l : List α) (n : Nat) (v : List α),
      l.drop n = u ++ v → l.drop (n + u.length) = v := by
  intro u
  induction u with
  | nil =>
    intro l n v h
    simpa using h
  | cons a u2 ih =>
    intro l n v h
    have h2 : l.drop (n + 1) = u2 ++ v := drop_succ_of_drop l n a (u2 ++ v) (by simpa using h)
    have := ih l (n + 1) v h2
    rw [show n + (a :: u2).length = n + 1 + u2.length by simp; omega]
    exact this

theorem drop_nil_of_get_none {α : Type} (l : List α) (n : Nat) (h : l[n]? = none) :
    l.drop n = [] := by
  rcases hd : l.drop n with _ | ⟨x, u⟩
  · rfl
  · rw [get_of_drop n l x u hd] at h
    cases h

theorem flatL_nil (ts : List T) (h : flatL ts = []) : ts = [] := by
  cases ts with
  | nil => rfl
  | cons t ts2 =>
    rw [flatL_cons] at h
    have h1 := flatT_length_pos t
    have h2 := congrArg List.length h
    simp only [List.length_append, List.length_nil] at h2
    omega

theorem runL_mono (σ : Instruction → St → Option St) :
    ∀ (n m : Nat) (ts : List T) (s r : St), n ≤ m →
      runL σ n ts s = some r → runL σ m ts s = some r := by
  intro n
  induction n with
  | zero =>
    intro m ts s r hnm h
    simp [runL] at h
  | succ n ih =>
    intro m ts s r hnm h
    obtain ⟨m2, rfl⟩ : ∃ m2, m = m2 + 1 := ⟨m - 1, by omega⟩
    cases ts with
    | nil => exact h
    | cons t ts2 =>
      cases t with
      | ins i =>
        rw [show runL σ (n + 1) (.ins i :: ts2) s =
            match σ i s with
            | none => none
            | some s2 => runL σ n ts2 s2 from rfl] at h
        rw [show runL σ (m2 + 1) (.ins i :: ts2) s =
            match σ i s with
            | none => none
            | some s2 => runL σ m2 ts2 s2 from rfl]
        rcases hσ : σ i s with _ | s2 <;> rw [hσ] at h
        · exact h
        · exact ih m2 ts2 s2 r (by omega) h
      | block b =>
        rw [show runL σ (n + 1) (.block b :: ts2) s =
            if s.tape s.ptr = 0 then runL σ n ts2 s
            else
              match runL σ n b s with
              | none => none
              | some s2 => runL σ n (.block b :: ts2) s2 from rfl] at h
        rw [show runL σ (m2 + 1) (.block b :: ts2) s =
            if s.tape s.ptr = 0 then runL σ m2 ts2 s
            else
              match runL σ m2 b s with
              | none => none
              | some s2 => runL σ m2 (.block b :: ts2) s2 from rfl]
        by_cases hc : s.tape s.ptr = 0
        · rw [if_pos hc] at h
          rw [if_pos hc]
          exact ih m2 ts2 s r (by omega) h
        · rw [if_neg hc] at h
          rw [if_neg hc]
          rcases hb : runL σ n b s with _ | s2 <;> rw [hb] at h
          · simp at h
          · rw [ih m2 b s s2 (by omega) hb]
            exact ih m2 (.block b :: ts2) s2 r (by omega) h

theorem runK_frame_eq (σ : Instruction → St → Option St) (f : Nat) (b rest : List T)
    (k : List (List T × List T)) (s : St) :
    runK σ (f + 1) [] ((b, rest) :: k) s = runK σ (f + 1) (.block b :: rest) k s := rfl

/-- A completed continuation run decomposes: the current list completes
first (compositional semantics), leaving a residual continuation run on
an empty current list. -/
theorem runK_decomp (σ : Instruction → St → Option St) :
    ∀ (N f : Nat), f ≤ N → ∀ (cur : List T) (stk : List (List T × List T)) (s t : St),
      runK σ f cur stk s = some t →
      ∃ F1 s1, runL σ F1 cur s = some s1 ∧
        ∃ f2, f2 ≤ f ∧ runK σ f2 [] stk s1 = some t := by
  intro N
  induction N with
  | zero =>
    intro f hf cur stk s t h
    interval_cases f
    simp [runK] at h
  | succ N ih =>
    intro f hf cur stk s t h
    rcases f with _ | f2
    · simp [runK] at h
    · cases cur with
      | nil =>
        exact ⟨1, s, rfl, f2 + 1, le_rfl, h⟩
      | cons c cur2 =>
        cases c with
        | ins i =>
          rw [show runK σ (f2 + 1) (.ins i :: cur2) stk s =
              match σ i s with
              | none => none
              | some s2 => runK σ f2 cur2 stk s2 from rfl] at h
          rcases hσ : σ i s with _ | s2 <;> rw [hσ] at h
          · cases h
          · obtain ⟨F1, s1, hL, f3, hf3, hK⟩ := ih f2 (by omega) cur2 stk s2 t h
            exact ⟨F1 + 1, s1, by
              rw [show runL σ (F1 + 1) (.ins i :: cur2) s =
                  match σ i s with
                  | none => none
                  | some s2 => runL σ F1 cur2 s2 from rfl, hσ]
              exact hL, f3, by omega, hK⟩
        | block b =>
          rw [show runK σ (f2 + 1) (.block b :: cur2) stk s =
              if s.tape s.ptr = 0 then runK σ f2 cur2 stk s
              else runK σ f2 b ((b, cur2) :: stk) s from rfl] at h
          by_cases hc : s.tape s.ptr = 0
          · rw [if_pos hc] at h
            obtain ⟨F1, s1, hL, f3, hf3, hK⟩ := ih f2 (by omega) cur2 stk s t h
            refine ⟨F1 + 1, s1, ?_, f3, by omega, hK⟩
            rw [show runL σ (F1 + 1) (.block b :: cur2) s =
                if s.tape s.ptr = 0 then runL σ F1 cur2 s
                else
                  match runL σ F1 b s with
                  | none => none
                  | some s2 => runL σ F1 (.block b :: cur2) s2 from rfl, if_pos hc]
            exact hL
          · rw [if_neg hc] at h
            obtain ⟨F1, sB, hLb, f3, hf3, hK⟩ := ih f2 (by omega) b ((b, cur2) :: stk) s t h
            rcases f3 with _ | f4
            · simp [runK] at hK
            · rw [runK_frame_eq] at hK
              obtain ⟨F2, s1, hL2, f5, hf5, hK2⟩ :=
                ih (f4 + 1) (by omega) (.block b :: cur2) stk sB t hK
              refine ⟨max F1 F2 + 1, s1, ?_, f5, by omega, hK2⟩
              rw [show runL σ (max F1 F2 + 1) (.block b :: cur2) s =
                  if s.tape s.ptr = 0 then runL σ (max F1 F2) cur2 s
                  else
                    match runL σ (max F1 F2) b s with
                    | none => none
                    | some s2 => runL σ (max F1 F2) (.block b :: cur2) s2 from rfl,
                if_neg hc,
                runL_mono σ F1 (max F1 F2) b s sB (by omega) hLb]
              exact runL_mono σ F2 (max F1 F2) (.block b :: cur2) sB s1 (by omega) hL2

/-- Converse composition: a completed compositional run followed by a
completed residual continuation yields a completed continuation run. -/
theorem runL_runK (σ : Instruction → St → Option St) :
    ∀ (F : Nat) (cur : List T) (s s1 : St), runL σ F cur s = some s1 →
      ∀ (stk : List (List T × List T)) (f2 : Nat) (t : St),
        runK σ f2 [] stk s1 = some t →
        ∃ f3, runK σ f3 cur stk s = some t := by
  intro F
  induction F with
  | zero =>
    intro cur s s1 h
    simp [runL] at h
  | succ F ih =>
    intro cur s s1 h stk f2 t hK
    cases cur with
    | nil =>
      rw [show runL σ (F + 1) ([] : List T) s = some s from rfl] at h
      rw [show s1 = s from (Option.some.inj h).symm] at hK
      exact ⟨f2, hK⟩
    | cons c cur2 =>
      cases c with
      | ins i =>
        rw [show runL σ (F + 1) (.ins i :: cur2) s =
            match σ i s with
            | none => none
            | some s2 => runL σ F cur2 s2 from rfl] at h
        rcases hσ : σ i s with _ | s2 <;> rw [hσ] at h
        · cases h
        · obtain ⟨f3, h3⟩ := ih cur2 s2 s1 h stk f2 t hK
          refine ⟨f3 + 1, ?_⟩
          rw [show runK σ (f3 + 1) (.ins i :: cur2) stk s =
              match σ i s with
              | none => none
              | some s2 => runK σ f3 cur2 stk s2 from rfl, hσ]
          exact h3
      | block b =>
        rw [show runL σ (F + 1) (.block b :: cur2) s =
            if s.tape s.ptr = 0 then runL σ F cur2 s
            else
              match runL σ F b s with
              | none => none
              | some s2 => runL σ F (.block b :: cur2) s2 from rfl] at h
        by_cases hc : s.tape s.ptr = 0
        · rw [if_pos hc] at h
          obtain ⟨f3, h3⟩ := ih cur2 s s1 h stk f2 t hK
          refine ⟨f3 + 1, ?_⟩
          rw [show runK σ (f3 + 1) (.block b :: cur2) stk s =
              if s.tape s.ptr = 0 then runK σ f3 cur2 stk s
              else runK σ f3 b ((b, cur2) :: stk) s from rfl, if_pos hc]
          exact h3
        · rw [if_neg hc] at h
          rcases hb : runL σ F b s with _ | s2 <;> rw [hb] at h
          · cases h
          · obtain ⟨f3, h3⟩ := ih (.block b :: cur2) s2 s1 h stk f2 t hK
            rcases f3 with _ | f4
            · simp [runK] at h3
            · rw [← runK_frame_eq] at h3
              obtain ⟨f5, h5⟩ := ih b s s2 hb ((b, cur2) :: stk) (f4 + 1) t h3
              refine ⟨f5 + 1, ?_⟩
              rw [show runK σ (f5 + 1) (.block b :: cur2) stk s =
                  if s.tape s.ptr = 0 then runK σ f5 cur2 stk s
                  else runK σ f5 b ((b, cur2) :: stk) s from rfl, if_neg hc]
              exact h5

theorem fetch_of_drop (l : List Instruction) (ip : Nat) (x : Instruction)
    (u : List Instruction) (h : l.drop ip = x :: u) : l.get? ip = some x := by
  rw [List.get?_eq_getElem?]
  exact get_of_drop ip l x u h

theorem fetch_none_of_drop (l : List Instruction) (ip : Nat) (h : l.drop ip = []) :
    l.get? ip = none := by
  rw [List.get?_eq_getElem?]
  rcases hg : l[ip]? with _ | x
  · rfl
  · have hlt : ip < l.length := by
      rcases List.getElem?_eq_some_iff.mp hg with ⟨hl, _⟩
      exact hl
    have : l.drop ip ≠ [] := by
      intro hd
      have := congrArg List.length hd
      simp at this
      omega
    exact absurd h this

theorem genStep_halt_eval (σ : Instruction → St → Option St) (p : Program) (ip : Nat)
    (s : St) (hf : p.instructions.get? ip = none) : genStep σ p ip s = .halt s := by
  unfold genStep
  rw [hf]

theorem genStep_loop_eval (σ : Instruction → St → Option St) (p : Program) (ip : Nat)
    (s : St) (hf : p.instructions.get? ip = some Instruction.Loop) :
    genStep σ p ip s =
      if s.tape s.ptr = 0 then
        match lookupMap p.loop_map ip with
        | none => GOut.fail
        | some c => GOut.cont (c + 1) s
      else GOut.cont (ip + 1) s := by
  unfold genStep
  rw [hf]

theorem genStep_end_eval (σ : Instruction → St → Option St) (p : Program) (ip : Nat)
    (s : St) (hf : p.instructions.get? ip = some Instruction.End) :
    genStep σ p ip s =
      if s.tape s.ptr ≠ 0 then
        match lookupMap p.loop_map ip with
        | none => GOut.fail
        | some o => GOut.cont (o + 1) s
      else GOut.cont (ip + 1) s := by
  unfold genStep
  rw [hf]

theorem genStep_prim_eval (σ : Instruction → St → Option St) (p : Program) (ip : Nat)
    (s : St) (i : Instruction) (hf : p.instructions.get? ip = some i)
    (hiL : i ≠ Instruction.Loop) (hiE : i ≠ Instruction.End) :
    genStep σ p ip s =
      match σ i s with
      | none => GOut.fail
      | some s2 => GOut.cont (ip + 1) s2 := by
  unfold genStep
  rw [hf]
  cases i <;> first | rfl | exact absurd rfl hiL | exact absurd rfl hiE

/-- Machine/tree lockstep: under the configuration invariant, the
halting behaviour of the generic machine with fuel `f` equals the
continuation tree semantics with the same fuel. -/
theorem lockstep (σ : Instruction → St → Option St) (W : List T) (p : Program) :
    ∀ (f : Nat) (cur : List T) (stk : List (List T × List T)) (ip : Nat) (s : St),
      MInv W p cur stk ip →
      (match genRun σ p f ip s with
        | GOut.halt u => some u
        | _ => none) = runK σ f cur stk s := by
  intro f
  induction f with
  | zero =>
    intro cur stk ip s hInv
    rfl
  | succ f ih =>
    intro cur stk ip s hInv
    obtain ⟨hpi, hmap, hsuf, hwf, hpairs, hstk⟩ := hInv
    rw [show genRun σ p (f + 1) ip s =
        (match genStep σ p ip s with
          | GOut.cont ip2 s2 => genRun σ p f ip2 s2
          | r => r) from rfl]
    cases cur with
    | nil =>
      cases stk with
      | nil =>
        have hdrop : (flatL W).drop ip = [] := hsuf
        rw [genStep_halt_eval σ p ip s (by rw [hpi]; exact fetch_none_of_drop _ _ hdrop)]
        rfl
      | cons fr k =>
        rcases fr with ⟨b, rest⟩
        obtain ⟨ipL, he, hdropL, hpairF, hpb, hpr, hwb, hwr, hstkK⟩ :
            ∃ ipL, ip = ipL + 1 + (flatL b).length ∧
              (flatL W).drop ipL =
                Instruction.Loop ::
                  (flatL b ++ (Instruction.End :: (flatL rest ++ closing k))) ∧
              (ipL, ip) ∈ pairsOf 0 W ∧
              (∀ q, q ∈ pairsOf (ipL + 1) b → q ∈ pairsOf 0 W) ∧
              (∀ q, q ∈ pairsOf (ip + 1) rest → q ∈ pairsOf 0 W) ∧
              wfL b ∧ wfL rest ∧ stkInv W k (ip + 1 + (flatL rest).length) := hstk
        have hsuf2 : (flatL W).drop ip =
            Instruction.End :: (flatL rest ++ closing k) := hsuf
        have hfetch : p.instructions.get? ip = some Instruction.End := by
          rw [hpi]
          exact fetch_of_drop _ _ _ _ hsuf2
        rw [genStep_end_eval σ p ip s hfetch]
        by_cases hc : s.tape s.ptr = 0
        · rw [if_neg (by simp [hc])]
          have hsufNew : (flatL W).drop (ip + 1) = flatL rest ++ closing k :=
            drop_succ_of_drop _ _ _ _ hsuf2
          have hstkNew : stkInv W k ((ip + 1) + (flatL rest).length) := hstkK
          show (match genRun σ p f (ip + 1) s with
            | GOut.halt u => some u
            | _ => none) = runK σ (f + 1) [] ((b, rest) :: k) s
          rw [ih rest k (ip + 1) s ⟨hpi, hmap, hsufNew, hwr, hpr, hstkNew⟩]
          rw [show runK σ (f + 1) ([] : List T) ((b, rest) :: k) s =
              if s.tape s.ptr = 0 then runK σ f rest k s
              else runK σ f b ((b, rest) :: k) s from rfl, if_pos hc]
        · rw [if_pos hc]
          have hlook : lookupMap p.loop_map ip = some ipL := by
            apply (hmap ip ipL).mpr
            rw [mem_insOrder_iff2]
            exact Or.inr hpairF
          rw [hlook]
          have hsufB : (flatL W).drop (ipL + 1) =
              flatL b ++ closing ((b, rest) :: k) :=
            drop_succ_of_drop _ _ _ _ hdropL
          have hstkB : stkInv W ((b, rest) :: k) ((ipL + 1) + (flatL b).length) := by
            refine ⟨ipL, rfl, hdropL, ?_, hpb, ?_, hwb, hwr, ?_⟩
            · rw [← he]
              exact hpairF
            · rw [← he]
              exact hpr
            · rw [← he]
              exact hstkK
          show (match genRun σ p f (ipL + 1) s with
            | GOut.halt u => some u
            | _ => none) = runK σ (f + 1) [] ((b, rest) :: k) s
          rw [ih b ((b, rest) :: k) (ipL + 1) s ⟨hpi, hmap, hsufB, hwb, hpb, hstkB⟩]
          rw [show runK σ (f + 1) ([] : List T) ((b, rest) :: k) s =
              if s.tape s.ptr = 0 then runK σ f rest k s
              else runK σ f b ((b, rest) :: k) s from rfl, if_neg hc]
    | cons c cur2 =>
      cases c with
      | ins i =>
        obtain ⟨⟨hiL, hiE⟩, hwf2⟩ : (i ≠ Instruction.Loop ∧ i ≠ Instruction.End) ∧
            wfL cur2 := hwf
        have hsuf2 : (flatL W).drop ip = i :: (flatL cur2 ++ closing stk) := hsuf
        have hfetch : p.instructions.get? ip = some i := by
          rw [hpi]
          exact fetch_of_drop _ _ _ _ hsuf2
        rw [genStep_prim_eval σ p ip s i hfetch hiL hiE]
        have hpe : pairsOf ip (T.ins i :: cur2) = pairsOf (ip + 1) cur2 := by
          simp [pairsOf]
        rcases hσ : σ i s with _ | s2
        · rw [show runK σ (f + 1) (T.ins i :: cur2) stk s =
              (match σ i s with
                | none => none
                | some s2 => runK σ f cur2 stk s2) from rfl, hσ]
        · have hsufNew : (flatL W).drop (ip + 1) = flatL cur2 ++ closing stk :=
            drop_succ_of_drop _ _ _ _ hsuf2
          have hpairsNew : ∀ q, q ∈ pairsOf (ip + 1) cur2 → q ∈ pairsOf 0 W := by
            intro q hq
            apply hpairs
            rw [hpe]
            exact hq
          have hstkNew : stkInv W stk ((ip + 1) + (flatL cur2).length) := by
            rw [show (ip + 1) + (flatL cur2).length =
                ip + (flatL (T.ins i :: cur2)).length by
              rw [flatL_cons]
              simp [flatT]
              omega]
            exact hstk
          show (match genRun σ p f (ip + 1) s2 with
            | GOut.halt u => some u
            | _ => none) = runK σ (f + 1) (T.ins i :: cur2) stk s
          rw [ih cur2 stk (ip + 1) s2 ⟨hpi, hmap, hsufNew, hwf2, hpairsNew, hstkNew⟩]
          rw [show runK σ (f + 1) (T.ins i :: cur2) stk s =
              (match σ i s with
                | none => none
                | some s3 => runK σ f cur2 stk s3) from rfl, hσ]
      | block b =>
        obtain ⟨hwb, hwf2⟩ : wfL b ∧ wfL cur2 := hwf
        have hsuf2 : (flatL W).drop ip =
            Instruction.Loop ::
              (flatL b ++ (Instruction.End :: (flatL cur2 ++ closing stk))) := by
          rw [flatL_cons] at hsuf
          rw [hsuf]
          simp [flatT]
        have hfetch : p.instructions.get? ip = some Instruction.Loop := by
          rw [hpi]
          exact fetch_of_drop _ _ _ _ hsuf2
        rw [genStep_loop_eval σ p ip s hfetch]
        have hpe : pairsOf ip (T.block b :: cur2) =
            (ip, ip + 1 + (flatL b).length) ::
              (pairsOf (ip + 1) b ++ pairsOf (ip + 2 + (flatL b).length) cur2) := by
          simp [pairsOf]
        have hlen : (flatL (T.block b :: cur2)).length =
            (flatL b).length + 2 + (flatL cur2).length := by
          rw [flatL_cons]
          simp [flatT]
          omega
        have hheadW : (ip, ip + 1 + (flatL b).length) ∈ pairsOf 0 W := by
          apply hpairs
          rw [hpe]
          exact List.mem_cons_self _ _
        by_cases hc : s.tape s.ptr = 0
        · rw [if_pos hc]
          have hlook : lookupMap p.loop_map ip = some (ip + 1 + (flatL b).length) := by
            apply (hmap ip (ip + 1 + (flatL b).length)).mpr
            rw [mem_insOrder_iff2]
            exact Or.inl hheadW
          rw [hlook]
          have hsuf3 : (flatL W).drop ip =
              (Instruction.Loop :: (flatL b ++ [Instruction.End])) ++
                (flatL cur2 ++ closing stk) := by
            rw [hsuf2]
            simp [List.append_assoc]
          have hsufNew : (flatL W).drop (ip + 1 + (flatL b).length + 1) =
              flatL cur2 ++ closing stk := by
            have hd := drop_of_drop_append _ _ _ _ hsuf3
            rw [show ip + (Instruction.Loop ::
                (flatL b ++ [Instruction.End])).length =
              ip + 1 + (flatL b).length + 1 by simp; omega] at hd
            exact hd
          have hpairsNew : ∀ q, q ∈ pairsOf (ip + 1 + (flatL b).length + 1) cur2 →
              q ∈ pairsOf 0 W := by
            intro q hq
            apply hpairs
            rw [hpe]
            refine List.mem_cons_of_mem _ (List.mem_append.mpr (Or.inr ?_))
            rw [show ip + 2 + (flatL b).length = ip + 1 + (flatL b).length + 1 by omega]
            exact hq
          have hstkNew : stkInv W stk
              ((ip + 1 + (flatL b).length + 1) + (flatL cur2).length) := by
            rw [show (ip + 1 + (flatL b).length + 1) + (flatL cur2).length =
                ip + (flatL (T.block b :: cur2)).length by omega]
            exact hstk
          show (match genRun σ p f (ip + 1 + (flatL b).length + 1) s with
            | GOut.halt u => some u
            | _ => none) = runK σ (f + 1) (T.block b :: cur2) stk s
          rw [ih cur2 stk (ip + 1 + (flatL b).length + 1) s
              ⟨hpi, hmap, hsufNew, hwf2, hpairsNew, hstkNew⟩]
          rw [show runK σ (f + 1) (T.block b :: cur2) stk s =
              (if s.tape s.ptr = 0 then runK σ f cur2 stk s
                else runK σ f b ((b, cur2) :: stk) s) from rfl, if_pos hc]
        · rw [if_neg hc]
          have hsufB : (flatL W).drop (ip + 1) =
              flatL b ++ closing ((b, cur2) :: stk) :=
            drop_succ_of_drop _ _ _ _ hsuf2
          have hpb : ∀ q, q ∈ pairsOf (ip + 1) b → q ∈ pairsOf 0 W := by
            intro q hq
            apply hpairs
            rw [hpe]
            exact List.mem_cons_of_mem _ (List.mem_append.mpr (Or.inl hq))
          have hstkB : stkInv W ((b, cur2) :: stk) ((ip + 1) + (flatL b).length) := by
            refine ⟨ip, by omega, hsuf2, ?_, hpb, ?_, hwb, hwf2, ?_⟩
            · rw [show (ip + 1) + (flatL b).length = ip + 1 + (flatL b).length from rfl]
              exact hheadW
            · intro q hq
              apply hpairs
              rw [hpe]
              refine List.mem_cons_of_mem _ (List.mem_append.mpr (Or.inr ?_))
              rw [show ip + 2 + (flatL b).length =
                  (ip + 1) + (flatL b).length + 1 by omega]
              exact hq
            · rw [show (ip + 1) + (flatL b).length + 1 + (flatL cur2).length =
                  ip + (flatL (T.block b :: cur2)).length by omega]
              exact hstk
          show (match genRun σ p f (ip + 1) s with
            | GOut.halt u => some u
            | _ => none) = runK σ (f + 1) (T.block b :: cur2) stk s
          rw [ih b ((b, cur2) :: stk) (ip + 1) s ⟨hpi, hmap, hsufB, hwb, hpb, hstkB⟩]
          rw [show runK σ (f + 1) (T.block b :: cur2) stk s =
              (if s.tape s.ptr = 0 then runK σ f cur2 stk s
                else runK σ f b ((b, cur2) :: stk) s) from rfl, if_neg hc]

/-- `vmStep` is the generic step at `primVM`. -/
theorem genStep_vm (p : Program) (s : VMState) :
    genStep primVM p s.in_ptr (toSt s) =
      match vmStep p s with
      | .cont s2 => GOut.cont s2.in_ptr (toSt s2)
      | .halt s2 => GOut.halt (toSt s2)
      | .fail _ => GOut.fail := by
  rcases s with ⟨tp, dp, np, inp2, outp2⟩
  unfold genStep vmStep toSt
  rcases hf : p.instructions.get? np with _ | ins
  · rfl
  · cases ins with
    | Shift d => rfl
    | Alt d =>
      by_cases hd : d = 0 <;> simp [primVM, hd]
    | Out => rfl
    | In =>
      cases inp2 <;> rfl
    | Loop =>
      by_cases hc : tp dp = 0 <;>
        simp only [hc, if_true, if_false, ite_true, ite_false, not_true, not_false_iff] <;>
        rcases hl : lookupMap p.loop_map np with _ | c <;> rfl
    | End =>
      by_cases hc : tp dp = 0 <;>
        simp only [hc, ne_eq, if_true, if_false, ite_true, ite_false, not_true,
          not_false_iff] <;>
        rcases hl : lookupMap p.loop_map np with _ | c <;>
        first | rfl | (simp [hl])
    | NoOp => rfl
    | Clear => rfl
    | Copy m o => rfl

/-- Run-level correspondence between the VM and the generic machine. -/
theorem genRun_vm (p : Program) :
    ∀ (f : Nat) (s : VMState),
      genRun primVM p f s.in_ptr (toSt s) =
        match vmRun p f s with
        | .cont s2 => GOut.cont s2.in_ptr (toSt s2)
        | .halt s2 => GOut.halt (toSt s2)
        | .fail _ => GOut.fail := by
  intro f
  induction f with
  | zero => intro s; rfl
  | succ f ih =>
    intro s
    rw [show genRun primVM p (f + 1) s.in_ptr (toSt s) =
        (match genStep primVM p s.in_ptr (toSt s) with
          | GOut.cont ip2 s2 => genRun primVM p f ip2 s2
          | r => r) from rfl,
      show vmRun p (f + 1) s =
        (match vmStep p s with
          | .cont s2 => vmRun p f s2
          | r => r) from rfl,
      genStep_vm p s]
    rcases hv : vmStep p s with s2 | s2 | e
    · exact ih s2
    · rfl
    · rfl

/-- Checked primitive steps preserve run-time well-formedness. -/
theorem primChk_StOK (i : Instruction) (s s2 : St) (h : primChk i s = some s2)
    (hok : StOK s) : StOK s2 := by
  obtain ⟨htp, hptr, hinp⟩ := hok
  cases i with
  | Shift d =>
    rw [show primChk (.Shift d) s =
        (if 0 ≤ (s.ptr : Int) + d ∧ (s.ptr : Int) + d < (MEM : Int) then
          some { s with ptr := (((s.ptr : Int) + d)).toNat }
        else none) from rfl] at h
    by_cases hg : 0 ≤ (s.ptr : Int) + d ∧ (s.ptr : Int) + d < (MEM : Int)
    · rw [if_pos hg] at h
      rw [← Option.some.inj h]
      exact ⟨htp, by dsimp only; omega, hinp⟩
    · rw [if_neg hg] at h
      cases h
  | Alt d =>
    rw [show primChk (.Alt d) s =
        (if 0 ≤ (s.tape s.ptr : Int) + d ∧ (s.tape s.ptr : Int) + d ≤ 255 then
          some { s with tape := setTape s.tape s.ptr (((s.tape s.ptr : Int) + d)).toNat }
        else none) from rfl] at h
    by_cases hg : 0 ≤ (s.tape s.ptr : Int) + d ∧ (s.tape s.ptr : Int) + d ≤ 255
    · rw [if_pos hg] at h
      rw [← Option.some.inj h]
      refine ⟨?_, hptr, hinp⟩
      intro j
      dsimp only
      by_cases hj : j = s.ptr
      · simp only [hj, setTape_get]
        omega
      · rw [setTape_get_ne _ _ _ _ hj]
        exact htp j
    · rw [if_neg hg] at h
      cases h
  | Out =>
    rw [show primChk .Out s = some { s with outp := s.outp ++ [s.tape s.ptr] } from rfl] at h
    rw [← Option.some.inj h]
    exact ⟨htp, hptr, hinp⟩
  | In =>
    rw [show primChk .In s =
        (match s.inp with
        | [] => none
        | b :: r => some { s with tape := setTape s.tape s.ptr b, inp := r }) from rfl] at h
    rcases hin : s.inp with _ | ⟨b, r⟩ <;> rw [hin] at h
    · cases h
    · rw [← Option.some.inj h]
      refine ⟨?_, hptr, ?_⟩
      · intro j
        dsimp only
        by_cases hj : j = s.ptr
        · simp only [hj, setTape_get]
          exact hinp b (by rw [hin]; exact List.mem_cons_self _ _)
        · rw [setTape_get_ne _ _ _ _ hj]
          exact htp j
      · intro x hx
        exact hinp x (by rw [hin]; exact List.mem_cons_of_mem _ hx)
  | Clear =>
    rw [show primChk .Clear s = some { s with tape := setTape s.tape s.ptr 0 } from rfl] at h
    rw [← Option.some.inj h]
    refine ⟨?_, hptr, hinp⟩
    intro j
    dsimp only
    by_cases hj : j = s.ptr
    · simp [hj, setTape_get]
    · rw [setTape_get_ne _ _ _ _ hj]
      exact htp j
  | Copy m o =>
    rw [show primChk (.Copy m o) s =
        (if s.tape s.ptr = 0 then some s
        else if 0 ≤ (s.ptr : Int) + o ∧ (s.ptr : Int) + o < (MEM : Int) ∧
            s.tape (((s.ptr : Int) + o)).toNat + s.tape s.ptr * m ≤ 255 then
          some { s with tape := (setTape s.tape (((s.ptr : Int) + o)).toNat
            (s.tape (((s.ptr : Int) + o)).toNat + s.tape s.ptr * m)) }
        else none) from rfl] at h
    by_cases h0 : s.tape s.ptr = 0
    · rw [if_pos h0] at h
      rw [← Option.some.inj h]
      exact ⟨htp, hptr, hinp⟩
    · rw [if_neg h0] at h
      by_cases hg : 0 ≤ (s.ptr : Int) + o ∧ (s.ptr : Int) + o < (MEM : Int) ∧
          s.tape (((s.ptr : Int) + o)).toNat + s.tape s.ptr * m ≤ 255
      · rw [if_pos hg] at h
        rw [← Option.some.inj h]
        refine ⟨?_, hptr, hinp⟩
        intro j
        dsimp only
        by_cases hj : j = (((s.ptr : Int) + o)).toNat
        · simp only [hj, setTape_get]
          omega
        · rw [setTape_get_ne _ _ _ _ hj]
          exact htp j
      · rw [if_neg hg] at h
        cases h
  | Loop => cases h
  | End => cases h
  | NoOp => cases h

/-- The state of a generic-machine continuation either is unchanged (a
bracket step) or comes from a successful `σ` step. -/
theorem genStep_cont_src (σ : Instruction → St → Option St) (p : Program) (ip : Nat)
    (t : St) (ip2 : Nat) (t2 : St) (h : genStep σ p ip t = GOut.cont ip2 t2) :
    t2 = t ∨ ∃ i, σ i t = some t2 := by
  rcases hf : p.instructions.get? ip with _ | ins
  · rw [genStep_halt_eval σ p ip t hf] at h
    cases h
  · have hbr : ∀ (j : Instruction), j = ins → ins ≠ .Loop → ins ≠ .End →
        t2 = t ∨ ∃ i, σ i t = some t2 := by
      intro j hj hL hE
      rw [genStep_prim_eval σ p ip t ins hf hL hE] at h
      rcases hσ : σ ins t with _ | s2 <;> rw [hσ] at h
      · cases h
      · cases h
        exact Or.inr ⟨ins, hσ⟩
    cases ins with
    | Loop =>
      rw [genStep_loop_eval σ p ip t hf] at h
      by_cases hc : t.tape t.ptr = 0
      · rw [if_pos hc] at h
        rcases hl : lookupMap p.loop_map ip with _ | c <;> rw [hl] at h
        · cases h
        · cases h
          exact Or.inl rfl
      · rw [if_neg hc] at h
        cases h
        exact Or.inl rfl
    | End =>
      rw [genStep_end_eval σ p ip t hf] at h
      by_cases hc : t.tape t.ptr = 0
      · rw [if_neg (by simp [hc])] at h
        cases h
        exact Or.inl rfl
      · rw [if_pos hc] at h
        rcases hl : lookupMap p.loop_map ip with _ | c <;> rw [hl] at h
        · cases h
        · cases h
          exact Or.inl rfl
    | Shift d => exact hbr _ rfl (by simp) (by simp)
    | Alt d => exact hbr _ rfl (by simp) (by simp)
    | Out => exact hbr _ rfl (by simp) (by simp)
    | In => exact hbr _ rfl (by simp) (by simp)
    | NoOp => exact hbr _ rfl (by simp) (by simp)
    | Clear => exact hbr _ rfl (by simp) (by simp)
    | Copy m o => exact hbr _ rfl (by simp) (by simp)

/-- A generic-machine continuation at `primChk` preserves `StOK`. -/
theorem genStep_chk_StOK (p : Program) (ip : Nat) (t : St) (ip2 : Nat) (t2 : St)
    (h : genStep primChk p ip t = GOut.cont ip2 t2) (hok : StOK t) : StOK t2 := by
  rcases genStep_cont_src primChk p ip t ip2 t2 h with rfl | ⟨i, hσ⟩
  · exact hok
  · exact primChk_StOK i t t2 hσ hok

/-- `interpStep` is the generic step at `primChk`, on the embedded
instruction list, for well-formed states. -/
theorem genStep_interp (il : List IInstruction) (m : List (Nat × Nat)) (s : VMState)
    (hok : StOK (toSt s)) :
    genStep primChk ⟨il.map i2v, m⟩ s.in_ptr (toSt s) =
      match interpStep ⟨il, m⟩ s with
      | .cont s2 => GOut.cont s2.in_ptr (toSt s2)
      | .halt s2 => GOut.halt (toSt s2)
      | .fail _ => GOut.fail := by
  rcases s with ⟨tp, dp, np, sin, sout⟩
  obtain ⟨htp, hptr, hinp⟩ := hok
  have htp2 : ∀ i, tp i ≤ 255 := htp
  have hptr2 : dp < MEM := hptr
  have hfm : (Program.mk (il.map i2v) m).instructions.get? np =
      (il.get? np).map i2v := List.get?_map i2v il np
  rcases hfi : il.get? np with _ | ii
  · have hstep : interpStep ⟨il, m⟩ ⟨tp, dp, np, sin, sout⟩ =
        VMOutcome.halt ⟨tp, dp, np, sin, sout⟩ := by
      unfold interpStep
      rw [show (Interp.mk il m).instructions.get? np = il.get? np from rfl, hfi]
    rw [hstep, genStep_halt_eval _ _ _ _ (by rw [hfm, hfi]; rfl)]
  · have hf : (Program.mk (il.map i2v) m).instructions.get? np = some (i2v ii) := by
      rw [hfm, hfi]
      rfl
    have hIfetch : (Interp.mk il m).instructions.get? np = some ii := hfi
    cases ii with
    | Right =>
      have hstep : interpStep ⟨il, m⟩ ⟨tp, dp, np, sin, sout⟩ =
          (if dp + 1 < MEM then
            VMOutcome.cont ⟨tp, dp + 1, np + 1, sin, sout⟩
          else VMOutcome.fail VMErr.mapPanic) := by
        unfold interpStep
        rw [hIfetch]
      rw [hstep, genStep_prim_eval _ _ _ _ _ hf (by simp [i2v]) (by simp [i2v]),
        show primChk (i2v IInstruction.Right) (toSt ⟨tp, dp, np, sin, sout⟩) =
          (if 0 ≤ (dp : Int) + 1 ∧ (dp : Int) + 1 < (MEM : Int) then
            some ⟨tp, (((dp : Int) + 1)).toNat, sin, sout⟩
          else none) from rfl]
      by_cases hg : dp + 1 < MEM
      · rw [if_pos (by omega), if_pos hg,
          show (((dp : Int) + 1)).toNat = dp + 1 by omega]
        rfl
      · rw [if_neg (by omega), if_neg hg]
    | Left =>
      have hstep : interpStep ⟨il, m⟩ ⟨tp, dp, np, sin, sout⟩ =
          (if 0 < dp then
            VMOutcome.cont ⟨tp, dp - 1, np + 1, sin, sout⟩
          else VMOutcome.fail VMErr.mapPanic) := by
        unfold interpStep
        rw [hIfetch]
      rw [hstep, genStep_prim_eval _ _ _ _ _ hf (by simp [i2v]) (by simp [i2v]),
        show primChk (i2v IInstruction.Left) (toSt ⟨tp, dp, np, sin, sout⟩) =
          (if 0 ≤ (dp : Int) + (-1) ∧ (dp : Int) + (-1) < (MEM : Int) then
            some ⟨tp, (((dp : Int) + (-1))).toNat, sin, sout⟩
          else none) from rfl]
      by_cases hg : 0 < dp
      · rw [if_pos (by omega), if_pos hg,
          show (((dp : Int) + (-1))).toNat = dp - 1 by omega]
        rfl
      · rw [if_neg (by omega), if_neg hg]
    | Inc =>
      have hstep : interpStep ⟨il, m⟩ ⟨tp, dp, np, sin, sout⟩ =
          (if tp dp + 1 ≤ 255 then
            VMOutcome.cont ⟨setTape tp dp (tp dp + 1), dp, np + 1, sin, sout⟩
          else VMOutcome.fail VMErr.mapPanic) := by
        unfold interpStep
        rw [hIfetch]
      rw [hstep, genStep_prim_eval _ _ _ _ _ hf (by simp [i2v]) (by simp [i2v]),
        show primChk (i2v IInstruction.Inc) (toSt ⟨tp, dp, np, sin, sout⟩) =
          (if 0 ≤ (tp dp : Int) + 1 ∧ (tp dp : Int) + 1 ≤ 255 then
            some ⟨setTape tp dp (((tp dp : Int) + 1)).toNat, dp, sin, sout⟩
          else none) from rfl]
      by_cases hg : tp dp + 1 ≤ 255
      · rw [if_pos (by omega), if_pos hg,
          show (((tp dp : Int) + 1)).toNat = tp dp + 1 by omega]
        rfl
      · rw [if_neg (by omega), if_neg hg]
    | Dec =>
      have hstep : interpStep ⟨il, m⟩ ⟨tp, dp, np, sin, sout⟩ =
          (if 0 < tp dp then
            VMOutcome.cont ⟨setTape tp dp (tp dp - 1), dp, np + 1, sin, sout⟩
          else VMOutcome.fail VMErr.mapPanic) := by
        unfold interpStep
        rw [hIfetch]
      rw [hstep, genStep_prim_eval _ _ _ _ _ hf (by simp [i2v]) (by simp [i2v]),
        show primChk (i2v IInstruction.Dec) (toSt ⟨tp, dp, np, sin, sout⟩) =
          (if 0 ≤ (tp dp : Int) + (-1) ∧ (tp dp : Int) + (-1) ≤ 255 then
            some ⟨setTape tp dp (((tp dp : Int) + (-1))).toNat, dp, sin, sout⟩
          else none) from rfl]
      by_cases hg : 0 < tp dp
      · rw [if_pos (by have := htp2 dp; omega), if_pos hg,
          show (((tp dp : Int) + (-1))).toNat = tp dp - 1 by omega]
        rfl
      · rw [if_neg (by omega), if_neg hg]
    | Out =>
      have hstep : interpStep ⟨il, m⟩ ⟨tp, dp, np, sin, sout⟩ =
          VMOutcome.cont ⟨tp, dp, np + 1, sin, sout ++ [tp dp]⟩ := by
        unfold interpStep
        rw [hIfetch]
      rw [hstep, genStep_prim_eval _ _ _ _ _ hf (by simp [i2v]) (by simp [i2v]),
        show primChk (i2v IInstruction.Out) (toSt ⟨tp, dp, np, sin, sout⟩) =
          some ⟨tp, dp, sin, sout ++ [tp dp]⟩ from rfl]
      rfl
    | In =>
      cases sin with
      | nil =>
        have hstep : interpStep ⟨il, m⟩ ⟨tp, dp, np, [], sout⟩ =
            VMOutcome.fail VMErr.inputPanic := by
          unfold interpStep
          rw [hIfetch]
        rw [hstep, genStep_prim_eval _ _ _ _ _ hf (by simp [i2v]) (by simp [i2v]),
          show primChk (i2v IInstruction.In) (toSt ⟨tp, dp, np, [], sout⟩) =
            none from rfl]
      | cons b r =>
        have hstep : interpStep ⟨il, m⟩ ⟨tp, dp, np, b :: r, sout⟩ =
            VMOutcome.cont ⟨setTape tp dp b, dp, np + 1, r, sout⟩ := by
          unfold interpStep
          rw [hIfetch]
        rw [hstep, genStep_prim_eval _ _ _ _ _ hf (by simp [i2v]) (by simp [i2v]),
          show primChk (i2v IInstruction.In) (toSt ⟨tp, dp, np, b :: r, sout⟩) =
            some ⟨setTape tp dp b, dp, r, sout⟩ from rfl]
        rfl
    | Loop =>
      have hstep : interpStep ⟨il, m⟩ ⟨tp, dp, np, sin, sout⟩ =
          (if tp dp = 0 then
            match lookupMap m np with
            | none => VMOutcome.fail VMErr.mapPanic
            | some c => VMOutcome.cont ⟨tp, dp, c + 1, sin, sout⟩
          else VMOutcome.cont ⟨tp, dp, np + 1, sin, sout⟩) := by
        unfold interpStep
        rw [hIfetch]
      rw [hstep, genStep_loop_eval _ _ _ _ (by rw [hfm, hfi]; rfl)]
      dsimp only [toSt]
      by_cases hc : tp dp = 0
      · rw [if_pos hc, if_pos hc]
        rcases hl : lookupMap m np with _ | c <;> rfl
      · rw [if_neg hc, if_neg hc]
    | End =>
      have hstep : interpStep ⟨il, m⟩ ⟨tp, dp, np, sin, sout⟩ =
          (if tp dp ≠ 0 then
            match lookupMap m np with
            | none => VMOutcome.fail VMErr.mapPanic
            | some o => VMOutcome.cont ⟨tp, dp, o + 1, sin, sout⟩
          else VMOutcome.cont ⟨tp, dp, np + 1, sin, sout⟩) := by
        unfold interpStep
        rw [hIfetch]
      rw [hstep, genStep_end_eval _ _ _ _ (by rw [hfm, hfi]; rfl)]
      dsimp only [toSt]
      by_cases hc : tp dp = 0
      · rw [if_neg (by simp [hc]), if_neg (by simp [hc])]
      · rw [if_pos hc, if_pos hc]
        rcases hl : lookupMap m np with _ | c <;> rfl

/-- Run-level correspondence between the interpreter and the generic
machine at `primChk`. -/
theorem genRun_interp (il : List IInstruction) (m : List (Nat × Nat)) :
    ∀ (f : Nat) (s : VMState), StOK (toSt s) →
      genRun primChk ⟨il.map i2v, m⟩ f s.in_ptr (toSt s) =
        match interpRun ⟨il, m⟩ f s with
        | .cont s2 => GOut.cont s2.in_ptr (toSt s2)
        | .halt s2 => GOut.halt (toSt s2)
        | .fail _ => GOut.fail := by
  intro f
  induction f with
  | zero => intro s _; rfl
  | succ f ih =>
    intro s hok
    rw [show genRun primChk ⟨il.map i2v, m⟩ (f + 1) s.in_ptr (toSt s) =
        (match genStep primChk ⟨il.map i2v, m⟩ s.in_ptr (toSt s) with
          | GOut.cont ip2 s2 => genRun primChk ⟨il.map i2v, m⟩ f ip2 s2
          | r => r) from rfl,
      show interpRun ⟨il, m⟩ (f + 1) s =
        (match interpStep ⟨il, m⟩ s with
          | .cont s2 => interpRun ⟨il, m⟩ f s2
          | r => r) from rfl,
      genStep_interp il m s hok]
    rcases hi : interpStep ⟨il, m⟩ s with s2 | s2 | e
    · have hg : genStep primChk ⟨il.map i2v, m⟩ s.in_ptr (toSt s) =
          GOut.cont s2.in_ptr (toSt s2) := by
        rw [genStep_interp il m s hok, hi]
      exact ih s2 (genStep_chk_StOK _ _ _ _ _ hg hok)
    · rfl
    · rfl

/-- `compile`'s lexer factors through the interpreter's lexer. -/
theorem parseSrc_map (src : List Char) : parseSrc src = (parseISrc src).map i2v := by
  unfold parseSrc parseISrc
  rw [List.map_filterMap]
  apply List.filterMap_congr
  intro c _
  unfold charToInstruction charToIInstruction
  split_ifs <;> rfl

/-- When the compiler's bracket scan succeeds, the interpreter's scan (no
final assert) returns the same map. -/
theorem scanI_of_scan :
    ∀ (il : List IInstruction) (k : Nat) (st : List Nat) (acc m : List (Nat × Nat)),
      scanBrackets (il.map i2v) k st acc = some m →
      scanIBrackets il k st acc = some m := by
  intro il
  induction il with
  | nil =>
    intro k st acc m h
    rw [show scanBrackets (([] : List IInstruction).map i2v) k st acc =
        (if st = [] then some acc else none) from rfl] at h
    by_cases hst : st = ([] : List Nat)
    · rw [if_pos hst] at h
      rw [show scanIBrackets [] k st acc = some acc from rfl]
      exact h
    · rw [if_neg hst] at h
      cases h
  | cons ii il2 ih =>
    intro k st acc m h
    cases ii with
    | Loop =>
      rw [show ((IInstruction.Loop :: il2).map i2v) = Instruction.Loop :: il2.map i2v
          from rfl] at h
      rw [show scanBrackets (Instruction.Loop :: il2.map i2v) k st acc =
          scanBrackets (il2.map i2v) (k + 1) (k :: st) acc from rfl] at h
      exact ih (k + 1) (k :: st) acc m h
    | End =>
      rw [show ((IInstruction.End :: il2).map i2v) = Instruction.End :: il2.map i2v
          from rfl] at h
      cases st with
      | nil =>
        rw [show scanBrackets (Instruction.End :: il2.map i2v) k [] acc = none
            from rfl] at h
        cases h
      | cons o st2 =>
        rw [show scanBrackets (Instruction.End :: il2.map i2v) k (o :: st2) acc =
            scanBrackets (il2.map i2v) (k + 1) st2 ((k, o) :: (o, k) :: acc)
            from rfl] at h
        exact ih (k + 1) st2 ((k, o) :: (o, k) :: acc) m h
    | Right => exact ih (k + 1) st acc m h
    | Left => exact ih (k + 1) st acc m h
    | Inc => exact ih (k + 1) st acc m h
    | Dec => exact ih (k + 1) st acc m h
    | Out => exact ih (k + 1) st acc m h
    | In => exact ih (k + 1) st acc m h

/-- The reversed recorded pairs answer lookups exactly by membership in
the recorded pairs. -/
theorem lookup_insOrder (ts : List T) (a b : Nat) :
    lookupMap ((insOrder 0 ts).reverse) a = some b ↔ (a, b) ∈ insOrder 0 ts := by
  constructor
  · intro h
    have := lookupMap_mem _ a b h
    rwa [List.mem_reverse] at this
  · intro h
    apply mem_lookupMap
    · intro x y y' h1 h2
      rw [List.mem_reverse] at h1 h2
      exact insOrder_key_fun (flatL ts).length ts le_rfl 0 x y y' h1 h2
    · rwa [List.mem_reverse]

theorem shiftCode_in_range (p : Nat) (d : Int) (h1 : 0 ≤ (p : Int) + d)
    (h2 : (p : Int) + d < (MEM : Int)) : shiftCode p d = (((p : Int) + d)).toNat := by
  unfold shiftCode
  rw [Int.emod_eq_of_lt h1 (lt_trans h2 (by norm_num [MEM, USIZE]))]
  exact Nat.mod_eq_of_lt (by omega)

/-- On a successful checked step of a well-formed state, the VM's
wrapping semantics computes the same successor (for instructions the
optimizer can emit). -/
theorem prim_switch (i : Instruction) (s s2 : St) (h : primChk i s = some s2)
    (hok : StOK s) (hnb : isNoOpLike i = false) : primVM i s = some s2 := by
  obtain ⟨htp, hptr, hinp⟩ := hok
  cases i with
  | Shift d =>
    rw [show primChk (.Shift d) s =
        (if 0 ≤ (s.ptr : Int) + d ∧ (s.ptr : Int) + d < (MEM : Int) then
          some { s with ptr := (((s.ptr : Int) + d)).toNat }
        else none) from rfl] at h
    by_cases hg : 0 ≤ (s.ptr : Int) + d ∧ (s.ptr : Int) + d < (MEM : Int)
    · rw [if_pos hg] at h
      rw [show primVM (.Shift d) s = some { s with ptr := shiftCode s.ptr d } from rfl,
        shiftCode_in_range s.ptr d hg.1 hg.2]
      exact h
    · rw [if_neg hg] at h
      cases h
  | Alt d =>
    have hd : d ≠ 0 := by
      intro hd0
      rw [hd0] at hnb
      simp [isNoOpLike] at hnb
    rw [show primChk (.Alt d) s =
        (if 0 ≤ (s.tape s.ptr : Int) + d ∧ (s.tape s.ptr : Int) + d ≤ 255 then
          some { s with tape := setTape s.tape s.ptr (((s.tape s.ptr : Int) + d)).toNat }
        else none) from rfl] at h
    by_cases hg : 0 ≤ (s.tape s.ptr : Int) + d ∧ (s.tape s.ptr : Int) + d ≤ 255
    · rw [if_pos hg] at h
      rw [show primVM (.Alt d) s =
          (if d = 0 then none
          else some { s with
            tape := setTape s.tape s.ptr (altCode (s.tape s.ptr) d) }) from rfl,
        if_neg hd]
      have hac : altCode (s.tape s.ptr) d = (((s.tape s.ptr : Int) + d)).toNat := by
        unfold altCode
        by_cases hdp : 0 < d
        · rw [if_pos hdp]
          omega
        · rw [if_neg hdp]
          omega
      rw [hac]
      exact h
    · rw [if_neg hg] at h
      cases h
  | Out => exact h
  | In => exact h
  | Clear => exact h
  | Copy m o =>
    rw [show primChk (.Copy m o) s =
        (if s.tape s.ptr = 0 then some s
        else if 0 ≤ (s.ptr : Int) + o ∧ (s.ptr : Int) + o < (MEM : Int) ∧
            s.tape (((s.ptr : Int) + o)).toNat + s.tape s.ptr * m ≤ 255 then
          some { s with tape := (setTape s.tape (((s.ptr : Int) + o)).toNat
            (s.tape (((s.ptr : Int) + o)).toNat + s.tape s.ptr * m)) }
        else none) from rfl] at h
    rw [show primVM (.Copy m o) s =
        some { s with tape := (setTape s.tape (shiftCode s.ptr o)
          ((s.tape (shiftCode s.ptr o) + (s.tape s.ptr * m) % 256) % 256)) } from rfl]
    by_cases h0 : s.tape s.ptr = 0
    · rw [if_pos h0] at h
      have hval : (s.tape (shiftCode s.ptr o) + (s.tape s.ptr * m) % 256) % 256 =
          s.tape (shiftCode s.ptr o) := by
        rw [h0]
        simp only [Nat.zero_mul, Nat.zero_mod, Nat.add_zero]
        have := htp (shiftCode s.ptr o)
        omega
      rw [hval, setTape_id]
      rw [show ({ s with tape := s.tape } : St) = s from rfl]
      exact h
    · rw [if_neg h0] at h
      by_cases hg : 0 ≤ (s.ptr : Int) + o ∧ (s.ptr : Int) + o < (MEM : Int) ∧
          s.tape (((s.ptr : Int) + o)).toNat + s.tape s.ptr * m ≤ 255
      · rw [if_pos hg] at h
        obtain ⟨hg1, hg2, hg3⟩ := hg
        rw [shiftCode_in_range s.ptr o hg1 hg2]
        have hval : (s.tape (((s.ptr : Int) + o)).toNat + (s.tape s.ptr * m) % 256) % 256 =
            s.tape (((s.ptr : Int) + o)).toNat + s.tape s.ptr * m := by
          omega
        rw [hval]
        exact h
      · rw [if_neg hg] at h
        cases h
  | Loop => cases h
  | End => cases h
  | NoOp => cases h

theorem runL_chk_StOK :
    ∀ (F : Nat) (ts : List T) (s s' : St),
      runL primChk F ts s = some s' → StOK s → StOK s' := by
  intro F
  induction F with
  | zero =>
    intro ts s s' h
    simp [runL] at h
  | succ F ih =>
    intro ts s s' h hok
    cases ts with
    | nil =>
      rw [show runL primChk (F + 1) ([] : List T) s = some s from rfl] at h
      rw [← Option.some.inj h]
      exact hok
    | cons t ts2 =>
      cases t with
      | ins i =>
        rw [show runL primChk (F + 1) (.ins i :: ts2) s =
            (match primChk i s with
              | none => none
              | some s2 => runL primChk F ts2 s2) from rfl] at h
        rcases hσ : primChk i s with _ | s2 <;> rw [hσ] at h
        · cases h
        · exact ih ts2 s2 s' h (primChk_StOK i s s2 hσ hok)
      | block b =>
        rw [show runL primChk (F + 1) (.block b :: ts2) s =
            (if s.tape s.ptr = 0 then runL primChk F ts2 s
            else
              match runL primChk F b s with
              | none => none
              | some s2 => runL primChk F (.block b :: ts2) s2) from rfl] at h
        by_cases hc : s.tape s.ptr = 0
        · rw [if_pos hc] at h
          exact ih ts2 s s' h hok
        · rw [if_neg hc] at h
          rcases hb : runL primChk F b s with _ | s2 <;> rw [hb] at h
          · cases h
          · exact ih (.block b :: ts2) s2 s' h (ih b s s2 hb hok)

/-- Semantics switch on a fixed tree: a successful checked run from a
well-formed state is reproduced verbatim by the VM's wrapping
semantics, provided no `NoOp`/`Alt 0`/`Shift 0` remains. -/
theorem runL_switch :
    ∀ (F : Nat) (ts : List T) (s s' : St),
      runL primChk F ts s = some s' → StOK s →
      (∀ j, j ∈ flatL ts → isNoOpLike j = false) →
      runL primVM F ts s = some s' := by
  intro F
  induction F with
  | zero =>
    intro ts s s' h
    simp [runL] at h
  | succ F ih =>
    intro ts s s' h hok hnb
    cases ts with
    | nil => exact h
    | cons t ts2 =>
      cases t with
      | ins i =>
        have hfl : flatL (T.ins i :: ts2) = i :: flatL ts2 := by
          rw [flatL_cons]
          rfl
        rw [show runL primChk (F + 1) (.ins i :: ts2) s =
            (match primChk i s with
              | none => none
              | some s2 => runL primChk F ts2 s2) from rfl] at h
        rcases hσ : primChk i s with _ | s2 <;> rw [hσ] at h
        · cases h
        · rw [show runL primVM (F + 1) (.ins i :: ts2) s =
              (match primVM i s with
                | none => none
                | some s2 => runL primVM F ts2 s2) from rfl,
            prim_switch i s s2 hσ hok (hnb i (by rw [hfl]; exact List.mem_cons_self _ _))]
          exact ih ts2 s2 s' h (primChk_StOK i s s2 hσ hok)
            (fun j hj => hnb j (by rw [hfl]; exact List.mem_cons_of_mem _ hj))
      | block b =>
        have hfl : flatL (T.block b :: ts2) =
            Instruction.Loop :: (flatL b ++ (Instruction.End :: flatL ts2)) := by
          rw [flatL_cons]
          simp [flatT]
        have hnbB : ∀ j, j ∈ flatL b → isNoOpLike j = false := by
          intro j hj
          apply hnb
          rw [hfl]
          exact List.mem_cons_of_mem _ (List.mem_append.mpr (Or.inl hj))
        have hnb2 : ∀ j, j ∈ flatL ts2 → isNoOpLike j = false := by
          intro j hj
          apply hnb
          rw [hfl]
          exact List.mem_cons_of_mem _
            (List.mem_append.mpr (Or.inr (List.mem_cons_of_mem _ hj)))
        rw [show runL primChk (F + 1) (.block b :: ts2) s =
            (if s.tape s.ptr = 0 then runL primChk F ts2 s
            else
              match runL primChk F b s with
              | none => none
              | some s2 => runL primChk F (.block b :: ts2) s2) from rfl] at h
        rw [show runL primVM (F + 1) (.block b :: ts2) s =
            (if s.tape s.ptr = 0 then runL primVM F ts2 s
            else
              match runL primVM F b s with
              | none => none
              | some s2 => runL primVM F (.block b :: ts2) s2) from rfl]
        by_cases hc : s.tape s.ptr = 0
        · rw [if_pos hc] at h
          rw [if_pos hc]
          exact ih ts2 s s' h hok hnb2
        · rw [if_neg hc] at h
          rw [if_neg hc]
          rcases hb : runL primChk F b s with _ | s2 <;> rw [hb] at h
          · cases h
          · rw [ih b s s2 hb hok hnbB]
            exact ih (.block b :: ts2) s2 s' h (runL_chk_StOK F b s s2 hb hok) hnb

/-! ## The no-op pass on trees -/

theorem noopL_flat :
    ∀ (n : Nat) (ts : List T), (flatL ts).length ≤ n →
      no_op_reducer (flatL ts) = flatL (noopL ts) := by
  intro n
  induction n with
  | zero =>
    intro ts hn
    cases ts with
    | nil =>
      rw [show noopL ([] : List T) = [] by simp [noopL]]
      rfl
    | cons t ts2 =>
      rw [flatL_cons, List.length_append] at hn
      have := flatT_length_pos t
      omega
  | succ n ih =>
    intro ts hn
    cases ts with
    | nil =>
      rw [show noopL ([] : List T) = [] by simp [noopL]]
      rfl
    | cons t ts2 =>
      cases t with
      | ins i =>
        have hfl : flatL (T.ins i :: ts2) = i :: flatL ts2 := by
          rw [flatL_cons]
          rfl
        have hl : (flatL (T.ins i :: ts2)).length = 1 + (flatL ts2).length := by
          rw [hfl]
          simp
          omega
        rw [hfl]
        unfold no_op_reducer
        rw [List.filter_cons]
        by_cases hni : isNoOpLike i
        · rw [if_neg (by simp [hni]),
            show noopL (T.ins i :: ts2) = noopL ts2 by simp [noopL, hni]]
          have := ih ts2 (by omega)
          unfold no_op_reducer at this
          exact this
        · rw [if_pos (by simp [hni]),
            show noopL (T.ins i :: ts2) = T.ins i :: noopL ts2 by simp [noopL, hni]]
          rw [flatL_cons]
          have := ih ts2 (by omega)
          unfold no_op_reducer at this
          rw [show flatT (T.ins i) = [i] from rfl]
          rw [this]
          rfl
      | block b =>
        have hfl : flatL (T.block b :: ts2) =
            Instruction.Loop :: (flatL b ++ (Instruction.End :: flatL ts2)) := by
          rw [flatL_cons]
          simp [flatT]
        have hl : (flatL (T.block b :: ts2)).length =
            (flatL b).length + 2 + (flatL ts2).length := by
          rw [hfl]
          simp
          omega
        rw [hfl]
        unfold no_op_reducer
        rw [List.filter_cons, if_pos (by simp [isNoOpLike]), List.filter_append,
          List.filter_cons, if_pos (by simp [isNoOpLike])]
        have hb := ih b (by omega)
        have h2 := ih ts2 (by omega)
        unfold no_op_reducer at hb h2
        rw [hb, h2,
          show noopL (T.block b :: ts2) = T.block (noopL b) :: noopL ts2 by
            simp [noopL],
          flatL_cons]
        simp [flatT]

theorem noopL_wf :
    ∀ (n : Nat) (ts : List T), (flatL ts).length ≤ n → wfL ts → wfL (noopL ts) := by
  intro n
  induction n with
  | zero =>
    intro ts hn hwf
    cases ts with
    | nil =>
      rw [show noopL ([] : List T) = [] by simp [noopL]]
      exact hwf
    | cons t ts2 =>
      rw [flatL_cons, List.length_append] at hn
      have := flatT_length_pos t
      omega
  | succ n ih =>
    intro ts hn hwf
    cases ts with
    | nil =>
      rw [show noopL ([] : List T) = [] by simp [noopL]]
      exact hwf
    | cons t ts2 =>
      cases t with
      | ins i =>
        obtain ⟨hi, hwf2⟩ : (i ≠ Instruction.Loop ∧ i ≠ Instruction.End) ∧ wfL ts2 := hwf
        have hl : (flatL (T.ins i :: ts2)).length = 1 + (flatL ts2).length := by
          rw [flatL_cons]
          simp [flatT]
          omega
        by_cases hni : isNoOpLike i
        · rw [show noopL (T.ins i :: ts2) = noopL ts2 by simp [noopL, hni]]
          exact ih ts2 (by omega) hwf2
        · rw [show noopL (T.ins i :: ts2) = T.ins i :: noopL ts2 by simp [noopL, hni]]
          exact ⟨hi, ih ts2 (by omega) hwf2⟩
      | block b =>
        obtain ⟨hwb, hwf2⟩ : wfL b ∧ wfL ts2 := hwf
        have hl : (flatL (T.block b :: ts2)).length =
            (flatL b).length + 2 + (flatL ts2).length := by
          rw [flatL_cons]
          simp [flatT]
          omega
        rw [show noopL (T.block b :: ts2) = T.block (noopL b) :: noopL ts2 by simp [noopL]]
        exact ⟨ih b (by omega) hwb, ih ts2 (by omega) hwf2⟩

theorem primChk_noop_id (i : Instruction) (s s2 : St) (hni : isNoOpLike i = true)
    (h : primChk i s = some s2) : s2 = s := by
  cases i with
  | Shift d =>
    have hd : d = 0 := by
      simpa [isNoOpLike] using hni
    subst hd
    rw [show primChk (.Shift 0) s =
        (if 0 ≤ (s.ptr : Int) + 0 ∧ (s.ptr : Int) + 0 < (MEM : Int) then
          some { s with ptr := (((s.ptr : Int) + 0)).toNat }
        else none) from rfl] at h
    by_cases hg : 0 ≤ (s.ptr : Int) + 0 ∧ (s.ptr : Int) + 0 < (MEM : Int)
    · rw [if_pos hg] at h
      have hp : (((s.ptr : Int) + 0)).toNat = s.ptr := by omega
      rw [hp] at h
      rw [← Option.some.inj h]
    · rw [if_neg hg] at h
      cases h
  | Alt d =>
    have hd : d = 0 := by
      simpa [isNoOpLike] using hni
    subst hd
    rw [show primChk (.Alt 0) s =
        (if 0 ≤ (s.tape s.ptr : Int) + 0 ∧ (s.tape s.ptr : Int) + 0 ≤ 255 then
          some { s with tape := setTape s.tape s.ptr (((s.tape s.ptr : Int) + 0)).toNat }
        else none) from rfl] at h
    by_cases hg : 0 ≤ (s.tape s.ptr : Int) + 0 ∧ (s.tape s.ptr : Int) + 0 ≤ 255
    · rw [if_pos hg] at h
      have hp : (((s.tape s.ptr : Int) + 0)).toNat = s.tape s.ptr := by omega
      rw [hp, setTape_id] at h
      rw [← Option.some.inj h]
    · rw [if_neg hg] at h
      cases h
  | NoOp => cases h
  | Out => simp [isNoOpLike] at hni
  | In => simp [isNoOpLike] at hni
  | Loop => simp [isNoOpLike] at hni
  | End => simp [isNoOpLike] at hni
  | Clear => simp [isNoOpLike] at hni
  | Copy m o => simp [isNoOpLike] at hni

/-- The no-op pass preserves completed checked runs. -/
theorem runL_noop :
    ∀ (F : Nat) (ts : List T) (s s' : St),
      runL primChk F ts s = some s' →
      ∃ G, runL primChk G (noopL ts) s = some s' := by
  intro F
  induction F with
  | zero =>
    intro ts s s' h
    simp [runL] at h
  | succ F ih =>
    intro ts s s' h
    cases ts with
    | nil =>
      rw [show runL primChk (F + 1) ([] : List T) s = some s from rfl] at h
      exact ⟨1, by rw [show noopL ([] : List T) = [] by simp [noopL]]; exact h⟩
    | cons t ts2 =>
      cases t with
      | ins i =>
        rw [show runL primChk (F + 1) (.ins i :: ts2) s =
            (match primChk i s with
              | none => none
              | some s2 => runL primChk F ts2 s2) from rfl] at h
        rcases hσ : primChk i s with _ | s2 <;> rw [hσ] at h
        · cases h
        · by_cases hni : isNoOpLike i
          · rw [show noopL (T.ins i :: ts2) = noopL ts2 by simp [noopL, hni]]
            rw [primChk_noop_id i s s2 hni hσ] at h
            exact ih ts2 s s' h
          · rw [show noopL (T.ins i :: ts2) = T.ins i :: noopL ts2 by simp [noopL, hni]]
            obtain ⟨G, hG⟩ := ih ts2 s2 s' h
            refine ⟨G + 1, ?_⟩
            rw [show runL primChk (G + 1) (.ins i :: noopL ts2) s =
                (match primChk i s with
                  | none => none
                  | some s2 => runL primChk G (noopL ts2) s2) from rfl, hσ]
            exact hG
      | block b =>
        rw [show noopL (T.block b :: ts2) = T.block (noopL b) :: noopL ts2 by
          simp [noopL]]
        rw [show runL primChk (F + 1) (.block b :: ts2) s =
            (if s.tape s.ptr = 0 then runL primChk F ts2 s
            else
              match runL primChk F b s with
              | none => none
              | some s2 => runL primChk F (.block b :: ts2) s2) from rfl] at h
        by_cases hc : s.tape s.ptr = 0
        · rw [if_pos hc] at h
          obtain ⟨G, hG⟩ := ih ts2 s s' h
          refine ⟨G + 1, ?_⟩
          rw [show runL primChk (G + 1) (.block (noopL b) :: noopL ts2) s =
              (if s.tape s.ptr = 0 then runL primChk G (noopL ts2) s
              else
                match runL primChk G (noopL b) s with
                | none => none
                | some s2 => runL primChk G (.block (noopL b) :: noopL ts2) s2)
              from rfl, if_pos hc]
          exact hG
        · rw [if_neg hc] at h
          rcases hb : runL primChk F b s with _ | s2 <;> rw [hb] at h
          · cases h
          · obtain ⟨G1, hG1⟩ := ih b s s2 hb
            obtain ⟨G2, hG2⟩ := ih (.block b :: ts2) s2 s' h
            rw [show noopL (T.block b :: ts2) = T.block (noopL b) :: noopL ts2 by
              simp [noopL]] at hG2
            refine ⟨max G1 G2 + 1, ?_⟩
            rw [show runL primChk (max G1 G2 + 1) (.block (noopL b) :: noopL ts2) s =
                (if s.tape s.ptr = 0 then runL primChk (max G1 G2) (noopL ts2) s
                else
                  match runL primChk (max G1 G2) (noopL b) s with
                  | none => none
                  | some s2 => runL primChk (max G1 G2)
                      (.block (noopL b) :: noopL ts2) s2) from rfl, if_neg hc,
              runL_mono primChk G1 (max G1 G2) (noopL b) s s2 (by omega) hG1]
            exact runL_mono primChk G2 (max G1 G2) _ s2 s' (by omega) hG2

/-! ## The contraction pass on trees -/

theorem contrGo_flush (q : Instruction) (hq : kindOf q = none) :
    ∀ (l : List Instruction), contrGo (some q) l = q :: contrGo none l := by
  intro l
  cases l with
  | nil => cases q <;> first | rfl | simp [kindOf] at hq
  | cons i rest =>
    rcases contrGo_step q i rest with ⟨a, b, hp, hi, he⟩ | ⟨a, b, hp, hi, he⟩ | ⟨hk, he⟩
    · rw [hp] at hq
      simp [kindOf] at hq
    · rw [hp] at hq
      simp [kindOf] at hq
    · rw [he]
      rfl

theorem contrL_step (p i : Instruction) (ts : List T) :
    (∃ a b, p = .Shift a ∧ i = .Shift b ∧
      contrL (some p) (.ins i :: ts) = contrL (some (.Shift (a + b))) ts) ∨
    (∃ a b, p = .Alt a ∧ i = .Alt b ∧
      contrL (some p) (.ins i :: ts) = contrL (some (.Alt (a + b))) ts) ∨
    ((kindOf p = none ∨ ¬ kindOf p = kindOf i) ∧
      contrL (some p) (.ins i :: ts) = .ins p :: contrL (some i) ts) := by
  cases p <;> cases i <;>
    first
      | exact Or.inl ⟨_, _, rfl, rfl, by simp [contrL]⟩
      | exact Or.inr (Or.inl ⟨_, _, rfl, rfl, by simp [contrL]⟩)
      | exact Or.inr (Or.inr ⟨by simp [kindOf], by simp [contrL]⟩)

theorem contrGo_end_step (q : Instruction) (t2 : List Instruction) :
    contrGo (some q) (Instruction.End :: t2) = q :: contrGo (some Instruction.End) t2 := by
  rcases contrGo_step q Instruction.End t2 with ⟨a, b, hp, hi, he⟩ |
    ⟨a, b, hp, hi, he⟩ | ⟨hk, he⟩
  · cases hi
  · cases hi
  · exact he

theorem contrGo_loop_step (q : Instruction) (t2 : List Instruction) :
    contrGo (some q) (Instruction.Loop :: t2) = q :: contrGo (some Instruction.Loop) t2 := by
  rcases contrGo_step q Instruction.Loop t2 with ⟨a, b, hp, hi, he⟩ |
    ⟨a, b, hp, hi, he⟩ | ⟨hk, he⟩
  · cases hi
  · cases hi
  · exact he

theorem contrGo_flatL_nil (p : Option Instruction) (tail : List Instruction)
    (htail : tail = [] ∨ ∃ t2, tail = Instruction.End :: t2) :
    contrGo p (flatL [] ++ tail) = flatL (contrL p []) ++ contrGo none tail := by
  cases p with
  | none =>
    rw [show contrL none ([] : List T) = [] by simp [contrL]]
    rfl
  | some q =>
    rw [show contrL (some q) ([] : List T) = [T.ins q] by simp [contrL]]
    rcases htail with rfl | ⟨t2, rfl⟩
    · cases q <;> rfl
    · rw [show flatL ([] : List T) ++ Instruction.End :: t2 =
          Instruction.End :: t2 from rfl, contrGo_end_step q t2]
      rfl

/-- Contraction commutes with flattening (with an explicit pending
accumulator and a continuation that is empty or starts with an `End`,
the two shapes that occur at the end of a level). -/
theorem contrGo_flatL :
    ∀ (n : Nat) (ts : List T), (flatL ts).length ≤ n →
      ∀ (p : Option Instruction) (tail : List Instruction),
        (tail = [] ∨ ∃ t2, tail = Instruction.End :: t2) →
        contrGo p (flatL ts ++ tail) = flatL (contrL p ts) ++ contrGo none tail := by
  intro n
  induction n with
  | zero =>
    intro ts hn p tail htail
    cases ts with
    | nil => exact contrGo_flatL_nil p tail htail
    | cons t ts2 =>
      rw [flatL_cons, List.length_append] at hn
      have := flatT_length_pos t
      omega
  | succ n ih =>
    intro ts hn p tail htail
    cases ts with
    | nil => exact contrGo_flatL_nil p tail htail
    | cons t ts2 =>
      cases t with
      | ins i =>
        have hfl : flatL (T.ins i :: ts2) = i :: flatL ts2 := by
          rw [flatL_cons]
          rfl
        have hl : (flatL (T.ins i :: ts2)).length = 1 + (flatL ts2).length := by
          rw [hfl]
          simp
          omega
        rw [hfl]
        cases p with
        | none =>
          rw [show contrGo none ((i :: flatL ts2) ++ tail) =
              contrGo (some i) (flatL ts2 ++ tail) from rfl,
            show contrL none (T.ins i :: ts2) = contrL (some i) ts2 by simp [contrL]]
          exact ih ts2 (by omega) (some i) tail htail
        | some q =>
          rcases contrGo_step q i (flatL ts2 ++ tail) with ⟨a, b, hp, hi, he⟩ |
            ⟨a, b, hp, hi, he⟩ | ⟨hk, he⟩
          · subst hp
            subst hi
            rw [show ((Instruction.Shift b :: flatL ts2) ++ tail : List Instruction) =
                Instruction.Shift b :: (flatL ts2 ++ tail) from rfl, he,
              show contrL (some (Instruction.Shift a))
                  (T.ins (Instruction.Shift b) :: ts2) =
                contrL (some (Instruction.Shift (a + b))) ts2 by simp [contrL]]
            exact ih ts2 (by omega) (some (.Shift (a + b))) tail htail
          · subst hp
            subst hi
            rw [show ((Instruction.Alt b :: flatL ts2) ++ tail : List Instruction) =
                Instruction.Alt b :: (flatL ts2 ++ tail) from rfl, he,
              show contrL (some (Instruction.Alt a))
                  (T.ins (Instruction.Alt b) :: ts2) =
                contrL (some (Instruction.Alt (a + b))) ts2 by simp [contrL]]
            exact ih ts2 (by omega) (some (.Alt (a + b))) tail htail
          · have hLe : contrL (some q) (T.ins i :: ts2) = .ins q :: contrL (some i) ts2 := by
              rcases contrL_step q i ts2 with ⟨a, b, hp, hi, hce⟩ |
                ⟨a, b, hp, hi, hce⟩ | ⟨hk2, hce⟩
              · subst hp
                subst hi
                rcases hk with hk | hk
                · simp [kindOf] at hk
                · exact absurd rfl hk
              · subst hp
                subst hi
                rcases hk with hk | hk
                · simp [kindOf] at hk
                · exact absurd rfl hk
              · exact hce
            rw [show ((i :: flatL ts2) ++ tail : List Instruction) =
                i :: (flatL ts2 ++ tail) from rfl, he, hLe, flatL_cons,
              show flatT (T.ins q) = [q] from rfl,
              ih ts2 (by omega) (some i) tail htail]
            rfl
      | block b =>
        have hfl : flatL (T.block b :: ts2) =
            Instruction.Loop :: (flatL b ++ (Instruction.End :: flatL ts2)) := by
          rw [flatL_cons]
          simp [flatT]
        have hl : (flatL (T.block b :: ts2)).length =
            (flatL b).length + 2 + (flatL ts2).length := by
          rw [hfl]
          simp
          omega
        have hcore : contrGo (some Instruction.Loop)
            ((flatL b ++ (Instruction.End :: flatL ts2)) ++ tail) =
            Instruction.Loop :: (flatL (contrL none b) ++
              (Instruction.End :: (flatL (contrL none ts2) ++ contrGo none tail))) := by
          rw [contrGo_flush Instruction.Loop rfl, List.append_assoc,
            show (Instruction.End :: flatL ts2) ++ tail =
              Instruction.End :: (flatL ts2 ++ tail) from rfl,
            ih b (by omega) none (Instruction.End :: (flatL ts2 ++ tail))
              (Or.inr ⟨flatL ts2 ++ tail, rfl⟩),
            show contrGo none (Instruction.End :: (flatL ts2 ++ tail)) =
              contrGo (some Instruction.End) (flatL ts2 ++ tail) from rfl,
            contrGo_flush Instruction.End rfl,
            ih ts2 (by omega) none tail htail]
        rw [hfl]
        cases p with
        | none =>
          rw [show ((Instruction.Loop ::
                (flatL b ++ (Instruction.End :: flatL ts2))) ++ tail : List Instruction) =
              Instruction.Loop ::
                ((flatL b ++ (Instruction.End :: flatL ts2)) ++ tail) from rfl,
            show contrGo none (Instruction.Loop ::
                ((flatL b ++ (Instruction.End :: flatL ts2)) ++ tail)) =
              contrGo (some Instruction.Loop)
                ((flatL b ++ (Instruction.End :: flatL ts2)) ++ tail) from rfl,
            hcore,
            show contrL none (T.block b :: ts2) =
              .block (contrL none b) :: contrL none ts2 by simp [contrL],
            flatL_cons]
          simp [flatT]
        | some q =>
          rw [show ((Instruction.Loop ::
                (flatL b ++ (Instruction.End :: flatL ts2))) ++ tail : List Instruction) =
              Instruction.Loop ::
                ((flatL b ++ (Instruction.End :: flatL ts2)) ++ tail) from rfl,
            contrGo_loop_step q _,
            show contrGo (some Instruction.Loop)
                ((flatL b ++ (Instruction.End :: flatL ts2)) ++ tail) =
              contrGo (some Instruction.Loop)
                ((flatL b ++ (Instruction.End :: flatL ts2)) ++ tail) from rfl,
            hcore,
            show contrL (some q) (T.block b :: ts2) =
              .ins q :: .block (contrL none b) :: contrL none ts2 by simp [contrL],
            flatL_cons]
          simp [flatL_cons, flatT, List.append_assoc]

theorem contrL_wf :
    ∀ (n : Nat) (ts : List T), (flatL ts).length ≤ n → wfL ts →
      ∀ (p : Option Instruction),
        (∀ q, p = some q → q ≠ Instruction.Loop ∧ q ≠ Instruction.End) →
        wfL (contrL p ts) := by
  intro n
  induction n with
  | zero =>
    intro ts hn hwf p hp
    cases ts with
    | nil =>
      cases p with
      | none =>
        rw [show contrL none ([] : List T) = [] by simp [contrL]]
        exact trivial
      | some q =>
        rw [show contrL (some q) ([] : List T) = [T.ins q] by simp [contrL]]
        exact ⟨hp q rfl, trivial⟩
    | cons t ts2 =>
      rw [flatL_cons, List.length_append] at hn
      have := flatT_length_pos t
      omega
  | succ n ih =>
    intro ts hn hwf p hp
    cases ts with
    | nil =>
      cases p with
      | none =>
        rw [show contrL none ([] : List T) = [] by simp [contrL]]
        exact trivial
      | some q =>
        rw [show contrL (some q) ([] : List T) = [T.ins q] by simp [contrL]]
        exact ⟨hp q rfl, trivial⟩
    | cons t ts2 =>
      cases t with
      | ins i =>
        obtain ⟨⟨hiL, hiE⟩, hwf2⟩ : (i ≠ Instruction.Loop ∧ i ≠ Instruction.End) ∧
            wfL ts2 := hwf
        have hl : (flatL (T.ins i :: ts2)).length = 1 + (flatL ts2).length := by
          rw [flatL_cons]
          simp [flatT]
          omega
        cases p with
        | none =>
          rw [show contrL none (T.ins i :: ts2) = contrL (some i) ts2 by simp [contrL]]
          exact ih ts2 (by omega) hwf2 (some i)
            (fun q hq => by cases hq; exact ⟨hiL, hiE⟩)
        | some q =>
          rcases contrL_step q i ts2 with ⟨a, b, hpq, hiq, hce⟩ |
            ⟨a, b, hpq, hiq, hce⟩ | ⟨hk2, hce⟩
          · subst hpq
            subst hiq
            rw [hce]
            exact ih ts2 (by omega) hwf2 (some (.Shift (a + b)))
              (fun q2 hq => by cases hq; exact ⟨by simp, by simp⟩)
          · subst hpq
            subst hiq
            rw [hce]
            exact ih ts2 (by omega) hwf2 (some (.Alt (a + b)))
              (fun q2 hq => by cases hq; exact ⟨by simp, by simp⟩)
          · rw [hce]
            exact ⟨hp q rfl, ih ts2 (by omega) hwf2 (some i)
              (fun q2 hq => by cases hq; exact ⟨hiL, hiE⟩)⟩
      | block b =>
        obtain ⟨hwb, hwf2⟩ : wfL b ∧ wfL ts2 := hwf
        have hl : (flatL (T.block b :: ts2)).length =
            (flatL b).length + 2 + (flatL ts2).length := by
          rw [flatL_cons]
          simp [flatT]
          omega
        have hwb2 : wfL (contrL none b) :=
          ih b (by omega) hwb none (fun q hq => by cases hq)
        have hwts2 : wfL (contrL none ts2) :=
          ih ts2 (by omega) hwf2 none (fun q hq => by cases hq)
        cases p with
        | none =>
          rw [show contrL none (T.block b :: ts2) =
              .block (contrL none b) :: contrL none ts2 by simp [contrL]]
          exact ⟨hwb2, hwts2⟩
        | some q =>
          rw [show contrL (some q) (T.block b :: ts2) =
              .ins q :: .block (contrL none b) :: contrL none ts2 by simp [contrL]]
          exact ⟨hp q rfl, hwb2, hwts2⟩

theorem primChk_shift_merge (a b : Int) (s0 s1 s2 : St)
    (h1 : primChk (.Shift a) s0 = some s1) (h2 : primChk (.Shift b) s1 = some s2) :
    primChk (.Shift (a + b)) s0 = some s2 := by
  rw [show primChk (.Shift a) s0 =
      (if 0 ≤ (s0.ptr : Int) + a ∧ (s0.ptr : Int) + a < (MEM : Int) then
        some { s0 with ptr := (((s0.ptr : Int) + a)).toNat }
      else none) from rfl] at h1
  by_cases hg1 : 0 ≤ (s0.ptr : Int) + a ∧ (s0.ptr : Int) + a < (MEM : Int)
  · rw [if_pos hg1] at h1
    rw [← Option.some.inj h1] at h2
    rw [show primChk (.Shift b) { s0 with ptr := (((s0.ptr : Int) + a)).toNat } =
        (if 0 ≤ (((((s0.ptr : Int) + a)).toNat : Nat) : Int) + b ∧
            (((((s0.ptr : Int) + a)).toNat : Nat) : Int) + b < (MEM : Int) then
          some { s0 with ptr :=
            ((((((s0.ptr : Int) + a)).toNat : Nat) : Int) + b).toNat }
        else none) from rfl] at h2
    by_cases hg2 : 0 ≤ (((((s0.ptr : Int) + a)).toNat : Nat) : Int) + b ∧
        (((((s0.ptr : Int) + a)).toNat : Nat) : Int) + b < (MEM : Int)
    · rw [if_pos hg2] at h2
      rw [show primChk (.Shift (a + b)) s0 =
          (if 0 ≤ (s0.ptr : Int) + (a + b) ∧ (s0.ptr : Int) + (a + b) < (MEM : Int) then
            some { s0 with ptr := (((s0.ptr : Int) + (a + b))).toNat }
          else none) from rfl, if_pos (by omega),
        show (((s0.ptr : Int) + (a + b))).toNat =
          ((((((s0.ptr : Int) + a)).toNat : Nat) : Int) + b).toNat by omega]
      exact h2
    · rw [if_neg hg2] at h2
      cases h2
  · rw [if_neg hg1] at h1
    cases h1

theorem primChk_alt_merge (a b : Int) (s0 s1 s2 : St)
    (h1 : primChk (.Alt a) s0 = some s1) (h2 : primChk (.Alt b) s1 = some s2) :
    primChk (.Alt (a + b)) s0 = some s2 := by
  rw [show primChk (.Alt a) s0 =
      (if 0 ≤ (s0.tape s0.ptr : Int) + a ∧ (s0.tape s0.ptr : Int) + a ≤ 255 then
        some { s0 with tape := setTape s0.tape s0.ptr (((s0.tape s0.ptr : Int) + a)).toNat }
      else none) from rfl] at h1
  by_cases hg1 : 0 ≤ (s0.tape s0.ptr : Int) + a ∧ (s0.tape s0.ptr : Int) + a ≤ 255
  · rw [if_pos hg1] at h1
    rw [← Option.some.inj h1] at h2
    have hv : (setTape s0.tape s0.ptr (((s0.tape s0.ptr : Int) + a)).toNat) s0.ptr =
        (((s0.tape s0.ptr : Int) + a)).toNat := setTape_get _ _ _
    rw [show primChk (.Alt b)
        { s0 with tape := setTape s0.tape s0.ptr (((s0.tape s0.ptr : Int) + a)).toNat } =
        (if 0 ≤ ((setTape s0.tape s0.ptr (((s0.tape s0.ptr : Int) + a)).toNat) s0.ptr : Int)
              + b ∧
            ((setTape s0.tape s0.ptr (((s0.tape s0.ptr : Int) + a)).toNat) s0.ptr : Int)
              + b ≤ 255 then
          some { s0 with tape := (setTape
            (setTape s0.tape s0.ptr (((s0.tape s0.ptr : Int) + a)).toNat) s0.ptr
            (((((setTape s0.tape s0.ptr (((s0.tape s0.ptr : Int) + a)).toNat) s0.ptr
              : Nat) : Int) + b)).toNat) }
        else none) from rfl, hv] at h2
    by_cases hg2 : 0 ≤ (((((s0.tape s0.ptr : Int) + a)).toNat : Nat) : Int) + b ∧
        (((((s0.tape s0.ptr : Int) + a)).toNat : Nat) : Int) + b ≤ 255
    · rw [if_pos hg2, setTape_setTape] at h2
      rw [show primChk (.Alt (a + b)) s0 =
          (if 0 ≤ (s0.tape s0.ptr : Int) + (a + b) ∧
              (s0.tape s0.ptr : Int) + (a + b) ≤ 255 then
            some { s0 with
              tape := setTape s0.tape s0.ptr (((s0.tape s0.ptr : Int) + (a + b))).toNat }
          else none) from rfl, if_pos (by omega),
        show (((s0.tape s0.ptr : Int) + (a + b))).toNat =
          ((((((s0.tape s0.ptr : Int) + a)).toNat : Nat) : Int) + b).toNat by omega]
      exact h2
    · rw [if_neg hg2] at h2
      cases h2
  · rw [if_neg hg1] at h1
    cases h1

/-- Contraction preserves completed checked runs (with the pending
accumulator's instruction still to be replayed in the contracted
program). -/
theorem runL_contr :
    ∀ (F : Nat) (ts : List T) (s s' : St),
      runL primChk F ts s = some s' →
      ∀ (p : Option Instruction) (s0 : St), pendSem p s0 = some s →
        ∃ G, runL primChk G (contrL p ts) s0 = some s' := by
  intro F
  induction F with
  | zero =>
    intro ts s s' h
    simp [runL] at h
  | succ F ih =>
    intro ts s s' h p s0 hpend
    cases ts with
    | nil =>
      rw [show runL primChk (F + 1) ([] : List T) s = some s from rfl] at h
      rw [← Option.some.inj h]
      cases p with
      | none =>
        rw [show pendSem none s0 = some s0 from rfl] at hpend
        rw [show contrL none ([] : List T) = [] by simp [contrL],
          ← Option.some.inj hpend]
        exact ⟨1, rfl⟩
      | some q =>
        rw [show pendSem (some q) s0 = primChk q s0 from rfl] at hpend
        refine ⟨2, ?_⟩
        rw [show contrL (some q) ([] : List T) = [T.ins q] by simp [contrL],
          show runL primChk 2 [T.ins q] s0 =
            (match primChk q s0 with
              | none => none
              | some s2 => runL primChk 1 ([] : List T) s2) from rfl, hpend]
        rfl
    | cons t ts2 =>
      cases t with
      | ins i =>
        rw [show runL primChk (F + 1) (.ins i :: ts2) s =
            (match primChk i s with
              | none => none
              | some s2 => runL primChk F ts2 s2) from rfl] at h
        rcases hσ : primChk i s with _ | s2 <;> rw [hσ] at h
        · cases h
        · cases p with
          | none =>
            rw [show pendSem none s0 = some s0 from rfl] at hpend
            rw [show contrL none (T.ins i :: ts2) = contrL (some i) ts2 by simp [contrL],
              Option.some.inj hpend]
            exact ih ts2 s2 s' h (some i) s hσ
          | some q =>
            rw [show pendSem (some q) s0 = primChk q s0 from rfl] at hpend
            rcases contrL_step q i ts2 with ⟨a, b, hpq, hiq, hce⟩ |
              ⟨a, b, hpq, hiq, hce⟩ | ⟨hk2, hce⟩
            · subst hpq
              subst hiq
              rw [hce]
              exact ih ts2 s2 s' h (some (.Shift (a + b))) s0
                (primChk_shift_merge a b s0 s s2 hpend hσ)
            · subst hpq
              subst hiq
              rw [hce]
              exact ih ts2 s2 s' h (some (.Alt (a + b))) s0
                (primChk_alt_merge a b s0 s s2 hpend hσ)
            · rw [hce]
              obtain ⟨G, hG⟩ := ih ts2 s2 s' h (some i) s hσ
              refine ⟨G + 1, ?_⟩
              rw [show runL primChk (G + 1) (.ins q :: contrL (some i) ts2) s0 =
                  (match primChk q s0 with
                    | none => none
                    | some s2 => runL primChk G (contrL (some i) ts2) s2) from rfl, hpend]
              exact hG
      | block b =>
        rw [show runL primChk (F + 1) (.block b :: ts2) s =
            (if s.tape s.ptr = 0 then runL primChk F ts2 s
            else
              match runL primChk F b s with
              | none => none
              | some s2 => runL primChk F (.block b :: ts2) s2) from rfl] at h
        have hblk : ∃ G, runL primChk G
            (.block (contrL none b) :: contrL none ts2) s = some s' := by
          by_cases hc : s.tape s.ptr = 0
          · rw [if_pos hc] at h
            obtain ⟨G, hG⟩ := ih ts2 s s' h none s rfl
            refine ⟨G + 1, ?_⟩
            rw [show runL primChk (G + 1) (.block (contrL none b) :: contrL none ts2) s =
                (if s.tape s.ptr = 0 then runL primChk G (contrL none ts2) s
                else
                  match runL primChk G (contrL none b) s with
                  | none => none
                  | some s2 => runL primChk G
                      (.block (contrL none b) :: contrL none ts2) s2) from rfl,
              if_pos hc]
            exact hG
          · rw [if_neg hc] at h
            rcases hb : runL primChk F b s with _ | s2 <;> rw [hb] at h
            · cases h
            · obtain ⟨G1, hG1⟩ := ih b s s2 hb none s rfl
              obtain ⟨G2, hG2⟩ := ih (.block b :: ts2) s2 s' h none s2 rfl
              rw [show contrL none (T.block b :: ts2) =
                  .block (contrL none b) :: contrL none ts2 by simp [contrL]] at hG2
              refine ⟨max G1 G2 + 1, ?_⟩
              rw [show runL primChk (max G1 G2 + 1)
                  (.block (contrL none b) :: contrL none ts2) s =
                  (if s.tape s.ptr = 0 then
                    runL primChk (max G1 G2) (contrL none ts2) s
                  else
                    match runL primChk (max G1 G2) (contrL none b) s with
                    | none => none
                    | some s2 => runL primChk (max G1 G2)
                        (.block (contrL none b) :: contrL none ts2) s2) from rfl,
                if_neg hc,
                runL_mono primChk G1 (max G1 G2) (contrL none b) s s2 (by omega) hG1]
              exact runL_mono primChk G2 (max G1 G2) _ s2 s' (by omega) hG2
        obtain ⟨G, hG⟩ := hblk
        cases p with
        | none =>
          rw [show pendSem none s0 = some s0 from rfl] at hpend
          rw [show contrL none (T.block b :: ts2) =
              .block (contrL none b) :: contrL none ts2 by simp [contrL],
            Option.some.inj hpend]
          exact ⟨G, hG⟩
        | some q =>
          rw [show pendSem (some q) s0 = primChk q s0 from rfl] at hpend
          rw [show contrL (some q) (T.block b :: ts2) =
              .ins q :: .block (contrL none b) :: contrL none ts2 by simp [contrL]]
          refine ⟨G + 1, ?_⟩
          rw [show runL primChk (G + 1)
              (.ins q :: .block (contrL none b) :: contrL none ts2) s0 =
              (match primChk q s0 with
                | none => none
                | some s2 => runL primChk G
                    (.block (contrL none b) :: contrL none ts2) s2) from rfl, hpend]
          exact hG

/-! ## The clear-loop pass on trees -/

theorem clearL_block_eq (b ts : List T) :
    (b = [T.ins (Instruction.Alt (-1))] ∧
      clearL (T.block b :: ts) = T.ins Instruction.Clear :: clearL ts) ∨
    (b ≠ [T.ins (Instruction.Alt (-1))] ∧
      clearL (T.block b :: ts) = T.block (clearL b) :: clearL ts) := by
  rcases b with _ | ⟨t, _ | ⟨t2, b3⟩⟩
  · exact Or.inr ⟨by simp, by simp [clearL]⟩
  · cases t with
    | ins i =>
      cases i with
      | Alt a =>
        by_cases ha : a = -1
        · subst ha
          exact Or.inl ⟨rfl, by simp [clearL]⟩
        · refine Or.inr ⟨by simp [ha], ?_⟩
          rw [show clearL (T.block [T.ins (Instruction.Alt a)] :: ts) =
              T.block [T.ins (Instruction.Alt a)] :: clearL ts by simp [clearL, ha],
            show clearL [T.ins (Instruction.Alt a)] = [T.ins (Instruction.Alt a)] by
              simp [clearL]]
      | Shift d =>
        exact Or.inr ⟨by simp, by simp [clearL]⟩
      | Out => exact Or.inr ⟨by simp, by simp [clearL]⟩
      | In => exact Or.inr ⟨by simp, by simp [clearL]⟩
      | Loop => exact Or.inr ⟨by simp, by simp [clearL]⟩
      | End => exact Or.inr ⟨by simp, by simp [clearL]⟩
      | NoOp => exact Or.inr ⟨by simp, by simp [clearL]⟩
      | Clear => exact Or.inr ⟨by simp, by simp [clearL]⟩
      | Copy m o => exact Or.inr ⟨by simp, by simp [clearL]⟩
    | block c =>
      exact Or.inr ⟨by simp, by simp [clearL]⟩
  · exact Or.inr ⟨by simp, by simp [clearL]⟩

theorem flatL_singleton (c : List T) (x : Instruction) (h : flatL c = [x]) :
    c = [T.ins x] := by
  cases c with
  | nil => cases h
  | cons t c2 =>
    rw [flatL_cons] at h
    cases t with
    | ins i =>
      rw [show flatT (T.ins i) = [i] from rfl] at h
      simp at h
      rw [h.1, flatL_nil c2 h.2]
    | block b =>
      rw [show flatT (T.block b) = Instruction.Loop :: flatL b ++ [Instruction.End]
          from rfl] at h
      have := congrArg List.length h
      simp at this

theorem clearL_length (ts : List T) : (clearL ts).length = ts.length := by
  induction ts with
  | nil => simp [clearL]
  | cons t ts2 ih =>
    cases t with
    | ins i =>
      rw [show clearL (T.ins i :: ts2) = T.ins i :: clearL ts2 by simp [clearL]]
      simp [ih]
    | block b =>
      rcases clearL_block_eq b ts2 with ⟨_, he⟩ | ⟨_, he⟩ <;> rw [he] <;> simp [ih]

theorem clearL_singleton_inv (b : List T)
    (h : clearL b = [T.ins (Instruction.Alt (-1))]) : b = [T.ins (Instruction.Alt (-1))] := by
  rcases b with _ | ⟨t, _ | ⟨t2, b3⟩⟩
  · rw [show clearL ([] : List T) = [] by simp [clearL]] at h
    cases h
  · cases t with
    | ins i =>
      rw [show clearL [T.ins i] = [T.ins i] by simp [clearL]] at h
      simp at h
      rw [h]
    | block c =>
      rcases clearL_block_eq c [] with ⟨hc, he⟩ | ⟨hc, he⟩ <;>
        rw [show clearL [T.block c] = clearL (T.block c :: ([] : List T)) from rfl, he,
          show clearL ([] : List T) = [] by simp [clearL]] at h <;> simp at h
  · have := clearL_length (t :: t2 :: b3)
    rw [h] at this
    simp at this

/-- In a well-formed flattening no `Loop` sits directly before a final
arithmetic instruction: its matching `End` would have nowhere to go. -/
theorem wf_no_loop_before_last (c : List T) (hwf : wfL c) (u : List Instruction)
    (x : Instruction) (hx : x ≠ Instruction.End)
    (h : flatL c = u ++ [Instruction.Loop, x]) : False := by
  have h1 : (flatL c)[u.length]? = some Instruction.Loop := by
    rw [h, show u ++ [Instruction.Loop, x] = u ++ Instruction.Loop :: [x] from rfl]
    exact getAt_append u _ [x]
  obtain ⟨cc, hcc⟩ := (pairsOf_total (flatL c).length c le_rfl hwf 0 u.length).1 h1
  rw [Nat.zero_add] at hcc
  have hlt := pairsOf_lt c 0 u.length cc hcc
  have hbnd := insOrder_bounds2 c 0 u.length cc
    ((mem_insOrder_iff2 c 0 u.length cc).mpr (Or.inl hcc))
  have hlen : (flatL c).length = u.length + 2 := by
    rw [h]
    simp
  have hcc2 : cc = u.length + 1 := by omega
  have hpos := (pairsOf_positions c 0 u.length cc hcc).2
  rw [Nat.sub_zero, hcc2] at hpos
  have h2 : (flatL c)[u.length + 1]? = some x := by
    rw [h, show u ++ [Instruction.Loop, x] = (u ++ [Instruction.Loop]) ++ x :: [] by simp,
      show u.length + 1 = (u ++ [Instruction.Loop]).length by ( simp)]
    exact getAt_append _ _ []
  rw [h2] at hpos
  exact hx (Option.some.inj hpos)

theorem clearL_wf :
    ∀ (n : Nat) (ts : List T), (flatL ts).length ≤ n → wfL ts → wfL (clearL ts) := by
  intro n
  induction n with
  | zero =>
    intro ts hn hwf
    cases ts with
    | nil =>
      rw [show clearL ([] : List T) = [] by simp [clearL]]
      exact hwf
    | cons t ts2 =>
      rw [flatL_cons, List.length_append] at hn
      have := flatT_length_pos t
      omega
  | succ n ih =>
    intro ts hn hwf
    cases ts with
    | nil =>
      rw [show clearL ([] : List T) = [] by simp [clearL]]
      exact hwf
    | cons t ts2 =>
      cases t with
      | ins i =>
        obtain ⟨hi, hwf2⟩ : (i ≠ Instruction.Loop ∧ i ≠ Instruction.End) ∧ wfL ts2 := hwf
        have hl : (flatL (T.ins i :: ts2)).length = 1 + (flatL ts2).length := by
          rw [flatL_cons]
          simp [flatT]
          omega
        rw [show clearL (T.ins i :: ts2) = T.ins i :: clearL ts2 by simp [clearL]]
        exact ⟨hi, ih ts2 (by omega) hwf2⟩
      | block b =>
        obtain ⟨hwb, hwf2⟩ : wfL b ∧ wfL ts2 := hwf
        have hl : (flatL (T.block b :: ts2)).length =
            (flatL b).length + 2 + (flatL ts2).length := by
          rw [flatL_cons]
          simp [flatT]
          omega
        rcases clearL_block_eq b ts2 with ⟨hb, he⟩ | ⟨hb, he⟩ <;> rw [he]
        · exact ⟨⟨by simp, by simp⟩, ih ts2 (by omega) hwf2⟩
        · exact ⟨ih b (by omega) hwb, ih ts2 (by omega) hwf2⟩

/-- The clear fold on the flattening of a well-formed tree list pushes
exactly the flattening of the tree-level pass, whatever was emitted
before. -/
theorem clearL_fold :
    ∀ (n : Nat) (ts : List T), (flatL ts).length ≤ n → wfL ts →
      ∀ (out : List Instruction),
        (flatL ts).foldl clearStep out = (flatL (clearL ts)).reverse ++ out := by
  intro n
  induction n with
  | zero =>
    intro ts hn hwf out
    cases ts with
    | nil =>
      rw [show clearL ([] : List T) = [] by simp [clearL]]
      rfl
    | cons t ts2 =>
      rw [flatL_cons, List.length_append] at hn
      have := flatT_length_pos t
      omega
  | succ n ih =>
    intro ts hn hwf out
    cases ts with
    | nil =>
      rw [show clearL ([] : List T) = [] by simp [clearL]]
      rfl
    | cons t ts2 =>
      cases t with
      | ins i =>
        obtain ⟨⟨hiL, hiE⟩, hwf2⟩ : (i ≠ Instruction.Loop ∧ i ≠ Instruction.End) ∧
            wfL ts2 := hwf
        have hfl : flatL (T.ins i :: ts2) = i :: flatL ts2 := by
          rw [flatL_cons]
          rfl
        have hl : (flatL (T.ins i :: ts2)).length = 1 + (flatL ts2).length := by
          rw [hfl]
          simp
          omega
        rw [hfl, List.foldl_cons, clearStep_ne_end out i hiE,
          ih ts2 (by omega) hwf2 (i :: out),
          show clearL (T.ins i :: ts2) = T.ins i :: clearL ts2 by simp [clearL],
          flatL_cons, show flatT (T.ins i) = [i] from rfl]
        simp [List.append_assoc]
      | block b =>
        obtain ⟨hwb, hwf2⟩ : wfL b ∧ wfL ts2 := hwf
        have hfl : flatL (T.block b :: ts2) =
            Instruction.Loop :: (flatL b ++ (Instruction.End :: flatL ts2)) := by
          rw [flatL_cons]
          simp [flatT]
        have hl : (flatL (T.block b :: ts2)).length =
            (flatL b).length + 2 + (flatL ts2).length := by
          rw [hfl]
          simp
          omega
        rw [hfl, List.foldl_cons,
          clearStep_ne_end out Instruction.Loop (by simp), List.foldl_append,
          ih b (by omega) hwb (Instruction.Loop :: out), List.foldl_cons]
        by_cases hb : b = [T.ins (Instruction.Alt (-1))]
        · subst hb
          rw [show flatL (clearL [T.ins (Instruction.Alt (-1))]) =
              [Instruction.Alt (-1)] by
            rw [show clearL [T.ins (Instruction.Alt (-1))] =
                [T.ins (Instruction.Alt (-1))] by simp [clearL]]
            rfl]
          rw [show ([Instruction.Alt (-1)].reverse ++ Instruction.Loop :: out : List Instruction) =
              Instruction.Alt (-1) :: Instruction.Loop :: out from rfl,
            clearStep_end_fold, ih ts2 (by omega) hwf2 (Instruction.Clear :: out)]
          rcases clearL_block_eq [T.ins (Instruction.Alt (-1))] ts2 with ⟨_, he⟩ | ⟨hne, _⟩
          · rw [he, flatL_cons, show flatT (T.ins Instruction.Clear) =
              [Instruction.Clear] from rfl]
            simp [List.append_assoc]
          · exact absurd rfl hne
        · have hnofire : clearStep ((flatL (clearL b)).reverse ++ Instruction.Loop :: out)
              Instruction.End =
              Instruction.End :: ((flatL (clearL b)).reverse ++ Instruction.Loop :: out) := by
            rcases clearStep_cases ((flatL (clearL b)).reverse ++ Instruction.Loop :: out)
              Instruction.End with hok | ⟨_, rest, hshape⟩
            · exact hok
            · exfalso
              rcases hrb : (flatL (clearL b)).reverse with _ | ⟨x, _ | ⟨y, rtail⟩⟩ <;>
                rw [hrb] at hshape
              · simp at hshape
              · simp at hshape
                obtain ⟨hx, -⟩ := hshape
                have hflat : flatL (clearL b) = [Instruction.Alt (-1)] := by
                  have := congrArg List.reverse hrb
                  rw [List.reverse_reverse] at this
                  rw [this, hx]
                  rfl
                exact hb (clearL_singleton_inv b (flatL_singleton _ _ hflat))
              · simp at hshape
                obtain ⟨hx, hy, -⟩ := hshape
                have hflat : flatL (clearL b) = rtail.reverse ++
                    [Instruction.Loop, Instruction.Alt (-1)] := by
                  have := congrArg List.reverse hrb
                  rw [List.reverse_reverse] at this
                  rw [this, hx, hy]
                  simp
                exact wf_no_loop_before_last (clearL b)
                  (clearL_wf (flatL b).length b le_rfl hwb) rtail.reverse
                  (Instruction.Alt (-1)) (by simp) hflat
          rw [hnofire, ih ts2 (by omega) hwf2 _]
          rcases clearL_block_eq b ts2 with ⟨hbe, _⟩ | ⟨_, he⟩
          · exact absurd hbe hb
          · rw [he, flatL_cons, show flatT (T.block (clearL b)) =
                Instruction.Loop :: flatL (clearL b) ++ [Instruction.End] from rfl]
            simp [List.append_assoc]

theorem clearL_flat (ts : List T) (hwf : wfL ts) :
    clear_loop_optimizer (flatL ts) = flatL (clearL ts) := by
  unfold clear_loop_optimizer
  rw [clearL_fold (flatL ts).length ts le_rfl hwf []]
  simp

/-- Unrolling a `[-]` loop: a completed checked run of the loop clears
the current cell. -/
theorem runL_clear_block :
    ∀ (F : Nat) (ts : List T) (s s' : St),
      runL primChk F (.block [.ins (.Alt (-1))] :: ts) s = some s' →
      ∃ F2, F2 < F ∧
        runL primChk F2 ts { s with tape := setTape s.tape s.ptr 0 } = some s' := by
  intro F
  induction F with
  | zero =>
    intro ts s s' h
    simp [runL] at h
  | succ F ih =>
    intro ts s s' h
    rw [show runL primChk (F + 1) (.block [.ins (.Alt (-1))] :: ts) s =
        (if s.tape s.ptr = 0 then runL primChk F ts s
        else
          match runL primChk F [.ins (.Alt (-1))] s with
          | none => none
          | some s2 => runL primChk F (.block [.ins (.Alt (-1))] :: ts) s2)
        from rfl] at h
    by_cases hc : s.tape s.ptr = 0
    · rw [if_pos hc] at h
      refine ⟨F, by omega, ?_⟩
      rw [show setTape s.tape s.ptr 0 = setTape s.tape s.ptr (s.tape s.ptr) by rw [hc],
        setTape_id]
      exact h
    · rw [if_neg hc] at h
      rcases hb : runL primChk F [T.ins (Instruction.Alt (-1))] s with _ | s2 <;>
        rw [hb] at h
      · cases h
      · rcases F with _ | F2
        · simp [runL] at hb
        · rw [show runL primChk (F2 + 1) [T.ins (Instruction.Alt (-1))] s =
              (match primChk (.Alt (-1)) s with
                | none => none
                | some s1 => runL primChk F2 ([] : List T) s1) from rfl] at hb
          rcases hσ : primChk (.Alt (-1)) s with _ | s1 <;> rw [hσ] at hb
          · cases hb
          · rcases F2 with _ | F3
            · simp [runL] at hb
            · have hb3 : some s1 = some s2 := hb
              rw [← Option.some.inj hb3] at h
              rw [show primChk (.Alt (-1)) s =
                  (if 0 ≤ (s.tape s.ptr : Int) + (-1) ∧
                      (s.tape s.ptr : Int) + (-1) ≤ 255 then
                    some { s with tape := (setTape s.tape s.ptr
                      (((s.tape s.ptr : Int) + (-1))).toNat) }
                  else none) from rfl] at hσ
              by_cases hg : 0 ≤ (s.tape s.ptr : Int) + (-1) ∧
                  (s.tape s.ptr : Int) + (-1) ≤ 255
              · rw [if_pos hg] at hσ
                rw [← Option.some.inj hσ] at h
                obtain ⟨F2, hF2, hrun⟩ := ih ts _ s' h
                refine ⟨F2, by omega, ?_⟩
                have hcollapse :
                    setTape (setTape s.tape s.ptr (((s.tape s.ptr : Int) + (-1))).toNat)
                      s.ptr 0 = setTape s.tape s.ptr 0 :=
                  setTape_setTape _ _ _ _
                have heq : ({ s with tape := setTape s.tape s.ptr 0 } : St) =
                    { (⟨(setTape s.tape s.ptr (((s.tape s.ptr : Int) + (-1))).toNat),
                        s.ptr, s.inp, s.outp⟩ : St) with
                      tape := (setTape (setTape s.tape s.ptr
                        (((s.tape s.ptr : Int) + (-1))).toNat) s.ptr 0) } := by
                  rw [hcollapse]
                rw [heq]
                exact hrun
              · rw [if_neg hg] at hσ
                cases hσ

/-- The clear-loop pass preserves completed checked runs. -/
theorem runL_clear :
    ∀ (N F : Nat), F ≤ N → ∀ (ts : List T) (s s' : St),
      runL primChk F ts s = some s' →
      ∃ G, runL primChk G (clearL ts) s = some s' := by
  intro N
  induction N with
  | zero =>
    intro F hF ts s s' h
    interval_cases F
    simp [runL] at h
  | succ N ih =>
    intro F hF ts s s' h
    rcases F with _ | F2
    · simp [runL] at h
    · cases ts with
      | nil =>
        rw [show runL primChk (F2 + 1) ([] : List T) s = some s from rfl] at h
        exact ⟨1, by rw [show clearL ([] : List T) = [] by simp [clearL]]; exact h⟩
      | cons t ts2 =>
        cases t with
        | ins i =>
          rw [show runL primChk (F2 + 1) (.ins i :: ts2) s =
              (match primChk i s with
                | none => none
                | some s2 => runL primChk F2 ts2 s2) from rfl] at h
          rcases hσ : primChk i s with _ | s2 <;> rw [hσ] at h
          · cases h
          · obtain ⟨G, hG⟩ := ih F2 (by omega) ts2 s2 s' h
            refine ⟨G + 1, ?_⟩
            rw [show clearL (T.ins i :: ts2) = T.ins i :: clearL ts2 by simp [clearL],
              show runL primChk (G + 1) (.ins i :: clearL ts2) s =
                (match primChk i s with
                  | none => none
                  | some s2 => runL primChk G (clearL ts2) s2) from rfl, hσ]
            exact hG
        | block b =>
          rcases clearL_block_eq b ts2 with ⟨hb, he⟩ | ⟨hb, he⟩
          · subst hb
            obtain ⟨F3, hF3, hrun⟩ := runL_clear_block (F2 + 1) ts2 s s' h
            obtain ⟨G, hG⟩ := ih F3 (by omega) ts2 _ s' hrun
            refine ⟨G + 1, ?_⟩
            rw [he,
              show runL primChk (G + 1) (T.ins Instruction.Clear :: clearL ts2) s =
                (match primChk Instruction.Clear s with
                  | none => none
                  | some s2 => runL primChk G (clearL ts2) s2) from rfl,
              show primChk Instruction.Clear s =
                some { s with tape := setTape s.tape s.ptr 0 } from rfl]
            exact hG
          · rw [show runL primChk (F2 + 1) (.block b :: ts2) s =
                (if s.tape s.ptr = 0 then runL primChk F2 ts2 s
                else
                  match runL primChk F2 b s with
                  | none => none
                  | some s2 => runL primChk F2 (.block b :: ts2) s2) from rfl] at h
            rw [he]
            by_cases hc : s.tape s.ptr = 0
            · rw [if_pos hc] at h
              obtain ⟨G, hG⟩ := ih F2 (by omega) ts2 s s' h
              refine ⟨G + 1, ?_⟩
              rw [show runL primChk (G + 1) (.block (clearL b) :: clearL ts2) s =
                  (if s.tape s.ptr = 0 then runL primChk G (clearL ts2) s
                  else
                    match runL primChk G (clearL b) s with
                    | none => none
                    | some s2 => runL primChk G
                        (.block (clearL b) :: clearL ts2) s2) from rfl, if_pos hc]
              exact hG
            · rw [if_neg hc] at h
              rcases hbr : runL primChk F2 b s with _ | s2 <;> rw [hbr] at h
              · cases h
              · obtain ⟨G1, hG1⟩ := ih F2 (by omega) b s s2 hbr
                obtain ⟨G2, hG2⟩ := ih F2 (by omega) (.block b :: ts2) s2 s' h
                rw [he] at hG2
                refine ⟨max G1 G2 + 1, ?_⟩
                rw [show runL primChk (max G1 G2 + 1)
                    (.block (clearL b) :: clearL ts2) s =
                    (if s.tape s.ptr = 0 then
                      runL primChk (max G1 G2) (clearL ts2) s
                    else
                      match runL primChk (max G1 G2) (clearL b) s with
                      | none => none
                      | some s2 => runL primChk (max G1 G2)
                          (.block (clearL b) :: clearL ts2) s2) from rfl,
                  if_neg hc,
                  runL_mono primChk G1 (max G1 G2) (clearL b) s s2 (by omega) hG1]
                exact runL_mono primChk G2 (max G1 G2) _ s2 s' (by omega) hG2

/-! ## The copy-loop pass on trees -/

theorem runL_chain (σ : Instruction → St → Option St) :
    ∀ (F : Nat) (l : List Instruction) (s sE : St),
      runL σ F (l.map T.ins) s = some sE → chainPrim σ l s = some sE := by
  intro F
  induction F with
  | zero =>
    intro l s sE h
    simp [runL] at h
  | succ F ih =>
    intro l s sE h
    cases l with
    | nil =>
      rw [show runL σ (F + 1) (([] : List Instruction).map T.ins) s = some s from rfl] at h
      exact h
    | cons i l2 =>
      rw [show runL σ (F + 1) ((i :: l2).map T.ins) s =
          (match σ i s with
            | none => none
            | some s2 => runL σ F (l2.map T.ins) s2) from rfl] at h
      rw [show chainPrim σ (i :: l2) s =
          (match σ i s with
            | none => none
            | some s2 => chainPrim σ l2 s2) from rfl]
      rcases hσ : σ i s with _ | s2 <;> rw [hσ] at h
      · cases h
      · exact ih l2 s2 sE h

theorem copyL_ins_list (l : List Instruction) : copyL (l.map T.ins) = l.map T.ins := by
  induction l with
  | nil => simp [copyL]
  | cons i l ih => simp [copyL, ih]

theorem copyL_block_eq (b ts : List T) :
    (∃ a o1 x o2,
      b = [T.ins (.Alt a), T.ins (.Shift o1), T.ins (.Alt x), T.ins (.Shift o2)] ∧
      (a = -1 ∧ 0 < x ∧ o1 = -o2) ∧
      copyL (T.block b :: ts) =
        T.ins (.Copy (x.toNat % 256) o1) :: T.ins .Clear :: copyL ts) ∨
    (∃ o1 x o2 a,
      b = [T.ins (.Shift o1), T.ins (.Alt x), T.ins (.Shift o2), T.ins (.Alt a)] ∧
      (a = -1 ∧ 0 < x ∧ o1 = -o2) ∧
      copyL (T.block b :: ts) =
        T.ins (.Copy (x.toNat % 256) o1) :: T.ins .Clear :: copyL ts) ∨
    ((∀ a o1 x o2,
        b = [T.ins (.Alt a), T.ins (.Shift o1), T.ins (.Alt x), T.ins (.Shift o2)] →
          ¬(a = -1 ∧ 0 < x ∧ o1 = -o2)) ∧
     (∀ o1 x o2 a,
        b = [T.ins (.Shift o1), T.ins (.Alt x), T.ins (.Shift o2), T.ins (.Alt a)] →
          ¬(a = -1 ∧ 0 < x ∧ o1 = -o2)) ∧
      copyL (T.block b :: ts) = T.block (copyL b) :: copyL ts) := by
  rw [copyL.eq_def]
  split
  · rename_i h; simp at h
  · rename_i h; simp at h
  · rename_i a o1 x o2 ts2 h
    simp only [List.cons.injEq, T.block.injEq] at h
    obtain ⟨hb, hts⟩ := h
    subst hts
    by_cases hg : a = -1 ∧ 0 < x ∧ o1 = -o2
    · refine Or.inl ⟨a, o1, x, o2, hb, hg, ?_⟩
      rw [if_pos hg]
    · refine Or.inr (Or.inr ⟨?_, ?_, ?_⟩)
      · intro a' o1' x' o2' he
        rw [hb] at he
        simp at he
        obtain ⟨h1, h2, h3, h4⟩ := he
        rw [← h1, ← h2, ← h3, ← h4]
        exact hg
      · intro o1' x' o2' a' he
        rw [hb] at he
        simp at he
      · rw [if_neg hg, hb]
        rw [show [T.ins (Instruction.Alt a), T.ins (Instruction.Shift o1),
              T.ins (Instruction.Alt x), T.ins (Instruction.Shift o2)] =
            ([Instruction.Alt a, Instruction.Shift o1, Instruction.Alt x,
              Instruction.Shift o2].map T.ins) from rfl, copyL_ins_list]
  · rename_i o1 x o2 a ts2 h
    simp only [List.cons.injEq, T.block.injEq] at h
    obtain ⟨hb, hts⟩ := h
    subst hts
    by_cases hg : a = -1 ∧ 0 < x ∧ o1 = -o2
    · refine Or.inr (Or.inl ⟨o1, x, o2, a, hb, hg, ?_⟩)
      rw [if_pos hg]
    · refine Or.inr (Or.inr ⟨?_, ?_, ?_⟩)
      · intro a' o1' x' o2' he
        rw [hb] at he
        simp at he
      · intro o1' x' o2' a' he
        rw [hb] at he
        simp at he
        obtain ⟨h1, h2, h3, h4⟩ := he
        rw [← h1, ← h2, ← h3, ← h4]
        exact hg
      · rw [if_neg hg, hb]
        rw [show [T.ins (Instruction.Shift o1), T.ins (Instruction.Alt x),
              T.ins (Instruction.Shift o2), T.ins (Instruction.Alt a)] =
            ([Instruction.Shift o1, Instruction.Alt x, Instruction.Shift o2,
              Instruction.Alt a].map T.ins) from rfl, copyL_ins_list]
  · rename_i h1 h2 h3
    simp only [List.cons.injEq, T.block.injEq] at h3
    obtain ⟨hb, hts⟩ := h3
    subst hts
    refine Or.inr (Or.inr ⟨?_, ?_, ?_⟩)
    · intro a' o1' x' o2' he hgg
      exact h1 a' o1' x' o2' (by rw [← hb, he])
    · intro o1' x' o2' a' he hgg
      exact h2 o1' x' o2' a' (by rw [← hb, he])
    · rw [hb]

/-- In a well-formed flattening a `Loop` is always followed, somewhere, by an
`End`: its matching close has to sit to its right. -/
theorem wf_no_loop_no_end (c : List T) (hwf : wfL c) (u w : List Instruction)
    (hw : Instruction.End ∉ w)
    (h : flatL c = u ++ Instruction.Loop :: w) : False := by
  have h1 : (flatL c)[u.length]? = some Instruction.Loop := by
    rw [h]
    exact getAt_append u _ w
  obtain ⟨cc, hcc⟩ := (pairsOf_total (flatL c).length c le_rfl hwf 0 u.length).1 h1
  rw [Nat.zero_add] at hcc
  have hlt := pairsOf_lt c 0 u.length cc hcc
  have hbnd := insOrder_bounds2 c 0 u.length cc
    ((mem_insOrder_iff2 c 0 u.length cc).mpr (Or.inl hcc))
  have hlen : (flatL c).length = u.length + 1 + w.length := by
    rw [h]
    simp
    omega
  have hpos := (pairsOf_positions c 0 u.length cc hcc).2
  rw [Nat.sub_zero] at hpos
  have h2 : (flatL c)[cc]? = w[cc - (u.length + 1)]? := by
    rw [h, show u ++ Instruction.Loop :: w = (u ++ [Instruction.Loop]) ++ w by simp,
      List.getElem?_append_right (by simp; omega)]
    congr 1
    simp
  rw [h2] at hpos
  have hk := List.getElem?_eq_some.mp hpos
  exact hw (hk.2 ▸ List.getElem_mem hk.1)

/-- If the copy pass leaves a block body whose flattening is a given list of
pure arithmetic instructions, the body was exactly those instructions. -/
theorem copyL_arith_inv :
    ∀ (b : List T) (l : List Instruction), flatL (copyL b) = l →
      (∀ j ∈ l, (∃ a, j = Instruction.Alt a) ∨ (∃ o, j = Instruction.Shift o)) →
      b = l.map T.ins := by
  intro b
  induction b with
  | nil =>
    intro l hfl ha
    rw [show copyL ([] : List T) = [] by simp [copyL]] at hfl
    rw [show flatL ([] : List T) = [] from rfl] at hfl
    rw [← hfl]
    rfl
  | cons t b2 ih =>
    intro l hfl ha
    cases t with
    | ins i =>
      rw [show copyL (T.ins i :: b2) = T.ins i :: copyL b2 by simp [copyL], flatL_cons,
        show flatT (T.ins i) = [i] from rfl] at hfl
      cases l with
      | nil => cases hfl
      | cons j l2 =>
        simp only [List.cons_append, List.nil_append, List.cons.injEq] at hfl
        obtain ⟨hj, hl2⟩ := hfl
        rw [show (j :: l2).map T.ins = T.ins j :: l2.map T.ins from rfl, ← hj,
          ← ih l2 hl2 (fun j2 hj2 => ha j2 (by simp [hj2]))]
    | block c =>
      exfalso
      rcases copyL_block_eq c b2 with ⟨a, o1, x, o2, hb, hg, he⟩ |
        ⟨o1, x, o2, a, hb, hg, he⟩ | ⟨hn1, hn2, he⟩ <;> rw [he] at hfl
      · rw [flatL_cons, show flatT (T.ins (Instruction.Copy (x.toNat % 256) o1)) =
            [Instruction.Copy (x.toNat % 256) o1] from rfl] at hfl
        rcases ha (Instruction.Copy (x.toNat % 256) o1) (by rw [← hfl]; simp) with
          ⟨a2, h2⟩ | ⟨o3, h2⟩ <;> cases h2
      · rw [flatL_cons, show flatT (T.ins (Instruction.Copy (x.toNat % 256) o1)) =
            [Instruction.Copy (x.toNat % 256) o1] from rfl] at hfl
        rcases ha (Instruction.Copy (x.toNat % 256) o1) (by rw [← hfl]; simp) with
          ⟨a2, h2⟩ | ⟨o3, h2⟩ <;> cases h2
      · rw [flatL_cons, show flatT (T.block (copyL c)) =
            Instruction.Loop :: flatL (copyL c) ++ [Instruction.End] from rfl] at hfl
        rcases ha Instruction.Loop (by rw [← hfl]; simp) with ⟨a2, h2⟩ | ⟨o3, h2⟩ <;>
          cases h2

theorem copyL_wf :
    ∀ (n : Nat) (ts : List T), (flatL ts).length ≤ n → wfL ts → wfL (copyL ts) := by
  intro n
  induction n with
  | zero =>
    intro ts hn hwf
    cases ts with
    | nil =>
      rw [show copyL ([] : List T) = [] by simp [copyL]]
      exact hwf
    | cons t ts2 =>
      rw [flatL_cons, List.length_append] at hn
      have := flatT_length_pos t
      omega
  | succ n ih =>
    intro ts hn hwf
    cases ts with
    | nil =>
      rw [show copyL ([] : List T) = [] by simp [copyL]]
      exact hwf
    | cons t ts2 =>
      cases t with
      | ins i =>
        obtain ⟨hi, hwf2⟩ : (i ≠ Instruction.Loop ∧ i ≠ Instruction.End) ∧ wfL ts2 := hwf
        have hl : (flatL (T.ins i :: ts2)).length = 1 + (flatL ts2).length := by
          rw [flatL_cons]
          simp [flatT]
          omega
        rw [show copyL (T.ins i :: ts2) = T.ins i :: copyL ts2 by simp [copyL]]
        exact ⟨hi, ih ts2 (by omega) hwf2⟩
      | block b =>
        obtain ⟨hwb, hwf2⟩ : wfL b ∧ wfL ts2 := hwf
        have hl : (flatL (T.block b :: ts2)).length =
            (flatL b).length + 2 + (flatL ts2).length := by
          rw [flatL_cons]
          simp [flatT]
          omega
        rcases copyL_block_eq b ts2 with ⟨a, o1, x, o2, hb, hg, he⟩ |
          ⟨o1, x, o2, a, hb, hg, he⟩ | ⟨hn1, hn2, he⟩ <;> rw [he]
        · exact ⟨⟨by simp, by simp⟩, ⟨⟨by simp, by simp⟩, ih ts2 (by omega) hwf2⟩⟩
        · exact ⟨⟨by simp, by simp⟩, ⟨⟨by simp, by simp⟩, ih ts2 (by omega) hwf2⟩⟩
        · exact ⟨ih b (by omega) hwb, ih ts2 (by omega) hwf2⟩

/-- The copy fold on the flattening of a well-formed tree list pushes
exactly the flattening of the tree-level pass, whatever was emitted
before. -/
theorem copyL_fold :
    ∀ (n : Nat) (ts : List T), (flatL ts).length ≤ n → wfL ts →
      ∀ (out : List Instruction),
        (flatL ts).foldl copyStep out = (flatL (copyL ts)).reverse ++ out := by
  intro n
  induction n with
  | zero =>
    intro ts hn hwf out
    cases ts with
    | nil =>
      rw [show copyL ([] : List T) = [] by simp [copyL]]
      rfl
    | cons t ts2 =>
      rw [flatL_cons, List.length_append] at hn
      have := flatT_length_pos t
      omega
  | succ n ih =>
    intro ts hn hwf out
    cases ts with
    | nil =>
      rw [show copyL ([] : List T) = [] by simp [copyL]]
      rfl
    | cons t ts2 =>
      cases t with
      | ins i =>
        obtain ⟨⟨hiL, hiE⟩, hwf2⟩ : (i ≠ Instruction.Loop ∧ i ≠ Instruction.End) ∧
            wfL ts2 := hwf
        have hfl : flatL (T.ins i :: ts2) = i :: flatL ts2 := by
          rw [flatL_cons]
          rfl
        have hl : (flatL (T.ins i :: ts2)).length = 1 + (flatL ts2).length := by
          rw [hfl]
          simp
          omega
        rw [hfl, List.foldl_cons, copyStep_ne_end out i hiE,
          ih ts2 (by omega) hwf2 (i :: out),
          show copyL (T.ins i :: ts2) = T.ins i :: copyL ts2 by simp [copyL],
          flatL_cons, show flatT (T.ins i) = [i] from rfl]
        simp [List.append_assoc]
      | block b =>
        obtain ⟨hwb, hwf2⟩ : wfL b ∧ wfL ts2 := hwf
        have hfl : flatL (T.block b :: ts2) =
            Instruction.Loop :: (flatL b ++ (Instruction.End :: flatL ts2)) := by
          rw [flatL_cons]
          simp [flatT]
        have hl : (flatL (T.block b :: ts2)).length =
            (flatL b).length + 2 + (flatL ts2).length := by
          rw [hfl]
          simp
          omega
        rw [hfl, List.foldl_cons,
          copyStep_ne_end out Instruction.Loop (by simp), List.foldl_append]
        rcases copyL_block_eq b ts2 with ⟨a, o1, x, o2, hb, hg, he⟩ |
          ⟨o1, x, o2, a, hb, hg, he⟩ | ⟨hn1, hn2, he⟩
        · obtain ⟨ha, hx, ho⟩ := hg
          subst ha
          have ho2 : o2 = -o1 := by omega
          subst ho2
          subst hb
          rw [show flatL [T.ins (Instruction.Alt (-1)), T.ins (Instruction.Shift o1),
              T.ins (Instruction.Alt x), T.ins (Instruction.Shift (-o1))] =
              [Instruction.Alt (-1), Instruction.Shift o1, Instruction.Alt x,
                Instruction.Shift (-o1)] from rfl]
          rw [show ([Instruction.Alt (-1), Instruction.Shift o1, Instruction.Alt x,
              Instruction.Shift (-o1)].foldl copyStep (Instruction.Loop :: out)) =
              copyStep (copyStep (copyStep (copyStep (Instruction.Loop :: out)
                (Instruction.Alt (-1))) (Instruction.Shift o1)) (Instruction.Alt x))
                (Instruction.Shift (-o1)) from rfl,
            copyStep_ne_end _ _ (by simp), copyStep_ne_end _ _ (by simp),
            copyStep_ne_end _ _ (by simp), copyStep_ne_end _ _ (by simp),
            List.foldl_cons, copyStep_end_fold₁ out o1 x hx,
            ih ts2 (by omega) hwf2 _, he, flatL_cons, flatL_cons,
            show flatT (T.ins (Instruction.Copy (x.toNat % 256) o1)) =
              [Instruction.Copy (x.toNat % 256) o1] from rfl,
            show flatT (T.ins Instruction.Clear) = [Instruction.Clear] from rfl]
          simp [List.append_assoc]
        · obtain ⟨ha, hx, ho⟩ := hg
          subst ha
          have ho2 : o2 = -o1 := by omega
          subst ho2
          subst hb
          rw [show flatL [T.ins (Instruction.Shift o1), T.ins (Instruction.Alt x),
              T.ins (Instruction.Shift (-o1)), T.ins (Instruction.Alt (-1))] =
              [Instruction.Shift o1, Instruction.Alt x, Instruction.Shift (-o1),
                Instruction.Alt (-1)] from rfl]
          rw [show ([Instruction.Shift o1, Instruction.Alt x, Instruction.Shift (-o1),
              Instruction.Alt (-1)].foldl copyStep (Instruction.Loop :: out)) =
              copyStep (copyStep (copyStep (copyStep (Instruction.Loop :: out)
                (Instruction.Shift o1)) (Instruction.Alt x)) (Instruction.Shift (-o1)))
                (Instruction.Alt (-1)) from rfl,
            copyStep_ne_end _ _ (by simp), copyStep_ne_end _ _ (by simp),
            copyStep_ne_end _ _ (by simp), copyStep_ne_end _ _ (by simp),
            List.foldl_cons, copyStep_end_fold₂ out o1 x hx,
            ih ts2 (by omega) hwf2 _, he, flatL_cons, flatL_cons,
            show flatT (T.ins (Instruction.Copy (x.toNat % 256) o1)) =
              [Instruction.Copy (x.toNat % 256) o1] from rfl,
            show flatT (T.ins Instruction.Clear) = [Instruction.Clear] from rfl]
          simp [List.append_assoc]
        · rw [ih b (by omega) hwb (Instruction.Loop :: out), List.foldl_cons]
          have hnofire : copyStep ((flatL (copyL b)).reverse ++ Instruction.Loop :: out)
              Instruction.End =
              Instruction.End :: ((flatL (copyL b)).reverse ++ Instruction.Loop :: out) := by
            rcases copyStep_cases ((flatL (copyL b)).reverse ++ Instruction.Loop :: out)
              Instruction.End with hok | ⟨-, hshape⟩
            · exact hok
            · exfalso
              rcases hrb : (flatL (copyL b)).reverse with
                _ | ⟨x1, _ | ⟨x2, _ | ⟨x3, _ | ⟨x4, _ | ⟨x5, rtail⟩⟩⟩⟩⟩ <;>
                rw [hrb] at hshape
              · rcases hshape with ⟨o, x, rest, hx, hsh⟩ | ⟨o, x, rest, hx, hsh⟩ <;>
                  simp at hsh
              · rcases hshape with ⟨o, x, rest, hx, hsh⟩ | ⟨o, x, rest, hx, hsh⟩ <;>
                  simp at hsh
              · rcases hshape with ⟨o, x, rest, hx, hsh⟩ | ⟨o, x, rest, hx, hsh⟩ <;>
                  simp at hsh
              · rcases hshape with ⟨o, x, rest, hx, hsh⟩ | ⟨o, x, rest, hx, hsh⟩ <;>
                  simp at hsh
              · have hflat4 : flatL (copyL b) = [x4, x3, x2, x1] := by
                  have := congrArg List.reverse hrb
                  rw [List.reverse_reverse] at this
                  rw [this]
                  rfl
                rcases hshape with ⟨o, x, rest, hx, hsh⟩ | ⟨o, x, rest, hx, hsh⟩ <;>
                  simp at hsh
                · obtain ⟨h1, h2, h3, h4, -⟩ := hsh
                  rw [h1, h2, h3, h4] at hflat4
                  have hbv := copyL_arith_inv b _ hflat4 (by
                    intro j hj
                    simp at hj
                    rcases hj with h | h | h | h <;> rw [h]
                    · exact Or.inl ⟨-1, rfl⟩
                    · exact Or.inr ⟨o, rfl⟩
                    · exact Or.inl ⟨x, rfl⟩
                    · exact Or.inr ⟨-o, rfl⟩)
                  exact hn1 (-1) o x (-o) (by rw [hbv]; rfl) ⟨rfl, hx, by omega⟩
                · obtain ⟨h1, h2, h3, h4, -⟩ := hsh
                  rw [h1, h2, h3, h4] at hflat4
                  have hbv := copyL_arith_inv b _ hflat4 (by
                    intro j hj
                    simp at hj
                    rcases hj with h | h | h | h <;> rw [h]
                    · exact Or.inr ⟨o, rfl⟩
                    · exact Or.inl ⟨x, rfl⟩
                    · exact Or.inr ⟨-o, rfl⟩
                    · exact Or.inl ⟨-1, rfl⟩)
                  exact hn2 o x (-o) (-1) (by rw [hbv]; rfl) ⟨rfl, hx, by omega⟩
              · rcases hshape with ⟨o, x, rest, hx, hsh⟩ | ⟨o, x, rest, hx, hsh⟩ <;>
                  simp at hsh
                · obtain ⟨h1, h2, h3, h4, h5, -⟩ := hsh
                  have hflat : flatL (copyL b) = rtail.reverse ++
                      Instruction.Loop :: [x4, x3, x2, x1] := by
                    have := congrArg List.reverse hrb
                    rw [List.reverse_reverse] at this
                    rw [this, h5]
                    simp
                  refine wf_no_loop_no_end (copyL b)
                    (copyL_wf (flatL b).length b le_rfl hwb) rtail.reverse
                    [x4, x3, x2, x1] ?_ hflat
                  rw [h1, h2, h3, h4]
                  simp
                · obtain ⟨h1, h2, h3, h4, h5, -⟩ := hsh
                  have hflat : flatL (copyL b) = rtail.reverse ++
                      Instruction.Loop :: [x4, x3, x2, x1] := by
                    have := congrArg List.reverse hrb
                    rw [List.reverse_reverse] at this
                    rw [this, h5]
                    simp
                  refine wf_no_loop_no_end (copyL b)
                    (copyL_wf (flatL b).length b le_rfl hwb) rtail.reverse
                    [x4, x3, x2, x1] ?_ hflat
                  rw [h1, h2, h3, h4]
                  simp
          rw [hnofire, ih ts2 (by omega) hwf2 _, he, flatL_cons,
            show flatT (T.block (copyL b)) =
              Instruction.Loop :: flatL (copyL b) ++ [Instruction.End] from rfl]
          simp [List.append_assoc]

theorem copyL_flat (ts : List T) (hwf : wfL ts) :
    copy_loop_optimizer (flatL ts) = flatL (copyL ts) := by
  unfold copy_loop_optimizer
  rw [copyL_fold (flatL ts).length ts le_rfl hwf []]
  simp

theorem primChk_Alt_eq (d : Int) (s s' : St) (h : primChk (.Alt d) s = some s') :
    0 ≤ (s.tape s.ptr : Int) + d ∧ (s.tape s.ptr : Int) + d ≤ 255 ∧
    s' = { s with tape := setTape s.tape s.ptr (((s.tape s.ptr : Int) + d)).toNat } := by
  rw [show primChk (.Alt d) s =
      (if 0 ≤ (s.tape s.ptr : Int) + d ∧ (s.tape s.ptr : Int) + d ≤ 255 then
        some { s with tape := setTape s.tape s.ptr (((s.tape s.ptr : Int) + d)).toNat }
      else none) from rfl] at h
  by_cases hg : 0 ≤ (s.tape s.ptr : Int) + d ∧ (s.tape s.ptr : Int) + d ≤ 255
  · rw [if_pos hg] at h
    exact ⟨hg.1, hg.2, (Option.some.inj h).symm⟩
  · rw [if_neg hg] at h
    cases h

theorem primChk_Shift_eq (d : Int) (s s' : St) (h : primChk (.Shift d) s = some s') :
    0 ≤ (s.ptr : Int) + d ∧ (s.ptr : Int) + d < (MEM : Int) ∧
    s' = { s with ptr := (((s.ptr : Int) + d)).toNat } := by
  rw [show primChk (.Shift d) s =
      (if 0 ≤ (s.ptr : Int) + d ∧ (s.ptr : Int) + d < (MEM : Int) then
        some { s with ptr := (((s.ptr : Int) + d)).toNat }
      else none) from rfl] at h
  by_cases hg : 0 ≤ (s.ptr : Int) + d ∧ (s.ptr : Int) + d < (MEM : Int)
  · rw [if_pos hg] at h
    exact ⟨hg.1, hg.2, (Option.some.inj h).symm⟩
  · rw [if_neg hg] at h
    cases h

/-- One iteration of the first copy-loop body (`[-… > +x <]` shape):
decrement, move by `o`, add `x`, move back. -/
theorem chain_body₁ (o x : Int) (s s2 : St)
    (h : chainPrim primChk [Instruction.Alt (-1), Instruction.Shift o,
      Instruction.Alt x, Instruction.Shift (-o)] s = some s2) :
    1 ≤ s.tape s.ptr ∧
    0 ≤ (s.ptr : Int) + o ∧ (s.ptr : Int) + o < (MEM : Int) ∧
    0 ≤ (setTape s.tape s.ptr (((s.tape s.ptr : Int) + (-1))).toNat
      (((s.ptr : Int) + o)).toNat : Int) + x ∧
    (setTape s.tape s.ptr (((s.tape s.ptr : Int) + (-1))).toNat
      (((s.ptr : Int) + o)).toNat : Int) + x ≤ 255 ∧
    s2 = ⟨setTape (setTape s.tape s.ptr (((s.tape s.ptr : Int) + (-1))).toNat)
      (((s.ptr : Int) + o)).toNat
      (((setTape s.tape s.ptr (((s.tape s.ptr : Int) + (-1))).toNat
        (((s.ptr : Int) + o)).toNat : Int) + x)).toNat,
      s.ptr, s.inp, s.outp⟩ := by
  replace h : (match primChk (.Alt (-1)) s with
      | none => none
      | some u => chainPrim primChk [Instruction.Shift o, Instruction.Alt x,
          Instruction.Shift (-o)] u) = some s2 := h
  rcases h1 : primChk (.Alt (-1)) s with _ | u1 <;> rw [h1] at h
  · cases h
  obtain ⟨g1a, g1b, hu1⟩ := primChk_Alt_eq (-1) s u1 h1
  subst hu1
  replace h : (match primChk (.Shift o)
        { s with tape := setTape s.tape s.ptr (((s.tape s.ptr : Int) + (-1))).toNat } with
      | none => none
      | some u => chainPrim primChk [Instruction.Alt x, Instruction.Shift (-o)] u) =
      some s2 := h
  rcases h2 : primChk (.Shift o)
      { s with tape := setTape s.tape s.ptr (((s.tape s.ptr : Int) + (-1))).toNat }
      with _ | u2 <;> rw [h2] at h
  · cases h
  obtain ⟨g2a, g2b, hu2⟩ := primChk_Shift_eq o _ u2 h2
  dsimp only at g2a g2b hu2
  subst hu2
  replace h : (match primChk (.Alt x)
        { s with
          tape := setTape s.tape s.ptr (((s.tape s.ptr : Int) + (-1))).toNat,
          ptr := (((s.ptr : Int) + o)).toNat } with
      | none => none
      | some u => chainPrim primChk [Instruction.Shift (-o)] u) = some s2 := h
  rcases h3 : primChk (.Alt x)
      { s with
        tape := setTape s.tape s.ptr (((s.tape s.ptr : Int) + (-1))).toNat,
        ptr := (((s.ptr : Int) + o)).toNat } with _ | u3 <;> rw [h3] at h
  · cases h
  obtain ⟨g3a, g3b, hu3⟩ := primChk_Alt_eq x _ u3 h3
  dsimp only at g3a g3b hu3
  subst hu3
  replace h : (match primChk (.Shift (-o))
        { s with
          tape := (setTape (setTape s.tape s.ptr (((s.tape s.ptr : Int) + (-1))).toNat)
            (((s.ptr : Int) + o)).toNat
            (((setTape s.tape s.ptr (((s.tape s.ptr : Int) + (-1))).toNat
              (((s.ptr : Int) + o)).toNat : Int) + x)).toNat),
          ptr := (((s.ptr : Int) + o)).toNat } with
      | none => none
      | some u => chainPrim primChk ([] : List Instruction) u) = some s2 := h
  rcases h4 : primChk (.Shift (-o))
      { s with
        tape := (setTape (setTape s.tape s.ptr (((s.tape s.ptr : Int) + (-1))).toNat)
          (((s.ptr : Int) + o)).toNat
          (((setTape s.tape s.ptr (((s.tape s.ptr : Int) + (-1))).toNat
            (((s.ptr : Int) + o)).toNat : Int) + x)).toNat),
        ptr := (((s.ptr : Int) + o)).toNat } with _ | u4 <;> rw [h4] at h
  · cases h
  obtain ⟨g4a, g4b, hu4⟩ := primChk_Shift_eq (-o) _ u4 h4
  dsimp only at g4a g4b hu4
  have hback : ((((((s.ptr : Int) + o)).toNat : Nat) : Int) + (-o)).toNat = s.ptr := by
    omega
  rw [hback] at hu4
  subst hu4
  replace h : some ({ s with
      tape := (setTape (setTape s.tape s.ptr (((s.tape s.ptr : Int) + (-1))).toNat)
        (((s.ptr : Int) + o)).toNat
        (((setTape s.tape s.ptr (((s.tape s.ptr : Int) + (-1))).toNat
          (((s.ptr : Int) + o)).toNat : Int) + x)).toNat),
      ptr := s.ptr } : St) = some s2 := h
  refine ⟨by omega, g2a, g2b, g3a, g3b, ?_⟩
  rw [← Option.some.inj h]

/-- One iteration of the second copy-loop body (`[> +x < -]` shape):
move by `o`, add `x`, move back, decrement. -/
theorem chain_body₂ (o x : Int) (s s2 : St)
    (h : chainPrim primChk [Instruction.Shift o, Instruction.Alt x,
      Instruction.Shift (-o), Instruction.Alt (-1)] s = some s2) :
    0 ≤ (s.ptr : Int) + o ∧ (s.ptr : Int) + o < (MEM : Int) ∧
    0 ≤ (s.tape (((s.ptr : Int) + o)).toNat : Int) + x ∧
    (s.tape (((s.ptr : Int) + o)).toNat : Int) + x ≤ 255 ∧
    1 ≤ setTape s.tape (((s.ptr : Int) + o)).toNat
      (((s.tape (((s.ptr : Int) + o)).toNat : Int) + x)).toNat s.ptr ∧
    s2 = ⟨setTape (setTape s.tape (((s.ptr : Int) + o)).toNat
        (((s.tape (((s.ptr : Int) + o)).toNat : Int) + x)).toNat) s.ptr
      (((setTape s.tape (((s.ptr : Int) + o)).toNat
        (((s.tape (((s.ptr : Int) + o)).toNat : Int) + x)).toNat s.ptr : Int) +
          (-1))).toNat,
      s.ptr, s.inp, s.outp⟩ := by
  replace h : (match primChk (.Shift o) s with
      | none => none
      | some u => chainPrim primChk [Instruction.Alt x, Instruction.Shift (-o),
          Instruction.Alt (-1)] u) = some s2 := h
  rcases h1 : primChk (.Shift o) s with _ | u1 <;> rw [h1] at h
  · cases h
  obtain ⟨g1a, g1b, hu1⟩ := primChk_Shift_eq o s u1 h1
  subst hu1
  replace h : (match primChk (.Alt x) { s with ptr := (((s.ptr : Int) + o)).toNat } with
      | none => none
      | some u => chainPrim primChk [Instruction.Shift (-o), Instruction.Alt (-1)] u) =
      some s2 := h
  rcases h2 : primChk (.Alt x) { s with ptr := (((s.ptr : Int) + o)).toNat }
      with _ | u2 <;> rw [h2] at h
  · cases h
  obtain ⟨g2a, g2b, hu2⟩ := primChk_Alt_eq x _ u2 h2
  dsimp only at g2a g2b hu2
  subst hu2
  replace h : (match primChk (.Shift (-o))
        { s with
          tape := (setTape s.tape (((s.ptr : Int) + o)).toNat
            (((s.tape (((s.ptr : Int) + o)).toNat : Int) + x)).toNat),
          ptr := (((s.ptr : Int) + o)).toNat } with
      | none => none
      | some u => chainPrim primChk [Instruction.Alt (-1)] u) = some s2 := h
  rcases h3 : primChk (.Shift (-o))
      { s with
        tape := (setTape s.tape (((s.ptr : Int) + o)).toNat
          (((s.tape (((s.ptr : Int) + o)).toNat : Int) + x)).toNat),
        ptr := (((s.ptr : Int) + o)).toNat } with _ | u3 <;> rw [h3] at h
  · cases h
  obtain ⟨g3a, g3b, hu3⟩ := primChk_Shift_eq (-o) _ u3 h3
  dsimp only at g3a g3b hu3
  have hback : ((((((s.ptr : Int) + o)).toNat : Nat) : Int) + (-o)).toNat = s.ptr := by
    omega
  rw [hback] at hu3
  subst hu3
  replace h : (match primChk (.Alt (-1))
        { s with
          tape := (setTape s.tape (((s.ptr : Int) + o)).toNat
            (((s.tape (((s.ptr : Int) + o)).toNat : Int) + x)).toNat),
          ptr := s.ptr } with
      | none => none
      | some u => chainPrim primChk ([] : List Instruction) u) = some s2 := h
  rcases h4 : primChk (.Alt (-1))
      { s with
        tape := (setTape s.tape (((s.ptr : Int) + o)).toNat
          (((s.tape (((s.ptr : Int) + o)).toNat : Int) + x)).toNat),
        ptr := s.ptr } with _ | u4 <;> rw [h4] at h
  · cases h
  obtain ⟨g4a, g4b, hu4⟩ := primChk_Alt_eq (-1) _ u4 h4
  dsimp only at g4a g4b hu4
  subst hu4
  replace h : some ({ s with
      tape := (setTape (setTape s.tape (((s.ptr : Int) + o)).toNat
        (((s.tape (((s.ptr : Int) + o)).toNat : Int) + x)).toNat) s.ptr
        (((setTape s.tape (((s.ptr : Int) + o)).toNat
          (((s.tape (((s.ptr : Int) + o)).toNat : Int) + x)).toNat s.ptr : Int) +
            (-1))).toNat),
      ptr := s.ptr } : St) = some s2 := h
  refine ⟨g1a, g1b, g2a, g2b, by omega, ?_⟩
  rw [← Option.some.inj h]

theorem copyClear_intro_zero (m : Nat) (o : Int) (s : St) (h : s.tape s.ptr = 0) :
    (primChk (.Copy m o) s).bind (primChk .Clear) =
      some { s with tape := setTape s.tape s.ptr 0 } := by
  rw [show primChk (.Copy m o) s =
      (if s.tape s.ptr = 0 then some s
      else if 0 ≤ (s.ptr : Int) + o ∧ (s.ptr : Int) + o < (MEM : Int) ∧
          s.tape (((s.ptr : Int) + o)).toNat + s.tape s.ptr * m ≤ 255 then
        some { s with tape := (setTape s.tape (((s.ptr : Int) + o)).toNat
          (s.tape (((s.ptr : Int) + o)).toNat + s.tape s.ptr * m)) }
      else none) from rfl, if_pos h]
  rfl

theorem copyClear_intro_pos (m : Nat) (o : Int) (s : St) (h : s.tape s.ptr ≠ 0)
    (g1 : 0 ≤ (s.ptr : Int) + o) (g2 : (s.ptr : Int) + o < (MEM : Int))
    (g3 : s.tape (((s.ptr : Int) + o)).toNat + s.tape s.ptr * m ≤ 255) :
    (primChk (.Copy m o) s).bind (primChk .Clear) =
      some ⟨setTape (setTape s.tape (((s.ptr : Int) + o)).toNat
        (s.tape (((s.ptr : Int) + o)).toNat + s.tape s.ptr * m)) s.ptr 0,
        s.ptr, s.inp, s.outp⟩ := by
  rw [show primChk (.Copy m o) s =
      (if s.tape s.ptr = 0 then some s
      else if 0 ≤ (s.ptr : Int) + o ∧ (s.ptr : Int) + o < (MEM : Int) ∧
          s.tape (((s.ptr : Int) + o)).toNat + s.tape s.ptr * m ≤ 255 then
        some { s with tape := (setTape s.tape (((s.ptr : Int) + o)).toNat
          (s.tape (((s.ptr : Int) + o)).toNat + s.tape s.ptr * m)) }
      else none) from rfl, if_neg h, if_pos ⟨g1, g2, g3⟩]
  rfl

theorem copyClear_elim (m : Nat) (o : Int) (s sE : St)
    (h : (primChk (.Copy m o) s).bind (primChk .Clear) = some sE) :
    (s.tape s.ptr = 0 ∧ sE = { s with tape := setTape s.tape s.ptr 0 }) ∨
    (s.tape s.ptr ≠ 0 ∧ 0 ≤ (s.ptr : Int) + o ∧ (s.ptr : Int) + o < (MEM : Int) ∧
      s.tape (((s.ptr : Int) + o)).toNat + s.tape s.ptr * m ≤ 255 ∧
      sE = ⟨setTape (setTape s.tape (((s.ptr : Int) + o)).toNat
        (s.tape (((s.ptr : Int) + o)).toNat + s.tape s.ptr * m)) s.ptr 0,
        s.ptr, s.inp, s.outp⟩) := by
  by_cases hz : s.tape s.ptr = 0
  · rw [copyClear_intro_zero m o s hz] at h
    exact Or.inl ⟨hz, (Option.some.inj h).symm⟩
  · by_cases hg : 0 ≤ (s.ptr : Int) + o ∧ (s.ptr : Int) + o < (MEM : Int) ∧
        s.tape (((s.ptr : Int) + o)).toNat + s.tape s.ptr * m ≤ 255
    · rw [copyClear_intro_pos m o s hz hg.1 hg.2.1 hg.2.2] at h
      exact Or.inr ⟨hz, hg.1, hg.2.1, hg.2.2, (Option.some.inj h).symm⟩
    · exfalso
      rw [show primChk (.Copy m o) s =
          (if s.tape s.ptr = 0 then some s
          else if 0 ≤ (s.ptr : Int) + o ∧ (s.ptr : Int) + o < (MEM : Int) ∧
              s.tape (((s.ptr : Int) + o)).toNat + s.tape s.ptr * m ≤ 255 then
            some { s with tape := (setTape s.tape (((s.ptr : Int) + o)).toNat
              (s.tape (((s.ptr : Int) + o)).toNat + s.tape s.ptr * m)) }
          else none) from rfl, if_neg hz, if_neg hg] at h
      cases h

/-- A degenerate first-form copy body with offset `0` re-increments its own
cell and can never complete a checked run. -/
theorem runL_copy_div₁ :
    ∀ (F : Nat) (ts : List T) (o x : Int), o = 0 → 0 < x →
      ∀ (s s' : St), s.tape s.ptr ≠ 0 →
        runL primChk F (T.block [T.ins (Instruction.Alt (-1)),
          T.ins (Instruction.Shift o), T.ins (Instruction.Alt x),
          T.ins (Instruction.Shift (-o))] :: ts) s ≠ some s' := by
  intro F
  induction F with
  | zero =>
    intro ts o x ho hx s s' hc h
    simp [runL] at h
  | succ F ih =>
    intro ts o x ho hx s s' hc h
    rw [show runL primChk (F + 1) (T.block [T.ins (Instruction.Alt (-1)),
        T.ins (Instruction.Shift o), T.ins (Instruction.Alt x),
        T.ins (Instruction.Shift (-o))] :: ts) s =
        (if s.tape s.ptr = 0 then runL primChk F ts s
        else
          match runL primChk F [T.ins (Instruction.Alt (-1)),
              T.ins (Instruction.Shift o), T.ins (Instruction.Alt x),
              T.ins (Instruction.Shift (-o))] s with
          | none => none
          | some s2 => runL primChk F (T.block [T.ins (Instruction.Alt (-1)),
              T.ins (Instruction.Shift o), T.ins (Instruction.Alt x),
              T.ins (Instruction.Shift (-o))] :: ts) s2) from rfl, if_neg hc] at h
    rcases hb : runL primChk F [T.ins (Instruction.Alt (-1)),
        T.ins (Instruction.Shift o), T.ins (Instruction.Alt x),
        T.ins (Instruction.Shift (-o))] s with _ | s2 <;> rw [hb] at h
    · cases h
    · have hch := runL_chain primChk F
        [Instruction.Alt (-1), Instruction.Shift o, Instruction.Alt x,
          Instruction.Shift (-o)] s s2 hb
      obtain ⟨hv, g2a, g2b, g3a, g3b, hs2⟩ := chain_body₁ o x s s2 hch
      have hτ : (((s.ptr : Int) + o)).toNat = s.ptr := by omega
      have hc2 : s2.tape s2.ptr ≠ 0 := by
        rw [hs2]
        dsimp only
        rw [hτ, setTape_get]
        rw [hτ, setTape_get] at g3a
        omega
      exact ih ts o x ho hx s2 s' hc2 h

/-- A degenerate second-form copy body with offset `0` adds to its own cell
before decrementing and can never complete a checked run. -/
theorem runL_copy_div₂ :
    ∀ (F : Nat) (ts : List T) (o x : Int), o = 0 → 0 < x →
      ∀ (s s' : St), s.tape s.ptr ≠ 0 →
        runL primChk F (T.block [T.ins (Instruction.Shift o),
          T.ins (Instruction.Alt x), T.ins (Instruction.Shift (-o)),
          T.ins (Instruction.Alt (-1))] :: ts) s ≠ some s' := by
  intro F
  induction F with
  | zero =>
    intro ts o x ho hx s s' hc h
    simp [runL] at h
  | succ F ih =>
    intro ts o x ho hx s s' hc h
    rw [show runL primChk (F + 1) (T.block [T.ins (Instruction.Shift o),
        T.ins (Instruction.Alt x), T.ins (Instruction.Shift (-o)),
        T.ins (Instruction.Alt (-1))] :: ts) s =
        (if s.tape s.ptr = 0 then runL primChk F ts s
        else
          match runL primChk F [T.ins (Instruction.Shift o),
              T.ins (Instruction.Alt x), T.ins (Instruction.Shift (-o)),
              T.ins (Instruction.Alt (-1))] s with
          | none => none
          | some s2 => runL primChk F (T.block [T.ins (Instruction.Shift o),
              T.ins (Instruction.Alt x), T.ins (Instruction.Shift (-o)),
              T.ins (Instruction.Alt (-1))] :: ts) s2) from rfl, if_neg hc] at h
    rcases hb : runL primChk F [T.ins (Instruction.Shift o),
        T.ins (Instruction.Alt x), T.ins (Instruction.Shift (-o)),
        T.ins (Instruction.Alt (-1))] s with _ | s2 <;> rw [hb] at h
    · cases h
    · have hch := runL_chain primChk F
        [Instruction.Shift o, Instruction.Alt x, Instruction.Shift (-o),
          Instruction.Alt (-1)] s s2 hb
      obtain ⟨g1a, g1b, g2a, g2b, gdec, hs2⟩ := chain_body₂ o x s s2 hch
      have hτ : (((s.ptr : Int) + o)).toNat = s.ptr := by omega
      have hc2 : s2.tape s2.ptr ≠ 0 := by
        rw [hs2]
        dsimp only
        rw [setTape_get]
        rw [hτ, setTape_get] at gdec
        rw [hτ, setTape_get]
        rw [hτ] at g2a
        omega
      exact ih ts o x ho hx s2 s' hc2 h

/-- A write to the source cell is irrelevant once that cell is finally
cleared. -/
theorem copy_tape_eq (t : Nat → Nat) (p τ : Nat) (D C : Nat) :
    setTape (setTape (setTape t p D) τ C) p 0 = setTape (setTape t τ C) p 0 := by
  funext j
  by_cases hj1 : j = p
  · rw [hj1, setTape_get, setTape_get]
  · rw [setTape_get_ne _ _ _ _ hj1, setTape_get_ne _ _ _ _ hj1]
    by_cases hj2 : j = τ
    · rw [hj2, setTape_get, setTape_get]
    · rw [setTape_get_ne _ _ _ _ hj2, setTape_get_ne _ _ _ _ hj2,
        setTape_get_ne _ _ _ _ hj1]

/-- Unrolling a first-form copy loop: a completed checked run of the block
is a checked `Copy` followed by `Clear`. -/
theorem runL_copy_block₁ :
    ∀ (F : Nat) (ts : List T) (o x : Int), 0 < x →
      ∀ (s s' : St),
        runL primChk F (T.block [T.ins (Instruction.Alt (-1)),
          T.ins (Instruction.Shift o), T.ins (Instruction.Alt x),
          T.ins (Instruction.Shift (-o))] :: ts) s = some s' →
        ∃ sE F2, F2 < F ∧
          (primChk (.Copy (x.toNat % 256) o) s).bind (primChk .Clear) = some sE ∧
          runL primChk F2 ts sE = some s' := by
  intro F
  induction F with
  | zero =>
    intro ts o x hx s s' h
    simp [runL] at h
  | succ F ih =>
    intro ts o x hx s s' h
    have horig := h
    rw [show runL primChk (F + 1) (T.block [T.ins (Instruction.Alt (-1)),
        T.ins (Instruction.Shift o), T.ins (Instruction.Alt x),
        T.ins (Instruction.Shift (-o))] :: ts) s =
        (if s.tape s.ptr = 0 then runL primChk F ts s
        else
          match runL primChk F [T.ins (Instruction.Alt (-1)),
              T.ins (Instruction.Shift o), T.ins (Instruction.Alt x),
              T.ins (Instruction.Shift (-o))] s with
          | none => none
          | some s2 => runL primChk F (T.block [T.ins (Instruction.Alt (-1)),
              T.ins (Instruction.Shift o), T.ins (Instruction.Alt x),
              T.ins (Instruction.Shift (-o))] :: ts) s2) from rfl] at h
    by_cases hcell : s.tape s.ptr = 0
    · rw [if_pos hcell] at h
      refine ⟨{ s with tape := setTape s.tape s.ptr 0 }, F, by omega,
        copyClear_intro_zero (x.toNat % 256) o s hcell, ?_⟩
      rw [show setTape s.tape s.ptr 0 = setTape s.tape s.ptr (s.tape s.ptr) by
        rw [hcell], setTape_id]
      exact h
    · rw [if_neg hcell] at h
      by_cases ho : o = 0
      · exact absurd horig (runL_copy_div₁ (F + 1) ts o x ho hx s s' hcell)
      rcases hb : runL primChk F [T.ins (Instruction.Alt (-1)),
          T.ins (Instruction.Shift o), T.ins (Instruction.Alt x),
          T.ins (Instruction.Shift (-o))] s with _ | s2 <;> rw [hb] at h
      · cases h
      have hch := runL_chain primChk F [Instruction.Alt (-1), Instruction.Shift o,
        Instruction.Alt x, Instruction.Shift (-o)] s s2 hb
      obtain ⟨hv, g2a, g2b, g3a, g3b, hs2⟩ := chain_body₁ o x s s2 hch
      have hτne : (((s.ptr : Int) + o)).toNat ≠ s.ptr := by omega
      have hT1τ : setTape s.tape s.ptr (((s.tape s.ptr : Int) + (-1))).toNat
          (((s.ptr : Int) + o)).toNat = s.tape (((s.ptr : Int) + o)).toNat :=
        setTape_get_ne _ _ _ _ hτne
      rw [hT1τ] at g3a g3b hs2
      have hm : x.toNat % 256 = x.toNat := by omega
      obtain ⟨sE, F2, hF2, hbind, hrun⟩ := ih ts o x hx s2 s' h
      refine ⟨sE, F2, by omega, ?_, hrun⟩
      rw [hs2] at hbind
      rcases copyClear_elim (x.toNat % 256) o _ sE hbind with ⟨hz, hsE⟩ |
        ⟨hz, ga, gb, gc, hsE⟩
      · dsimp only at hz hsE
        rw [setTape_get_ne _ _ _ _ (Ne.symm hτne), setTape_get] at hz
        have hv1 : s.tape s.ptr = 1 := by omega
        have g3' : s.tape (((s.ptr : Int) + o)).toNat +
            s.tape s.ptr * (x.toNat % 256) ≤ 255 := by
          rw [hv1, Nat.one_mul, hm]
          omega
        rw [copyClear_intro_pos (x.toNat % 256) o s hcell g2a g2b g3', hsE]
        have hval : s.tape (((s.ptr : Int) + o)).toNat +
            s.tape s.ptr * (x.toNat % 256) =
            (((s.tape (((s.ptr : Int) + o)).toNat : Int) + x)).toNat := by
          rw [hv1, Nat.one_mul, hm]
          omega
        rw [hval, ← copy_tape_eq s.tape s.ptr (((s.ptr : Int) + o)).toNat
          (((s.tape s.ptr : Int) + (-1))).toNat
          (((s.tape (((s.ptr : Int) + o)).toNat : Int) + x)).toNat]
      · dsimp only at hz ga gb gc hsE
        rw [setTape_get] at gc
        rw [setTape_get_ne _ _ _ _ (Ne.symm hτne), setTape_get] at gc
        have hsucc : s.tape s.ptr * (x.toNat % 256) =
            (((s.tape s.ptr : Int) + (-1))).toNat * (x.toNat % 256) +
              (x.toNat % 256) := by
          obtain ⟨w, hw⟩ : ∃ w, s.tape s.ptr = w + 1 := ⟨s.tape s.ptr - 1, by omega⟩
          rw [hw, show (((w + 1 : Nat) : Int) + (-1)).toNat = w by omega, Nat.succ_mul]
        have g3' : s.tape (((s.ptr : Int) + o)).toNat +
            s.tape s.ptr * (x.toNat % 256) ≤ 255 := by
          rw [hsucc]
          omega
        rw [copyClear_intro_pos (x.toNat % 256) o s hcell g2a g2b g3', hsE]
        rw [setTape_get, setTape_get_ne _ _ _ _ (Ne.symm hτne), setTape_get,
          setTape_setTape]
        have hval2 : s.tape (((s.ptr : Int) + o)).toNat +
            s.tape s.ptr * (x.toNat % 256) =
            (((s.tape (((s.ptr : Int) + o)).toNat : Int) + x)).toNat +
              (((s.tape s.ptr : Int) + (-1))).toNat * (x.toNat % 256) := by
          rw [hsucc]
          omega
        rw [hval2, ← copy_tape_eq s.tape s.ptr (((s.ptr : Int) + o)).toNat
          (((s.tape s.ptr : Int) + (-1))).toNat
          ((((s.tape (((s.ptr : Int) + o)).toNat : Int) + x)).toNat +
            (((s.tape s.ptr : Int) + (-1))).toNat * (x.toNat % 256))]

/-- Unrolling a second-form copy loop: a completed checked run of the block
is a checked `Copy` followed by `Clear`. -/
theorem runL_copy_block₂ :
    ∀ (F : Nat) (ts : List T) (o x : Int), 0 < x →
      ∀ (s s' : St),
        runL primChk F (T.block [T.ins (Instruction.Shift o),
          T.ins (Instruction.Alt x), T.ins (Instruction.Shift (-o)),
          T.ins (Instruction.Alt (-1))] :: ts) s = some s' →
        ∃ sE F2, F2 < F ∧
          (primChk (.Copy (x.toNat % 256) o) s).bind (primChk .Clear) = some sE ∧
          runL primChk F2 ts sE = some s' := by
  intro F
  induction F with
  | zero =>
    intro ts o x hx s s' h
    simp [runL] at h
  | succ F ih =>
    intro ts o x hx s s' h
    have horig := h
    rw [show runL primChk (F + 1) (T.block [T.ins (Instruction.Shift o),
        T.ins (Instruction.Alt x), T.ins (Instruction.Shift (-o)),
        T.ins (Instruction.Alt (-1))] :: ts) s =
        (if s.tape s.ptr = 0 then runL primChk F ts s
        else
          match runL primChk F [T.ins (Instruction.Shift o),
              T.ins (Instruction.Alt x), T.ins (Instruction.Shift (-o)),
              T.ins (Instruction.Alt (-1))] s with
          | none => none
          | some s2 => runL primChk F (T.block [T.ins (Instruction.Shift o),
              T.ins (Instruction.Alt x), T.ins (Instruction.Shift (-o)),
              T.ins (Instruction.Alt (-1))] :: ts) s2) from rfl] at h
    by_cases hcell : s.tape s.ptr = 0
    · rw [if_pos hcell] at h
      refine ⟨{ s with tape := setTape s.tape s.ptr 0 }, F, by omega,
        copyClear_intro_zero (x.toNat % 256) o s hcell, ?_⟩
      rw [show setTape s.tape s.ptr 0 = setTape s.tape s.ptr (s.tape s.ptr) by
        rw [hcell], setTape_id]
      exact h
    · rw [if_neg hcell] at h
      by_cases ho : o = 0
      · exact absurd horig (runL_copy_div₂ (F + 1) ts o x ho hx s s' hcell)
      rcases hb : runL primChk F [T.ins (Instruction.Shift o),
          T.ins (Instruction.Alt x), T.ins (Instruction.Shift (-o)),
          T.ins (Instruction.Alt (-1))] s with _ | s2 <;> rw [hb] at h
      · cases h
      have hch := runL_chain primChk F [Instruction.Shift o, Instruction.Alt x,
        Instruction.Shift (-o), Instruction.Alt (-1)] s s2 hb
      obtain ⟨g1a, g1b, g2a, g2b, gdec, hs2⟩ := chain_body₂ o x s s2 hch
      have hτne : (((s.ptr : Int) + o)).toNat ≠ s.ptr := by omega
      have hT2p : setTape s.tape (((s.ptr : Int) + o)).toNat
          (((s.tape (((s.ptr : Int) + o)).toNat : Int) + x)).toNat s.ptr =
          s.tape s.ptr :=
        setTape_get_ne _ _ _ _ (Ne.symm hτne)
      rw [hT2p] at gdec hs2
      have hm : x.toNat % 256 = x.toNat := by omega
      obtain ⟨sE, F2, hF2, hbind, hrun⟩ := ih ts o x hx s2 s' h
      refine ⟨sE, F2, by omega, ?_, hrun⟩
      rw [hs2] at hbind
      rcases copyClear_elim (x.toNat % 256) o _ sE hbind with ⟨hz, hsE⟩ |
        ⟨hz, ga, gb, gc, hsE⟩
      · dsimp only at hz hsE
        rw [setTape_get] at hz
        have hv1 : s.tape s.ptr = 1 := by omega
        have g3' : s.tape (((s.ptr : Int) + o)).toNat +
            s.tape s.ptr * (x.toNat % 256) ≤ 255 := by
          rw [hv1, Nat.one_mul, hm]
          omega
        rw [copyClear_intro_pos (x.toNat % 256) o s hcell g1a g1b g3', hsE,
          setTape_setTape]
        have hval : s.tape (((s.ptr : Int) + o)).toNat +
            s.tape s.ptr * (x.toNat % 256) =
            (((s.tape (((s.ptr : Int) + o)).toNat : Int) + x)).toNat := by
          rw [hv1, Nat.one_mul, hm]
          omega
        rw [hval]
      · dsimp only at hz ga gb gc hsE
        rw [setTape_get_ne _ _ _ _ hτne, setTape_get, setTape_get] at gc
        rw [setTape_get_ne _ _ _ _ hτne, setTape_get, setTape_get] at hsE
        have hsucc : s.tape s.ptr * (x.toNat % 256) =
            (((s.tape s.ptr : Int) + (-1))).toNat * (x.toNat % 256) +
              (x.toNat % 256) := by
          obtain ⟨w, hw⟩ : ∃ w, s.tape s.ptr = w + 1 := ⟨s.tape s.ptr - 1, by omega⟩
          rw [hw, show (((w + 1 : Nat) : Int) + (-1)).toNat = w by omega, Nat.succ_mul]
        have g3' : s.tape (((s.ptr : Int) + o)).toNat +
            s.tape s.ptr * (x.toNat % 256) ≤ 255 := by
          rw [hsucc]
          omega
        rw [copyClear_intro_pos (x.toNat % 256) o s hcell g1a g1b g3', hsE]
        rw [copy_tape_eq (setTape s.tape (((s.ptr : Int) + o)).toNat
            (((s.tape (((s.ptr : Int) + o)).toNat : Int) + x)).toNat) s.ptr
          (((s.ptr : Int) + o)).toNat (((s.tape s.ptr : Int) + (-1))).toNat,
          setTape_setTape]
        have hval2 : s.tape (((s.ptr : Int) + o)).toNat +
            s.tape s.ptr * (x.toNat % 256) =
            (((s.tape (((s.ptr : Int) + o)).toNat : Int) + x)).toNat +
              (((s.tape s.ptr : Int) + (-1))).toNat * (x.toNat % 256) := by
          rw [hsucc]
          omega
        rw [hval2]

/-- The copy-loop pass preserves completed checked runs. -/
theorem runL_copy :
    ∀ (N F : Nat), F ≤ N → ∀ (ts : List T) (s s' : St),
      runL primChk F ts s = some s' →
      ∃ G, runL primChk G (copyL ts) s = some s' := by
  intro N
  induction N with
  | zero =>
    intro F hF ts s s' h
    interval_cases F
    simp [runL] at h
  | succ N ih =>
    intro F hF ts s s' h
    rcases F with _ | F2
    · simp [runL] at h
    · cases ts with
      | nil =>
        rw [show runL primChk (F2 + 1) ([] : List T) s = some s from rfl] at h
        exact ⟨1, by rw [show copyL ([] : List T) = [] by simp [copyL]]; exact h⟩
      | cons t ts2 =>
        cases t with
        | ins i =>
          rw [show runL primChk (F2 + 1) (.ins i :: ts2) s =
              (match primChk i s with
                | none => none
                | some s2 => runL primChk F2 ts2 s2) from rfl] at h
          rcases hσ : primChk i s with _ | s2 <;> rw [hσ] at h
          · cases h
          · obtain ⟨G, hG⟩ := ih F2 (by omega) ts2 s2 s' h
            refine ⟨G + 1, ?_⟩
            rw [show copyL (T.ins i :: ts2) = T.ins i :: copyL ts2 by simp [copyL],
              show runL primChk (G + 1) (.ins i :: copyL ts2) s =
                (match primChk i s with
                  | none => none
                  | some s2 => runL primChk G (copyL ts2) s2) from rfl, hσ]
            exact hG
        | block b =>
          rcases copyL_block_eq b ts2 with ⟨a, o1, x, o2, hb, hg, he⟩ |
            ⟨o1, x, o2, a, hb, hg, he⟩ | ⟨hn1, hn2, he⟩
          · obtain ⟨ha, hx, ho⟩ := hg
            subst ha
            have ho2 : o2 = -o1 := by omega
            subst ho2
            subst hb
            obtain ⟨sE, F3, hF3, hbind, hrun⟩ :=
              runL_copy_block₁ (F2 + 1) ts2 o1 x hx s s' h
            obtain ⟨G, hG⟩ := ih F3 (by omega) ts2 sE s' hrun
            refine ⟨G + 2, ?_⟩
            rw [he]
            rcases hbc : primChk (.Copy (x.toNat % 256) o1) s with _ | s1 <;>
              rw [hbc] at hbind
            · simp at hbind
            · replace hbind : primChk Instruction.Clear s1 = some sE := hbind
              rw [show runL primChk (G + 2)
                  (T.ins (Instruction.Copy (x.toNat % 256) o1) ::
                    T.ins Instruction.Clear :: copyL ts2) s =
                  (match primChk (Instruction.Copy (x.toNat % 256) o1) s with
                    | none => none
                    | some u => runL primChk (G + 1)
                        (T.ins Instruction.Clear :: copyL ts2) u) from rfl, hbc]
              show (match primChk Instruction.Clear s1 with
                  | none => none
                  | some u => runL primChk G (copyL ts2) u) = some s'
              rw [hbind]
              exact hG
          · obtain ⟨ha, hx, ho⟩ := hg
            subst ha
            have ho2 : o2 = -o1 := by omega
            subst ho2
            subst hb
            obtain ⟨sE, F3, hF3, hbind, hrun⟩ :=
              runL_copy_block₂ (F2 + 1) ts2 o1 x hx s s' h
            obtain ⟨G, hG⟩ := ih F3 (by omega) ts2 sE s' hrun
            refine ⟨G + 2, ?_⟩
            rw [he]
            rcases hbc : primChk (.Copy (x.toNat % 256) o1) s with _ | s1 <;>
              rw [hbc] at hbind
            · simp at hbind
            · replace hbind : primChk Instruction.Clear s1 = some sE := hbind
              rw [show runL primChk (G + 2)
                  (T.ins (Instruction.Copy (x.toNat % 256) o1) ::
                    T.ins Instruction.Clear :: copyL ts2) s =
                  (match primChk (Instruction.Copy (x.toNat % 256) o1) s with
                    | none => none
                    | some u => runL primChk (G + 1)
                        (T.ins Instruction.Clear :: copyL ts2) u) from rfl, hbc]
              show (match primChk Instruction.Clear s1 with
                  | none => none
                  | some u => runL primChk G (copyL ts2) u) = some s'
              rw [hbind]
              exact hG
          · rw [show runL primChk (F2 + 1) (.block b :: ts2) s =
                (if s.tape s.ptr = 0 then runL primChk F2 ts2 s
                else
                  match runL primChk F2 b s with
                  | none => none
                  | some s2 => runL primChk F2 (.block b :: ts2) s2) from rfl] at h
            rw [he]
            by_cases hc : s.tape s.ptr = 0
            · rw [if_pos hc] at h
              obtain ⟨G, hG⟩ := ih F2 (by omega) ts2 s s' h
              refine ⟨G + 1, ?_⟩
              rw [show runL primChk (G + 1) (.block (copyL b) :: copyL ts2) s =
                  (if s.tape s.ptr = 0 then runL primChk G (copyL ts2) s
                  else
                    match runL primChk G (copyL b) s with
                    | none => none
                    | some s2 => runL primChk G
                        (.block (copyL b) :: copyL ts2) s2) from rfl, if_pos hc]
              exact hG
            · rw [if_neg hc] at h
              rcases hbr : runL primChk F2 b s with _ | s2 <;> rw [hbr] at h
              · cases h
              · obtain ⟨G1, hG1⟩ := ih F2 (by omega) b s s2 hbr
                obtain ⟨G2, hG2⟩ := ih F2 (by omega) (.block b :: ts2) s2 s' h
                rw [he] at hG2
                refine ⟨max G1 G2 + 1, ?_⟩
                rw [show runL primChk (max G1 G2 + 1)
                    (.block (copyL b) :: copyL ts2) s =
                    (if s.tape s.ptr = 0 then
                      runL primChk (max G1 G2) (copyL ts2) s
                    else
                      match runL primChk (max G1 G2) (copyL b) s with
                      | none => none
                      | some s2 => runL primChk (max G1 G2)
                          (.block (copyL b) :: copyL ts2) s2) from rfl,
                  if_neg hc,
                  runL_mono primChk G1 (max G1 G2) (copyL b) s s2 (by omega) hG1]
                exact runL_mono primChk G2 (max G1 G2) _ s2 s' (by omega) hG2

/-! ## End-to-end equivalence: interpreter vs compile + VM -/

theorem MInv_start (W : List T) (p : Program) (hwf : wfL W)
    (hpi : p.instructions = flatL W)
    (hlk : ∀ a b : Nat, lookupMap p.loop_map a = some b ↔ (a, b) ∈ insOrder 0 W) :
    MInv W p W [] 0 := by
  refine ⟨hpi, hlk, ?_, hwf, ?_, trivial⟩
  · simp [closing]
  · intro q hq
    exact hq

theorem runK_halt (σ : Instruction → St → Option St) (f : Nat) (s t : St)
    (h : runK σ f [] [] s = some t) : s = t := by
  rcases f with _ | f
  · simp [runK] at h
  · exact Option.some.inj h

theorem gmatch_halt (g : GOut) (t : St)
    (h : (match g with | GOut.halt u => some u | _ => none) = some t) :
    g = GOut.halt t := by
  rcases g with ⟨ip, s⟩ | u | _
  · cases h
  · rw [show u = t from Option.some.inj h]
  · cases h

theorem contr_flat_top (ts : List T) :
    contraction_optimizer (flatL ts) = flatL (contrL none ts) := by
  unfold contraction_optimizer
  have h := contrGo_flatL (flatL ts).length ts le_rfl none [] (Or.inl rfl)
  rw [List.append_nil] at h
  rw [h, show contrGo none [] = [] from rfl, List.append_nil]

/-- C10 (amended with the bracket-balance / successful-compile side
condition): whenever `compile` succeeds and a checked interpreter run —
which by construction keeps the data pointer inside the tape, keeps every
cell in `[0, 255]` and never reads past the provided byte input —
terminates with some output, the compiled program run on the VM
terminates with the same output. -/
theorem c10_interp_vm_out_equiv (src : List Char) (input : List Nat) (p : Program)
    (hin : ∀ b ∈ input, b ≤ 255)
    (hc : compile src = some p)
    (n : Nat) (out : List Nat)
    (hi : interpOut src input n = some out) :
    ∃ m, vmOut p m input = some out := by
  unfold compile at hc
  rcases hs : scanBrackets (optimize (parseSrc src)) 0 [] [] with _ | M <;>
    rw [hs] at hc
  · cases hc
  simp only [Option.map, Option.some.injEq] at hc
  have hb : balB (bracketsOf (parseSrc src)) 0 = true := by
    rw [← optimize_balB]
    have := scanBrackets_isSome (optimize (parseSrc src)) 0 [] []
    rw [hs] at this
    simpa using this.symm
  obtain ⟨ts0, hwf0, hflat0⟩ := exists_tree_of_balanced (parseSrc src) hb
  -- interpreter construction
  unfold interpOut at hi
  rcases hmk : mkInterp src with _ | ip0 <;> rw [hmk] at hi
  · cases hi
  have hscan0 : scanBrackets ((parseISrc src).map i2v) 0 [] [] =
      some ((insOrder 0 ts0).reverse) := by
    rw [← parseSrc_map, ← hflat0]
    exact scanBrackets_of_flat ts0 hwf0
  have hsi := scanI_of_scan (parseISrc src) 0 [] [] _ hscan0
  have hip0 : ip0 = ⟨parseISrc src, (insOrder 0 ts0).reverse⟩ := by
    replace hmk : Option.map (fun m => (⟨parseISrc src, m⟩ : Interp))
        (scanIBrackets (parseISrc src) 0 [] []) = some ip0 := hmk
    rw [hsi] at hmk
    simp only [Option.map, Option.some.injEq] at hmk
    exact hmk.symm
  subst hip0
  replace hi : (match interpRun ⟨parseISrc src, (insOrder 0 ts0).reverse⟩ n
      (vmInit input) with
    | VMOutcome.halt s => some s.output
    | _ => none) = some out := hi
  obtain ⟨sH, hrun, hout⟩ : ∃ sH,
      interpRun ⟨parseISrc src, (insOrder 0 ts0).reverse⟩ n (vmInit input) =
        VMOutcome.halt sH ∧ sH.output = out := by
    rcases hrun : interpRun ⟨parseISrc src, (insOrder 0 ts0).reverse⟩ n
        (vmInit input) with s2' | sH | e <;> rw [hrun] at hi
    · cases hi
    · exact ⟨sH, rfl, Option.some.inj hi⟩
    · cases hi
  -- initial state well-formedness
  have hok : StOK (toSt (vmInit input)) := by
    refine ⟨?_, ?_, ?_⟩
    · intro i
      show (0 : Nat) ≤ 255
      decide
    · show (0 : Nat) < MEM
      decide
    · exact hin
  -- interpreter run to checked machine run
  have hG : genRun primChk ⟨(parseISrc src).map i2v, (insOrder 0 ts0).reverse⟩ n
      0 (toSt (vmInit input)) = GOut.halt (toSt sH) := by
    have h := genRun_interp (parseISrc src) ((insOrder 0 ts0).reverse) n
      (vmInit input) hok
    rw [hrun] at h
    exact h
  -- checked machine run to checked tree run
  have hInv0 : MInv ts0 ⟨(parseISrc src).map i2v, (insOrder 0 ts0).reverse⟩
      ts0 [] 0 :=
    MInv_start ts0 _ hwf0
      (by
        show (parseISrc src).map i2v = flatL ts0
        rw [hflat0, parseSrc_map])
      (fun a b => lookup_insOrder ts0 a b)
  have hK0 : runK primChk n ts0 [] (toSt (vmInit input)) = some (toSt sH) := by
    rw [← lockstep primChk ts0 _ n ts0 [] 0 (toSt (vmInit input)) hInv0, hG]
  obtain ⟨F1, s1, hL0, f2, hf2, hK2⟩ :=
    runK_decomp primChk n n le_rfl ts0 [] (toSt (vmInit input)) (toSt sH) hK0
  rw [runK_halt primChk f2 s1 (toSt sH) hK2] at hL0
  -- the four passes
  obtain ⟨G1, hL1⟩ := runL_contr F1 ts0 _ _ hL0 none (toSt (vmInit input)) rfl
  obtain ⟨G2, hL2⟩ := runL_noop G1 (contrL none ts0) _ _ hL1
  obtain ⟨G3, hL3⟩ := runL_clear G2 G2 le_rfl (noopL (contrL none ts0)) _ _ hL2
  obtain ⟨G4, hL4⟩ :=
    runL_copy G3 G3 le_rfl (clearL (noopL (contrL none ts0))) _ _ hL3
  have hwf1 : wfL (contrL none ts0) :=
    contrL_wf (flatL ts0).length ts0 le_rfl hwf0 none (fun q hq => nomatch hq)
  have hwf2 : wfL (noopL (contrL none ts0)) :=
    noopL_wf (flatL (contrL none ts0)).length _ le_rfl hwf1
  have hwf3 : wfL (clearL (noopL (contrL none ts0))) :=
    clearL_wf (flatL (noopL (contrL none ts0))).length _ le_rfl hwf2
  have hwf4 : wfL (copyL (clearL (noopL (contrL none ts0)))) :=
    copyL_wf (flatL (clearL (noopL (contrL none ts0)))).length _ le_rfl hwf3
  have hoptflat : optimize (parseSrc src) =
      flatL (copyL (clearL (noopL (contrL none ts0)))) := by
    unfold optimize
    rw [← hflat0, contr_flat_top,
      noopL_flat (flatL (contrL none ts0)).length _ le_rfl,
      clearL_flat _ hwf2, copyL_flat _ hwf3]
  -- no no-op-like instruction survives the pipeline
  have hnoop : ∀ j ∈ flatL (copyL (clearL (noopL (contrL none ts0)))),
      isNoOpLike j = false := by
    intro j hj
    rw [← hoptflat] at hj
    exact optimize_no_noOpLike _ _ hj
  -- switch to the VM's unchecked semantics
  have hVM : runL primVM G4 (copyL (clearL (noopL (contrL none ts0))))
      (toSt (vmInit input)) = some (toSt sH) :=
    runL_switch G4 _ _ _ hL4 hok hnoop
  -- back up to the machine over the compiled program
  obtain ⟨f3, hK3⟩ := runL_runK primVM G4 _ _ _ hVM [] 1 (toSt sH) rfl
  have hM : M = (insOrder 0 (copyL (clearL (noopL (contrL none ts0))))).reverse := by
    rw [hoptflat] at hs
    rw [scanBrackets_of_flat _ hwf4] at hs
    exact (Option.some.inj hs).symm
  have hInv4 : MInv (copyL (clearL (noopL (contrL none ts0)))) p
      (copyL (clearL (noopL (contrL none ts0)))) [] 0 := by
    refine MInv_start _ p hwf4 ?_ ?_
    · rw [← hc, hoptflat]
    · rw [← hc]
      dsimp only
      rw [hM]
      exact fun a b => lookup_insOrder _ a b
  have hhalt : genRun primVM p f3 0 (toSt (vmInit input)) = GOut.halt (toSt sH) :=
    gmatch_halt _ _ (by
      rw [lockstep primVM (copyL (clearL (noopL (contrL none ts0)))) p f3 _ [] 0
        (toSt (vmInit input)) hInv4]
      exact hK3)
  have hGvm : genRun primVM p f3 0 (toSt (vmInit input)) =
      (match vmRun p f3 (vmInit input) with
        | .cont s2 => GOut.cont s2.in_ptr (toSt s2)
        | .halt s2 => GOut.halt (toSt s2)
        | .fail _ => GOut.fail) := genRun_vm p f3 (vmInit input)
  rw [hhalt] at hGvm
  rcases hv : vmRun p f3 (vmInit input) with s2 | s2 | e <;> rw [hv] at hGvm
  · cases hGvm
  · have houtp : s2.output = sH.output := by
      have := congrArg St.outp (GOut.halt.inj hGvm.symm)
      exact this
    refine ⟨f3, ?_⟩
    unfold vmOut
    rw [hv]
    show some s2.output = some out
    rw [houtp, hout]
  · cases hGvm

/-- C10 counterexample to the unamended claim: on the bracket-unbalanced
source `"+["` the interpreter's run (which satisfies every side condition:
the pointer stays put, the cell reaches only 1, no input is read) halts
with output `[]`, while the pipeline's `compile` panics on the unmatched
bracket and the VM side produces no output at all. -/
theorem c10_unbalanced_source_counterexample :
    interpOut "+[".data [] 3 = some [] ∧ compile "+[".data = none := by
  constructor
  · decide
  · decide

/-- C10 witness: a concrete checked interpreter run through `,+.` on the
input byte 65, matched by the compiled program on the VM. -/
theorem c10_interp_vm_out_equiv_witness :
    (∀ b ∈ [(65 : Nat)], b ≤ 255) ∧
    compile ",+.".data = some ⟨[.In, .Alt 1, .Out], []⟩ ∧
    interpOut ",+.".data [65] 10 = some [66] ∧
    ∃ m, vmOut (⟨[.In, .Alt 1, .Out], []⟩ : Program) m [65] = some [66] :=
  ⟨by decide, by decide, by decide,
    c10_interp_vm_out_equiv ",+.".data [65] ⟨[.In, .Alt 1, .Out], []⟩
      (by decide) (by decide) 10 [66] (by decide)⟩
